import Mathlib

/-!
# YAFFS2 core: definitions and properties (`fs/yaffs2/yaffs_guts.h`)

A shallow embedding of the constants, record layouts and marshalling macros
declared in `fs/yaffs2/yaffs_guts.h`, and of the operations that the header only
declares (block accounting, checkpoint validity, free-space reserve, tnode tree
and file data path), followed by the properties established about them.

Conventions.
* C `u32` / `unsigned` values are natural numbers, reduced `% 2^32` where a
  computation can overflow.
* `loff_t` (signed 64-bit) values are integers in `[-2^63, 2^63)`.  Bitwise
  operators act on the two's-complement bit pattern (`toBits64` / `ofBits64`).
* Signed 10-bit bit-fields hold integers in `[-512, 511]` (`store_s10`).
* Operations whose bodies are not part of the sources are marked
  `Modelled from the spec:` in their documentation.

Two smaller sources follow the YAFFS definitions: the setters of the root
interrupt handlers of `arch/arm64/kernel/irq.c` (namespace `Irq`) and the
type-of-service and option macros of `include/uapi/linux/ip.h` (namespace `Ip`).
-/

namespace Yaffs

/-! ## Constants -/

/-- Macro `#define YAFFS_OK 1` -/
def YAFFS_OK : Nat := 1
/-- Macro `#define YAFFS_FAIL 0` -/
def YAFFS_FAIL : Nat := 0
/-- Macro `#define YAFFS_MAGIC 0x5941ff53` -/
def YAFFS_MAGIC : Nat := 0x5941ff53

/-- Macro `#define YAFFS_NTNODES_LEVEL0 16` -/
def YAFFS_NTNODES_LEVEL0 : Nat := 16
/-- Macro `#define YAFFS_TNODES_LEVEL0_BITS 4` -/
def YAFFS_TNODES_LEVEL0_BITS : Nat := 4
/-- Macro `#define YAFFS_TNODES_LEVEL0_MASK 0xf` -/
def YAFFS_TNODES_LEVEL0_MASK : Nat := 0xf
/-- Macro `#define YAFFS_NTNODES_INTERNAL (YAFFS_NTNODES_LEVEL0 / 2)` -/
def YAFFS_NTNODES_INTERNAL : Nat := YAFFS_NTNODES_LEVEL0 / 2
/-- Macro `#define YAFFS_TNODES_INTERNAL_BITS (YAFFS_TNODES_LEVEL0_BITS - 1)` -/
def YAFFS_TNODES_INTERNAL_BITS : Nat := YAFFS_TNODES_LEVEL0_BITS - 1
/-- Macro `#define YAFFS_TNODES_INTERNAL_MASK 0x7` -/
def YAFFS_TNODES_INTERNAL_MASK : Nat := 0x7
/-- Macro `#define YAFFS_TNODES_MAX_LEVEL 8` -/
def YAFFS_TNODES_MAX_LEVEL : Nat := 8
/-- Macro `#define YAFFS_TNODES_MAX_BITS (YAFFS_TNODES_LEVEL0_BITS +
    YAFFS_TNODES_INTERNAL_BITS * YAFFS_TNODES_MAX_LEVEL)` -/
def YAFFS_TNODES_MAX_BITS : Nat :=
  YAFFS_TNODES_LEVEL0_BITS + YAFFS_TNODES_INTERNAL_BITS * YAFFS_TNODES_MAX_LEVEL
/-- Macro `#define YAFFS_MAX_CHUNK_ID ((1 << YAFFS_TNODES_MAX_BITS) - 1)` -/
def YAFFS_MAX_CHUNK_ID : Nat := (1 <<< YAFFS_TNODES_MAX_BITS) - 1

/-- Macro `#define YAFFS_BYTES_PER_SPARE 16` -/
def YAFFS_BYTES_PER_SPARE : Nat := 16
/-- Macro `#define YAFFS_BYTES_PER_CHUNK 512` -/
def YAFFS_BYTES_PER_CHUNK : Nat := 512
/-- Macro `#define YAFFS_CHUNKS_PER_BLOCK 32` -/
def YAFFS_CHUNKS_PER_BLOCK : Nat := 32

/-- Macro `#define YAFFS_OBJECT_SPACE 0x40000` -/
def YAFFS_OBJECT_SPACE : Nat := 0x40000
/-- Macro `#define YAFFS_MAX_OBJECT_ID (YAFFS_OBJECT_SPACE - 1)` -/
def YAFFS_MAX_OBJECT_ID : Nat := YAFFS_OBJECT_SPACE - 1

/-- Macro `#define YAFFS_OBJECTID_CHECKPOINT_DATA 0x20` -/
def YAFFS_OBJECTID_CHECKPOINT_DATA : Nat := 0x20
/-- Macro `#define YAFFS_SEQUENCE_CHECKPOINT_DATA 0x21` -/
def YAFFS_SEQUENCE_CHECKPOINT_DATA : Nat := 0x21

/-- Macro `#define YAFFS_LOWEST_SEQUENCE_NUMBER 0x00001000` -/
def YAFFS_LOWEST_SEQUENCE_NUMBER : Nat := 0x00001000
/-- Macro `#define YAFFS_HIGHEST_SEQUENCE_NUMBER 0xefffff00` -/
def YAFFS_HIGHEST_SEQUENCE_NUMBER : Nat := 0xefffff00
/-- Macro `#define YAFFS_SEQUENCE_BAD_BLOCK 0xffff0000` -/
def YAFFS_SEQUENCE_BAD_BLOCK : Nat := 0xffff0000

/-- Macro `#define YAFFS_CHECKPOINT_VERSION 8` -/
def YAFFS_CHECKPOINT_VERSION : Nat := 8

/-! ## Signed 64-bit (`loff_t`) arithmetic -/

/-- Two's-complement bit pattern of a `loff_t` value. -/
def toBits64 (x : Int) : Nat := (x % 2 ^ 64).toNat

/-- The `loff_t` value denoted by a 64-bit pattern (higher bits are dropped). -/
def ofBits64 (n : Nat) : Int :=
  if n % 2 ^ 64 < 2 ^ 63 then ((n % 2 ^ 64 : Nat) : Int) else ((n % 2 ^ 64 : Nat) : Int) - 2 ^ 64

/-- The cast `(loff_t) v`. -/
def castLoff (v : Int) : Int := ofBits64 (toBits64 v)

/-- C `a & b` on `loff_t` operands. -/
def loffAnd (a b : Int) : Int := ofBits64 (toBits64 a &&& toBits64 b)

/-- C `a | b` on `loff_t` operands. -/
def loffOr (a b : Int) : Int := ofBits64 (toBits64 a ||| toBits64 b)

/-- C `a << k` on a `loff_t` operand; bits shifted past bit 63 are lost. -/
def loffShl (a : Int) (k : Nat) : Int := ofBits64 (toBits64 a <<< k)

/-- C `a >> k` on a `loff_t` operand: arithmetic (sign-propagating) shift. -/
def loffShr (a : Int) (k : Nat) : Int := Int.shiftRight a k

/-! ## File-size marshalling macros (64-bit `loff_t`) -/

/-- Macro `#define FSIZE_LOW(fsize) ((fsize) & 0xffffffff)` -/
def FSIZE_LOW (fsize : Int) : Int := loffAnd fsize 0xffffffff

/-- Macro `#define FSIZE_HIGH(fsize) (((fsize) >> 32) & 0xffffffff)` -/
def FSIZE_HIGH (fsize : Int) : Int := loffAnd (loffShr fsize 32) 0xffffffff

/-- Macro `#define FSIZE_COMBINE(high, low)
    ((((loff_t) (high)) << 32) | (((loff_t) (low)) & 0xFFFFFFFF))` -/
def FSIZE_COMBINE (high low : Int) : Int :=
  loffOr (loffShl (castLoff high) 32) (loffAnd (castLoff low) 0xFFFFFFFF)

/-! ## File-size marshalling macros (`LOFF_T_32_BIT`) -/

/-- Macro `#define FSIZE_LOW(fsize) (fsize)` under `LOFF_T_32_BIT`. -/
def FSIZE_LOW_32 (fsize : Int) : Int := fsize

/-- Macro `#define FSIZE_HIGH(fsize) 0` under `LOFF_T_32_BIT`. -/
def FSIZE_HIGH_32 (_fsize : Int) : Int := 0

/-- Macro `#define FSIZE_COMBINE(high, low) (low)` under `LOFF_T_32_BIT`. -/
def FSIZE_COMBINE_32 (_high low : Int) : Int := low

/-! ## Bit-field records -/

/-- One member of a C struct that is declared as a bit-field:
its name, its width in bits and whether the declared base type is signed. -/
structure BitFieldDecl where
  name : String
  width : Nat
  isSigned : Bool
deriving DecidableEq, Repr

/-- The bit-field members of `struct yaffs_block_info`, in declaration order
(`seq_number` is a plain `u32` that follows them). -/
def yaffs_block_info_bitfields : List BitFieldDecl :=
  [ ⟨"soft_del_pages", 10, true⟩,
    ⟨"pages_in_use", 10, true⟩,
    ⟨"block_state", 4, false⟩,
    ⟨"needs_retiring", 1, false⟩,
    ⟨"skip_erased_check", 1, false⟩,
    ⟨"gc_prioritise", 1, false⟩,
    ⟨"chunk_error_strikes", 3, false⟩,
    ⟨"has_summary", 1, false⟩,
    ⟨"has_shrink_hdr", 1, false⟩ ]

/-- Total number of bits declared by a run of bit-fields. -/
def bitfieldBits (fs : List BitFieldDecl) : Nat := (fs.map (·.width)).sum

/-- Placement of a run of 32-bit-based bit-fields: a field is put at the next
free bit of the current 32-bit unit, unless it would cross the unit's end, in
which case it starts a new unit.  The state is
`(units completed before the current one, bits used in the current unit)`. -/
def placeBitfield (st : Nat × Nat) (f : BitFieldDecl) : Nat × Nat :=
  if st.2 + f.width ≤ 32 then (st.1, st.2 + f.width) else (st.1 + 1, f.width)

/-- Number of 32-bit storage units occupied by a run of bit-fields. -/
def bitfieldUnits (fs : List BitFieldDecl) : Nat :=
  let st := fs.foldl placeBitfield (0, 0)
  if st.2 = 0 then st.1 else st.1 + 1

/-- Size `sizeof(u32)` in bytes. -/
def sizeof_u32 : Nat := 4

/-- Size `sizeof(struct yaffs_block_info)`: the bit-field units followed by the
`u32 seq_number` member. -/
def sizeof_yaffs_block_info : Nat :=
  sizeof_u32 * bitfieldUnits yaffs_block_info_bitfields + sizeof_u32

/-- Number of elements of `as_u32` in `union yaffs_block_info_union`
(`u32 as_u32[2]`). -/
def yaffs_block_info_union_as_u32_len : Nat := 2

/-! ## Block and chunk accounting -/

/-- Value read back from a signed 10-bit bit-field (`s32 f:10`) after `v` has
been stored into it: `v` reduced modulo `2^10` and sign-extended. -/
def store_s10 (v : Int) : Int := (v + 512) % 1024 - 512

/-- Accounting view of one physical chunk: its bit in the `chunk_bits` bitmap
(`1` = in use) and whether it has been soft deleted, i.e. is one of the chunks
counted by `soft_del_pages`. -/
structure ChunkAcct where
  in_use : Bool
  soft_deleted : Bool
deriving DecidableEq, Repr

/-- Accounting view of one block: the block's slice of `chunk_bits` together
with the `pages_in_use` and `soft_del_pages` members of
`struct yaffs_block_info` (both `s32 :10`). -/
structure BlockAcct where
  chunks : List ChunkAcct
  pages_in_use : Int
  soft_del_pages : Int
deriving DecidableEq, Repr

/-- Number of bits set in the block's slice of the chunk bitmap. -/
def BlockAcct.bitsSet (b : BlockAcct) : Nat := b.chunks.countP (fun c => c.in_use)

/-- Number of chunks of the block that are in use and soft deleted. -/
def BlockAcct.softSet (b : BlockAcct) : Nat :=
  b.chunks.countP (fun c => c.in_use && c.soft_deleted)

/-- Modelled from the spec: the block as left by an erase (the body of the erase
path, `yaffs_block_became_dirty`, is not among the sources).  The block returns
to `Empty`: no chunk is in use and both counts are zero. -/
def BlockAcct.erased (chunks_per_block : Nat) : BlockAcct :=
  { chunks := List.replicate chunks_per_block ⟨false, false⟩,
    pages_in_use := 0, soft_del_pages := 0 }

/-- Modelled from the spec: chunk allocation (the body of the allocator is not
among the sources).  The allocator hands out a chunk that is not in use; the
chunk's bit is set and `pages_in_use` is incremented. -/
def BlockAcct.alloc (b : BlockAcct) (page : Nat) : BlockAcct :=
  match b.chunks[page]? with
  | some c =>
    if c.in_use then b
    else
      { chunks := b.chunks.set page ⟨true, false⟩,
        pages_in_use := store_s10 (b.pages_in_use + 1),
        soft_del_pages := b.soft_del_pages }
  | none => b

/-- Modelled from the spec: `yaffs_chunk_del` (declared in `yaffs_guts.h`, body
not among the sources).  Deleting a chunk that is in use clears its bit and
decrements `pages_in_use`; when the chunk was a soft-deleted one that the
collector reclaims, it also stops counting toward `soft_del_pages`. -/
def BlockAcct.chunk_del (b : BlockAcct) (page : Nat) : BlockAcct :=
  match b.chunks[page]? with
  | some c =>
    if c.in_use then
      { chunks := b.chunks.set page ⟨false, false⟩,
        pages_in_use := store_s10 (b.pages_in_use - 1),
        soft_del_pages :=
          if c.soft_deleted then store_s10 (b.soft_del_pages - 1) else b.soft_del_pages }
    else b
  | none => b

/-- Modelled from the spec: soft delete of one chunk (body not among the
sources).  The chunk stays in use (its bit and `pages_in_use` are untouched) and
is marked through `soft_del_pages`; a chunk is soft deleted at most once. -/
def BlockAcct.soft_del (b : BlockAcct) (page : Nat) : BlockAcct :=
  match b.chunks[page]? with
  | some c =>
    if c.in_use && !c.soft_deleted then
      { chunks := b.chunks.set page ⟨true, true⟩,
        pages_in_use := b.pages_in_use,
        soft_del_pages := store_s10 (b.soft_del_pages + 1) }
    else b
  | none => b

/-- The operations that change a block's counts. -/
inductive AcctOp where
  | alloc (blk page : Nat)
  | chunk_del (blk page : Nat)
  | soft_del (blk page : Nat)
  | erase (blk : Nat)
deriving DecidableEq, Repr

/-- Apply `f` to block `blk` of the device's `block_info` array. -/
def onBlock (d : List BlockAcct) (blk : Nat) (f : BlockAcct → BlockAcct) : List BlockAcct :=
  match d[blk]? with
  | some b => d.set blk (f b)
  | none => d

/-- One accounting step on a device whose blocks hold `chunks_per_block` chunks. -/
def acctStep (chunks_per_block : Nat) (d : List BlockAcct) : AcctOp → List BlockAcct
  | .alloc blk page => onBlock d blk (fun b => b.alloc page)
  | .chunk_del blk page => onBlock d blk (fun b => b.chunk_del page)
  | .soft_del blk page => onBlock d blk (fun b => b.soft_del page)
  | .erase blk => onBlock d blk (fun _ => BlockAcct.erased chunks_per_block)

/-- A freshly formatted device: every block erased. -/
def acctFormat (n_blocks chunks_per_block : Nat) : List BlockAcct :=
  List.replicate n_blocks (BlockAcct.erased chunks_per_block)

/-- The device state reached from a formatted device by a sequence of
operations. -/
def acctRun (n_blocks chunks_per_block : Nat) (ops : List AcctOp) : List BlockAcct :=
  ops.foldl (acctStep chunks_per_block) (acctFormat n_blocks chunks_per_block)

/-- The inductive form of the accounting invariant for one block. -/
def BlockAcct.Inv (chunks_per_block : Nat) (b : BlockAcct) : Prop :=
  b.chunks.length = chunks_per_block ∧
  b.pages_in_use = (b.bitsSet : Int) ∧
  b.soft_del_pages = (b.softSet : Int)

/-! ## Checkpoint validity -/

/-- The record `struct yaffs_checkpt_validity`
(`int struct_type; u32 magic; u32 version; u32 head;`). -/
structure yaffs_checkpt_validity where
  struct_type : Int
  magic : Nat
  version : Nat
  head : Nat
deriving DecidableEq, Repr

/-- Modelled from the spec: the rolling sum over the bytes of a checkpoint
stream, kept in the `u32` field `checkpt_sum` (the checkpoint stream code is not
among the sources). -/
def checkpt_sum (bytes : List Nat) : Nat := bytes.foldl (fun acc b => (acc + b) % 2 ^ 32) 0

/-- Modelled from the spec: the rolling xor over the bytes of a checkpoint
stream, kept in the `u32` field `checkpt_xor` (the checkpoint stream code is not
among the sources). -/
def checkpt_xor (bytes : List Nat) : Nat := bytes.foldl (fun acc b => acc ^^^ b) 0

/-- Modelled from the spec: a stored checkpoint as `yaffs_checkpoint_restore`
reads it (the stream format code is not among the sources): the validity header,
the bytes of the records that follow it (device summary, object records, block
info, chunk bitmap), the closing validity marker, and the stored sum and xor
checksum. -/
structure CheckpointStream where
  head_marker : yaffs_checkpt_validity
  records : List Nat
  tail_marker : yaffs_checkpt_validity
  stored_sum : Nat
  stored_xor : Nat
deriving DecidableEq, Repr

/-- The part of `struct yaffs_dev` that the validity gate of a restore reads and
writes: the mount toggle `param.skip_checkpt_rd` and the flag `is_checkpointed`. -/
structure CheckptDev where
  skip_checkpt_rd : Bool
  is_checkpointed : Bool
deriving DecidableEq, Repr

/-- Modelled from the spec: verification of one validity record (body not among
the sources).  The header is written with the head flag `1`, the closing marker
with the head flag `0`. -/
def validity_marker_ok (cp : yaffs_checkpt_validity) (head : Nat) : Bool :=
  cp.magic == YAFFS_MAGIC && cp.version == YAFFS_CHECKPOINT_VERSION && cp.head == head

/-- Modelled from the spec: `yaffs_checkpoint_restore` (declared in
`yaffs_guts.h`, body not among the sources).  The restore reads the stream and
verifies magic, version, head marker, tail marker and checksum; on any mismatch
it reports failure and the device is left not checkpointed.  With
`skip_checkpt_rd` set no restore takes place. -/
def yaffs_checkpoint_restore (dev : CheckptDev) (s : CheckpointStream) : Nat × CheckptDev :=
  if !dev.skip_checkpt_rd
      && validity_marker_ok s.head_marker 1
      && validity_marker_ok s.tail_marker 0
      && s.stored_sum == checkpt_sum s.records
      && s.stored_xor == checkpt_xor s.records then
    (YAFFS_OK, { dev with is_checkpointed := true })
  else
    (YAFFS_FAIL, { dev with is_checkpointed := false })

/-! ## Free-space reserve -/

/-- The members of `struct yaffs_dev` that the free-space check reads:
`param.n_reserved_blocks`, `param.chunks_per_block` (both `u32`) and
`n_free_chunks` (`int`). -/
structure SpaceDev where
  n_reserved_blocks : Nat
  chunks_per_block : Nat
  n_free_chunks : Int
deriving DecidableEq, Repr

/-- The reserve held aside for the collector, in chunks:
`n_reserved_blocks` blocks' worth. -/
def SpaceDev.reserved_chunks (dev : SpaceDev) : Int :=
  (dev.n_reserved_blocks : Int) * (dev.chunks_per_block : Int)

/-- Modelled from the spec: `yaffs_check_alloc_available` (declared in
`yaffs_guts.h`, body not among the sources): whether `n_chunks` new chunks can be
programmed without consuming the reserve. -/
def yaffs_check_alloc_available (dev : SpaceDev) (n_chunks : Int) : Bool :=
  decide (dev.reserved_chunks + n_chunks ≤ dev.n_free_chunks)

/-- Outcome of the space check made before a chunk is programmed. -/
inductive SpaceResult where
  | ok
  | no_space
deriving DecidableEq, Repr

/-- Modelled from the spec: the space check of a one-chunk write (the write path
is not among the sources; `yaffs_wr_data_obj` carries the `use_reserve` flag).
A normal write needs `yaffs_check_alloc_available(dev, 1)`; a write that may use
the reserve (the collector's) is not refused. -/
def write_space_check (dev : SpaceDev) (use_reserve : Bool) : SpaceResult :=
  if use_reserve || yaffs_check_alloc_available dev 1 then .ok else .no_space

/-! ## Tnode tree -/

/-- A tnode: at level 0 it holds `YAFFS_NTNODES_LEVEL0` (16) slots for chunks, at
higher levels `YAFFS_NTNODES_INTERNAL` (8) slots pointing to other tnodes
(`struct yaffs_tnode`). -/
inductive Tnode where
  | leaf (slots : Fin 16 → Option Nat)
  | internal (kids : Fin 8 → Option Tnode)

/-- Index of chunk id `i` in a level-0 tnode: `i & YAFFS_TNODES_LEVEL0_MASK`. -/
def tnode_index0 (i : Nat) : Fin 16 :=
  ⟨i &&& YAFFS_TNODES_LEVEL0_MASK, Nat.lt_succ_of_le Nat.and_le_right⟩

/-- Index of chunk id `i` in a tnode of level `level ≥ 1`:
`(i >> (YAFFS_TNODES_LEVEL0_BITS + (level - 1) * YAFFS_TNODES_INTERNAL_BITS))
  & YAFFS_TNODES_INTERNAL_MASK`. -/
def tnode_index (level i : Nat) : Fin 8 :=
  ⟨(i >>> (YAFFS_TNODES_LEVEL0_BITS + (level - 1) * YAFFS_TNODES_INTERNAL_BITS))
      &&& YAFFS_TNODES_INTERNAL_MASK, Nat.lt_succ_of_le Nat.and_le_right⟩

/-- Whether a tree of depth `level` is tall enough for chunk id `i`. -/
def tnode_fits (level i : Nat) : Bool :=
  i >>> (YAFFS_TNODES_LEVEL0_BITS + level * YAFFS_TNODES_INTERNAL_BITS) == 0

/-- The slots of a level-0 tnode (all empty when there is none). -/
def Tnode.slotsOf : Option Tnode → Fin 16 → Option Nat
  | some (.leaf s) => s
  | _ => fun _ => none

/-- The children of an internal tnode (none when there is no such tnode). -/
def Tnode.kidsOf : Option Tnode → Fin 8 → Option Tnode
  | some (.internal k) => k
  | _ => fun _ => none

/-- Modelled from the spec: traversal from a tnode of level `level` down to
level 0 and the slot stored there for chunk id `i` (the tnode code is not among
the sources). -/
def Tnode.lookup : Nat → Option Tnode → Nat → Option Nat
  | 0, t, i => Tnode.slotsOf t (tnode_index0 i)
  | level + 1, t, i => Tnode.lookup level (Tnode.kidsOf t (tnode_index (level + 1) i)) i

/-- Modelled from the spec: traversal from a tnode of level `level` down to
level 0, creating the tnodes that are missing, and store of `v` in the slot of
chunk id `i` (the tnode code is not among the sources). -/
def Tnode.insert : Nat → Option Tnode → Nat → Nat → Tnode
  | 0, t, i, v => .leaf (Function.update (Tnode.slotsOf t) (tnode_index0 i) (some v))
  | level + 1, t, i, v =>
    .internal (Function.update (Tnode.kidsOf t) (tnode_index (level + 1) i)
      (some (Tnode.insert level (Tnode.kidsOf t (tnode_index (level + 1) i)) i v)))

/-- The tnode tree of a file: `top_level` and `top` of `struct yaffs_file_var`. -/
structure TnodeTree where
  top_level : Nat
  top : Option Tnode

/-- Modelled from the spec: `yaffs_find_tnode_0` followed by the read of the
slot (declared in `yaffs_guts.h`, body not among the sources): the slot stored
for chunk id `i`, `none` when the tree is not tall enough or has no tnode
there. -/
def TnodeTree.find (t : TnodeTree) (i : Nat) : Option Nat :=
  if tnode_fits t.top_level i then Tnode.lookup t.top_level t.top i else none

/-- Modelled from the spec: growth of the tree in depth as needed (the tnode code
is not among the sources), by up to `fuel` levels, until it is tall enough for
chunk id `i`: the old top becomes child 0 of a new top. -/
def TnodeTree.grow : Nat → TnodeTree → Nat → TnodeTree
  | 0, t, _ => t
  | fuel + 1, t, i =>
    if tnode_fits t.top_level i then t
    else
      TnodeTree.grow fuel
        ⟨t.top_level + 1, some (.internal (Function.update (fun _ => none) 0 t.top))⟩ i

/-- Modelled from the spec: `yaffs_add_find_tnode_0` followed by the store of
the slot (declared in `yaffs_guts.h`, body not among the sources): the tree
grows in depth as needed, up to `YAFFS_TNODES_MAX_LEVEL`, the leaf for chunk id
`i` is located or inserted, and `v` is stored in its slot. -/
def TnodeTree.add (t : TnodeTree) (i v : Nat) : Option TnodeTree :=
  let g := TnodeTree.grow YAFFS_TNODES_MAX_LEVEL t i
  if tnode_fits g.top_level i ∧ g.top_level ≤ YAFFS_TNODES_MAX_LEVEL then
    some ⟨g.top_level, some (Tnode.insert g.top_level g.top i v)⟩
  else none

/-! ## File data path -/

/-- The members of `struct yaffs_ext_tags` that identify a data chunk and its
length: `obj_id`, `chunk_id` (`≥ 1` for a data chunk) and `n_bytes`. -/
structure DataTags where
  obj_id : Nat
  chunk_id : Nat
  n_bytes : Nat
deriving DecidableEq, Repr

/-- A programmed NAND chunk: its tags and its `data_bytes_per_chunk` payload. -/
structure NandChunk where
  tags : DataTags
  data : List Nat
deriving DecidableEq, Repr

/-- The members of `struct yaffs_cache` for an entry of the short-op cache that
belongs to the file (`object` is the file; `locked` is only set by the
collector). -/
structure CacheEntry where
  chunk_id : Nat
  last_use : Nat
  dirty : Bool
  n_bytes : Nat
  data : List Nat
deriving DecidableEq, Repr

/-- A device holding one file: the members of `struct yaffs_dev`,
`struct yaffs_param` and the file's `struct yaffs_obj` that the data path uses.
`nand c` is the content of physical chunk `c` (`none` while erased), and `tree`
is the file's tnode tree. -/
structure FileDev where
  data_bytes_per_chunk : Nat
  chunk_grp_bits : Nat
  tnode_width : Nat
  n_chunks : Nat
  n_caches : Nat
  cache_bypass_aligned : Bool
  nand : Nat → Option NandChunk
  chunk_bits : Nat → Bool
  alloc_next : Nat
  obj_id : Nat
  tree : TnodeTree
  file_size : Nat
  cache : List CacheEntry
  cache_last_use : Nat

/-- The slot that the file's tnode tree holds for logical chunk id `i`. -/
def FileDev.tnode (dev : FileDev) (i : Nat) : Option Nat := dev.tree.find i

/-- Field `chunk_grp_size == 2^^chunk_grp_bits`. -/
def FileDev.chunk_grp_size (dev : FileDev) : Nat := 2 ^ dev.chunk_grp_bits

/-- Field `tnode_mask`: the low `tnode_width` bits. -/
def FileDev.tnode_mask (dev : FileDev) : Nat := 2 ^ dev.tnode_width - 1

/-- Whether physical chunk `c` carries the tags of logical chunk `chunk_id` of
object `obj_id`. -/
def FileDev.tags_match (dev : FileDev) (c obj_id chunk_id : Nat) : Bool :=
  match dev.nand c with
  | some ch => ch.tags.obj_id == obj_id && ch.tags.chunk_id == chunk_id
  | none => false

/-- Modelled from the spec: resolution of a tnode slot to a physical chunk (the
tnode code is not among the sources).  With wide tnodes the slot is the chunk
number itself; with narrow tnodes the slot names a group of `chunk_grp_size`
chunks, and a linear scan of the group finds the chunk that is in use and
carries the matching tags. -/
def FileDev.find_chunk_in_group (dev : FileDev) (group_base chunk_id : Nat) : Option Nat :=
  if dev.chunk_grp_bits = 0 then some group_base
  else
    ((List.range dev.chunk_grp_size).find?
      (fun j => dev.chunk_bits (group_base + j) &&
        dev.tags_match (group_base + j) dev.obj_id chunk_id)).map (fun j => group_base + j)

/-- Modelled from the spec: `yaffs_find_chunk_in_file` (declared in
`yaffs_guts.h`, body not among the sources): the physical chunk that holds
logical chunk `chunk_id` of the file, through the tnode slot and its group
base `slot << chunk_grp_bits`. -/
def FileDev.find_chunk_in_file (dev : FileDev) (chunk_id : Nat) : Option Nat :=
  match dev.tnode chunk_id with
  | some slot => dev.find_chunk_in_group (slot <<< dev.chunk_grp_bits) chunk_id
  | none => none

/-- Modelled from the spec: read of one logical chunk from NAND (body not among
the sources); a chunk that the file does not have reads as zeros. -/
def FileDev.rd_data_obj (dev : FileDev) (chunk_id : Nat) : List Nat :=
  match dev.find_chunk_in_file chunk_id with
  | some c =>
    match dev.nand c with
    | some ch => ch.data
    | none => List.replicate dev.data_bytes_per_chunk 0
  | none => List.replicate dev.data_bytes_per_chunk 0

/-- Modelled from the spec: `yaffs_wr_data_obj` (declared in `yaffs_guts.h`, body
not among the sources), the normal write path: it allocates a new physical chunk
at the allocator's cursor, programs the page with the data and tags, updates the
tnode slot (only `tnode_width` bits of the chunk's group number are stored) and
deletes the chunk that held the data before.  It fails when no chunk is free or
the tnode tree cannot take the chunk id. -/
def FileDev.wr_data_obj (dev : FileDev) (chunk_id : Nat) (data : List Nat) (n_bytes : Nat) :
    Option FileDev :=
  if dev.alloc_next < dev.n_chunks then
    let prev := dev.find_chunk_in_file chunk_id
    let c := dev.alloc_next
    let bits := Function.update dev.chunk_bits c true
    match dev.tree.add chunk_id ((c >>> dev.chunk_grp_bits) &&& dev.tnode_mask) with
    | some tree' =>
      some { dev with
        nand := Function.update dev.nand c (some ⟨⟨dev.obj_id, chunk_id, n_bytes⟩, data⟩),
        chunk_bits :=
          match prev with
          | some p => Function.update bits p false
          | none => bits,
        alloc_next := c + 1,
        tree := tree' }
    | none => none
  else none

/-- Consistency of the file's tnode slots with the chunks in use. -/
structure FileDev.Wf (dev : FileDev) : Prop where
  chunk_pos : 0 < dev.data_bytes_per_chunk
  slots_fit : dev.n_chunks ≤ 2 ^ (dev.tnode_width + dev.chunk_grp_bits)
  cursor : dev.alloc_next ≤ dev.n_chunks
  fresh : ∀ c, dev.alloc_next ≤ c → dev.chunk_bits c = false
  live : ∀ c, dev.chunk_bits c = true →
    ∃ ch, dev.nand c = some ch ∧ ch.tags.obj_id = dev.obj_id ∧
      ch.data.length = dev.data_bytes_per_chunk ∧
      dev.tnode ch.tags.chunk_id = some (c >>> dev.chunk_grp_bits)
  uniq : ∀ c c' ch ch', dev.chunk_bits c = true → dev.chunk_bits c' = true →
    dev.nand c = some ch → dev.nand c' = some ch' →
    ch.tags.chunk_id = ch'.tags.chunk_id → c = c'
  slot : ∀ i s, dev.tnode i = some s →
    ∃ c ch, dev.chunk_bits c = true ∧ dev.nand c = some ch ∧ ch.tags.chunk_id = i

/-- The frame of a data-path step: geometry, mount options and the file's
object id are not changed. -/
def FileDev.SameGeometry (dev dev' : FileDev) : Prop :=
  dev'.data_bytes_per_chunk = dev.data_bytes_per_chunk ∧
  dev'.chunk_grp_bits = dev.chunk_grp_bits ∧
  dev'.tnode_width = dev.tnode_width ∧
  dev'.n_chunks = dev.n_chunks ∧
  dev'.n_caches = dev.n_caches ∧
  dev'.cache_bypass_aligned = dev.cache_bypass_aligned ∧
  dev'.obj_id = dev.obj_id

/-- Modelled from the spec: lookup of the file's chunk in the short-op cache (the
cache code is not among the sources). -/
def FileDev.find_chunk_cache (dev : FileDev) (chunk_id : Nat) : Option CacheEntry :=
  dev.cache.find? (fun e => e.chunk_id == chunk_id)

/-- Modelled from the spec: read of one logical chunk through the cache (body
not among the sources): a hit returns the cached bytes, on a miss the chunk is
read from NAND. -/
def FileDev.rd_chunk (dev : FileDev) (chunk_id : Nat) : List Nat :=
  match dev.find_chunk_cache chunk_id with
  | some e => e.data
  | none => dev.rd_data_obj chunk_id

/-- Modelled from the spec: choice of the entry to evict, the one with the lowest
`last_use` (the cache code is not among the sources). -/
def lru_victim : List CacheEntry → Option CacheEntry
  | [] => none
  | e :: rest =>
    match lru_victim rest with
    | some v => if v.last_use < e.last_use then some v else some e
    | none => some e

/-- Modelled from the spec: write of one logical chunk through the cache (the
cache code is not among the sources).  A hit is updated in place and marked
dirty.  On a miss an entry is allocated, evicting the entry with the lowest
`last_use` when the pool of `n_caches` entries is full and flushing it to NAND if
it is dirty.  With caching disabled (`n_caches == 0`), and for an aligned
full-chunk write when `cache_bypass_aligned` is set, the data goes straight to
NAND. -/
def FileDev.wr_chunk (dev : FileDev) (chunk_id : Nat) (data : List Nat) (n_bytes : Nat)
    (aligned_full : Bool) : Option FileDev :=
  let tick := dev.cache_last_use + 1
  match dev.find_chunk_cache chunk_id with
  | some _ =>
    some { dev with
      cache := dev.cache.map (fun e =>
        if e.chunk_id == chunk_id then
          { e with data := data, n_bytes := n_bytes, dirty := true, last_use := tick }
        else e),
      cache_last_use := tick }
  | none =>
    if dev.n_caches = 0 ∨ (aligned_full = true ∧ dev.cache_bypass_aligned = true) then
      dev.wr_data_obj chunk_id data n_bytes
    else
      let entry : CacheEntry := ⟨chunk_id, tick, true, n_bytes, data⟩
      if dev.cache.length < dev.n_caches then
        some { dev with cache := entry :: dev.cache, cache_last_use := tick }
      else
        match lru_victim dev.cache with
        | some v =>
          match (if v.dirty then dev.wr_data_obj v.chunk_id v.data v.n_bytes else some dev) with
          | some dev1 =>
            some { dev1 with
              cache := entry :: dev1.cache.filter (fun e => e.chunk_id != v.chunk_id),
              cache_last_use := tick }
          | none => none
        | none => none

/-- Consistency of the device including its cache: every entry belongs to a
different chunk, holds a whole chunk, and is either dirty or equal to the chunk
on NAND. -/
structure FileDev.Inv (dev : FileDev) : Prop where
  wf : dev.Wf
  cache_nodup : (dev.cache.map (fun e => e.chunk_id)).Nodup
  cache_len : ∀ e ∈ dev.cache, e.data.length = dev.data_bytes_per_chunk
  cache_clean : ∀ e ∈ dev.cache, e.dirty = false → e.data = dev.rd_data_obj e.chunk_id

/-- What a write of chunk `i` through the cache guarantees. -/
def FileDev.WrPost (dev dev' : FileDev) (i : Nat) (data : List Nat) : Prop :=
  dev'.Inv ∧ dev'.rd_chunk i = data ∧ (∀ j, j ≠ i → dev'.rd_chunk j = dev.rd_chunk j) ∧
  dev.SameGeometry dev' ∧ dev'.file_size = dev.file_size

/-- The chunk buffer `old` with `piece` copied over it from byte `start` on
(`memcpy(&buf[start], piece, n)`). -/
def overlay (old : List Nat) (start : Nat) (piece : List Nat) : List Nat :=
  old.take start ++ piece ++ old.drop (start + piece.length)

/-- Modelled from the spec: the chunk-by-chunk loop of a file write (body not
among the sources).  Each round handles the part of the buffer that falls into
one chunk: logical chunk `offset / data_bytes_per_chunk` carries chunk id one
higher (`chunk_id ≥ 1` for data), the bytes are copied over the chunk's present
content and the chunk is written through the cache; the file grows to cover the
bytes written.  The loop stops at the first chunk that cannot be written and
returns the number of bytes done.  `fuel` bounds the number of rounds. -/
def FileDev.wr_loop : Nat → FileDev → Nat → List Nat → Nat × FileDev
  | 0, dev, _, _ => (0, dev)
  | fuel + 1, dev, offset, buffer =>
    if buffer.length = 0 then (0, dev)
    else
      let chunk := offset / dev.data_bytes_per_chunk + 1
      let start := offset % dev.data_bytes_per_chunk
      let n_copy := min buffer.length (dev.data_bytes_per_chunk - start)
      let data := overlay (dev.rd_chunk chunk) start (buffer.take n_copy)
      let new_size := max dev.file_size (offset + n_copy)
      let n_writeback :=
        min dev.data_bytes_per_chunk (new_size - (chunk - 1) * dev.data_bytes_per_chunk)
      match dev.wr_chunk chunk data n_writeback
          (decide (start = 0 ∧ n_copy = dev.data_bytes_per_chunk)) with
      | none => (0, dev)
      | some dev1 =>
        let r := FileDev.wr_loop fuel { dev1 with file_size := new_size } (offset + n_copy)
          (buffer.drop n_copy)
        (n_copy + r.1, r.2)

/-- Modelled from the spec: `yaffs_wr_file(obj, buffer, offset, n_bytes)`
(declared in `yaffs_guts.h`, body not among the sources), with
`n_bytes = buffer.length`.  Returns the number of bytes written and the device
afterwards.  Every round of the loop consumes at least one byte, so
`buffer.length` rounds are enough. -/
def FileDev.yaffs_wr_file (dev : FileDev) (buffer : List Nat) (offset : Nat) : Nat × FileDev :=
  dev.wr_loop buffer.length offset buffer

/-- Modelled from the spec: the chunk-by-chunk loop of a file read (body not
among the sources): each round copies the part of one chunk that lies in the
requested range, reading the chunk through the cache. -/
def FileDev.rd_loop : Nat → FileDev → Nat → Nat → List Nat
  | 0, _, _, _ => []
  | fuel + 1, dev, offset, n_bytes =>
    if n_bytes = 0 then []
    else
      let chunk := offset / dev.data_bytes_per_chunk + 1
      let start := offset % dev.data_bytes_per_chunk
      let n_copy := min n_bytes (dev.data_bytes_per_chunk - start)
      ((dev.rd_chunk chunk).drop start).take n_copy ++
        FileDev.rd_loop fuel dev (offset + n_copy) (n_bytes - n_copy)

/-- Modelled from the spec: `yaffs_file_rd(obj, buffer, offset, n_bytes)`
(declared in `yaffs_guts.h`, body not among the sources); the result is the
content of the output buffer. -/
def FileDev.yaffs_file_rd (dev : FileDev) (offset n_bytes : Nat) : List Nat :=
  dev.rd_loop n_bytes offset n_bytes

/-- The byte that the device holds for file position `p`. -/
def FileDev.byteAt (dev : FileDev) (p : Nat) : Nat :=
  (dev.rd_chunk (p / dev.data_bytes_per_chunk + 1))[p % dev.data_bytes_per_chunk]?.getD 0

/-- A freshly formatted device with one empty file: no chunk is in use, the
tnode tree and the cache are empty. -/
def FileDev.format (data_bytes_per_chunk chunk_grp_bits tnode_width n_chunks n_caches : Nat)
    (cache_bypass_aligned : Bool) (obj_id : Nat) : FileDev :=
  { data_bytes_per_chunk := data_bytes_per_chunk,
    chunk_grp_bits := chunk_grp_bits,
    tnode_width := tnode_width,
    n_chunks := n_chunks,
    n_caches := n_caches,
    cache_bypass_aligned := cache_bypass_aligned,
    nand := fun _ => none,
    chunk_bits := fun _ => false,
    alloc_next := 0,
    obj_id := obj_id,
    tree := ⟨0, none⟩,
    file_size := 0,
    cache := [],
    cache_last_use := 0 }

/-- One call `yaffs_wr_file(file, buffer, offset, buffer.length)`. -/
structure WriteCall where
  buffer : List Nat
  offset : Nat
deriving DecidableEq, Repr

/-- A sequence of write calls on the file: the device afterwards and, per call,
the offset and the bytes that the call reported as written. -/
def FileDev.run_writes (dev : FileDev) : List WriteCall → FileDev × List (Nat × List Nat)
  | [] => (dev, [])
  | w :: ws =>
    let r := dev.yaffs_wr_file w.buffer w.offset
    let rest := FileDev.run_writes r.2 ws
    (rest.1, (w.offset, w.buffer.take r.1) :: rest.2)

/-- The byte most recently written at file position `p` by a sequence of writes
(given as offset and bytes, oldest first), starting from `acc`; `none` when no
write covered `p`. -/
def last_written_from (acc : Option Nat) (log : List (Nat × List Nat)) (p : Nat) : Option Nat :=
  log.foldl (fun acc w => if w.1 ≤ p ∧ p < w.1 + w.2.length then w.2[p - w.1]? else acc) acc

/-- The byte most recently written at file position `p`. -/
def last_written (log : List (Nat × List Nat)) (p : Nat) : Option Nat :=
  last_written_from none log p

/-! ## Further constants and record declarations -/

/-- Macro `#define YAFFS_OBJECTID_ROOT 1`. -/
def YAFFS_OBJECTID_ROOT : Nat := 1
/-- Macro `#define YAFFS_OBJECTID_LOSTNFOUND 2`. -/
def YAFFS_OBJECTID_LOSTNFOUND : Nat := 2
/-- Macro `#define YAFFS_OBJECTID_UNLINKED 3`. -/
def YAFFS_OBJECTID_UNLINKED : Nat := 3
/-- Macro `#define YAFFS_OBJECTID_DELETED 4`. -/
def YAFFS_OBJECTID_DELETED : Nat := 4
/-- Macro `#define YAFFS_OBJECTID_SUMMARY 0x10`. -/
def YAFFS_OBJECTID_SUMMARY : Nat := 0x10

/-- Macro `#define YAFFS_WR_ATTEMPTS (5*64)`. -/
def YAFFS_WR_ATTEMPTS : Nat := 5 * 64

/-- Macro `#define YAFFS_MAX_NAME_LENGTH 255` (configuration without
`CONFIG_YAFFS_UNICODE`). -/
def YAFFS_MAX_NAME_LENGTH : Nat := 255
/-- Macro `#define YAFFS_MAX_ALIAS_LENGTH 159` (configuration without
`CONFIG_YAFFS_UNICODE`). -/
def YAFFS_MAX_ALIAS_LENGTH : Nat := 159

/-- The enumerators of `enum yaffs_block_state`. -/
inductive yaffs_block_state where
  | YAFFS_BLOCK_STATE_UNKNOWN
  | YAFFS_BLOCK_STATE_SCANNING
  | YAFFS_BLOCK_STATE_NEEDS_SCAN
  | YAFFS_BLOCK_STATE_EMPTY
  | YAFFS_BLOCK_STATE_ALLOCATING
  | YAFFS_BLOCK_STATE_FULL
  | YAFFS_BLOCK_STATE_DIRTY
  | YAFFS_BLOCK_STATE_CHECKPOINT
  | YAFFS_BLOCK_STATE_COLLECTING
  | YAFFS_BLOCK_STATE_DEAD
deriving DecidableEq, Repr

/-- The enumerator list of `enum yaffs_block_state` as written in the header, in
declaration order, each with its explicit value if it has one
(only `YAFFS_BLOCK_STATE_UNKNOWN = 0` has). -/
def yaffs_block_state_decl : List (yaffs_block_state × Option Nat) :=
  [ (.YAFFS_BLOCK_STATE_UNKNOWN, some 0),
    (.YAFFS_BLOCK_STATE_SCANNING, none),
    (.YAFFS_BLOCK_STATE_NEEDS_SCAN, none),
    (.YAFFS_BLOCK_STATE_EMPTY, none),
    (.YAFFS_BLOCK_STATE_ALLOCATING, none),
    (.YAFFS_BLOCK_STATE_FULL, none),
    (.YAFFS_BLOCK_STATE_DIRTY, none),
    (.YAFFS_BLOCK_STATE_CHECKPOINT, none),
    (.YAFFS_BLOCK_STATE_COLLECTING, none),
    (.YAFFS_BLOCK_STATE_DEAD, none) ]

/-- Values of the enumerators of a C `enum`: an enumerator with `= v` has value
`v`, any other has the value of the one before it plus one (`next`; zero for the
first). -/
def enumValues {α : Type} : Nat → List (α × Option Nat) → List (α × Nat)
  | _, [] => []
  | _, (a, some v) :: rest => (a, v) :: enumValues (v + 1) rest
  | next, (a, none) :: rest => (a, next) :: enumValues (next + 1) rest

/-- The value of a block state as a C integer. -/
def yaffs_block_state.val (s : yaffs_block_state) : Nat :=
  match (enumValues 0 yaffs_block_state_decl).find? (fun e => e.1 == s) with
  | some e => e.2
  | none => 0

/-- Macro `#define YAFFS_NUMBER_OF_BLOCK_STATES (YAFFS_BLOCK_STATE_DEAD + 1)`. -/
def YAFFS_NUMBER_OF_BLOCK_STATES : Nat :=
  yaffs_block_state.YAFFS_BLOCK_STATE_DEAD.val + 1

/-- Length of the array parameter of
`void yaffs_count_blocks_by_state(struct yaffs_dev *dev, int bs[10])`. -/
def yaffs_count_blocks_by_state_bs_len : Nat := 10

/-- Width in bits of the bit-field called `name` in a run of bit-fields. -/
def bitfieldWidth (fs : List BitFieldDecl) (name : String) : Nat :=
  match fs.find? (fun f => f.name == name) with
  | some f => f.width
  | none => 0

/-- The bit-field members of `struct yaffs_tags`, in declaration order. -/
def yaffs_tags_bitfields : List BitFieldDecl :=
  [ ⟨"chunk_id", 20, false⟩,
    ⟨"serial_number", 2, false⟩,
    ⟨"n_bytes_lsb", 10, false⟩,
    ⟨"obj_id", 18, false⟩,
    ⟨"ecc", 12, false⟩,
    ⟨"n_bytes_msb", 2, false⟩ ]

/-- Bit positions at which the fields of a run of bit-fields start when they are
packed one after the other without any gap. -/
def bitfieldStarts : Nat → List BitFieldDecl → List Nat
  | _, [] => []
  | start, f :: rest => start :: bitfieldStarts (start + f.width) rest

/-- Whether a field of `width` bits that starts at bit `start` of a gap-free
packing would lie across the boundary of two `u32` words. -/
def straddlesU32 (start width : Nat) : Bool :=
  decide (start / 32 ≠ (start + width - 1) / 32)

/-- Size `sizeof(struct yaffs_tags)`: its bit-field units. -/
def sizeof_yaffs_tags : Nat := sizeof_u32 * bitfieldUnits yaffs_tags_bitfields

/-- Number of elements of `as_bytes` in `union yaffs_tags_union` (`u8 as_bytes[8]`). -/
def yaffs_tags_union_as_bytes_len : Nat := 8

/-- Number of elements of `as_u32` in `union yaffs_tags_union` (`u32 as_u32[2]`). -/
def yaffs_tags_union_as_u32_len : Nat := 2

/-- Size `sizeof(union yaffs_tags_union)`: the largest of its members. -/
def sizeof_yaffs_tags_union : Nat :=
  max sizeof_yaffs_tags (max (1 * yaffs_tags_union_as_bytes_len)
    (sizeof_u32 * yaffs_tags_union_as_u32_len))

/-- One member of a C struct: its name, the size in bytes of its element type
and its number of elements (`1` for a scalar, `n` for an array `[n]`). -/
structure MemberDecl where
  name : String
  ctype : String
  elem_size : Nat
  count : Nat
deriving DecidableEq, Repr

/-- The members of `struct yaffs_spare`, in declaration order (all of type
`u8`). -/
def yaffs_spare_members : List MemberDecl :=
  [ ⟨"tb0", "u8", 1, 1⟩, ⟨"tb1", "u8", 1, 1⟩, ⟨"tb2", "u8", 1, 1⟩, ⟨"tb3", "u8", 1, 1⟩,
    ⟨"page_status", "u8", 1, 1⟩, ⟨"block_status", "u8", 1, 1⟩,
    ⟨"tb4", "u8", 1, 1⟩, ⟨"tb5", "u8", 1, 1⟩,
    ⟨"ecc1", "u8", 1, 3⟩,
    ⟨"tb6", "u8", 1, 1⟩, ⟨"tb7", "u8", 1, 1⟩,
    ⟨"ecc2", "u8", 1, 3⟩ ]

/-- Number of bytes taken by the members themselves (no padding counted). -/
def membersBytes (ms : List MemberDecl) : Nat := (ms.map (fun m => m.elem_size * m.count)).sum

/-- Size `sizeof(struct yaffs_spare)`: all members are single bytes, so there is
no padding. -/
def sizeof_yaffs_spare : Nat := membersBytes yaffs_spare_members

/-- The names of the tag bytes of the YAFFS1 spare. -/
def yaffs_spare_tag_names : List String :=
  ["tb0", "tb1", "tb2", "tb3", "tb4", "tb5", "tb6", "tb7"]

/-- The members of `struct yaffs_obj_hdr`, in declaration order, for the
configuration without `CONFIG_YAFFS_UNICODE` (`YCHAR` is a one-byte `char`). -/
def yaffs_obj_hdr_members : List MemberDecl :=
  [ ⟨"type", "u32", 4, 1⟩,
    ⟨"parent_obj_id", "u32", 4, 1⟩,
    ⟨"sum_no_longer_used", "u16", 2, 1⟩,
    ⟨"name", "YCHAR", 1, YAFFS_MAX_NAME_LENGTH + 1⟩,
    ⟨"yst_mode", "u32", 4, 1⟩,
    ⟨"yst_uid", "u32", 4, 1⟩,
    ⟨"yst_gid", "u32", 4, 1⟩,
    ⟨"yst_atime", "u32", 4, 1⟩,
    ⟨"yst_mtime", "u32", 4, 1⟩,
    ⟨"yst_ctime", "u32", 4, 1⟩,
    ⟨"file_size_low", "u32", 4, 1⟩,
    ⟨"equiv_id", "int", 4, 1⟩,
    ⟨"alias", "YCHAR", 1, YAFFS_MAX_ALIAS_LENGTH + 1⟩,
    ⟨"yst_rdev", "u32", 4, 1⟩,
    ⟨"win_ctime", "u32", 4, 2⟩,
    ⟨"win_atime", "u32", 4, 2⟩,
    ⟨"win_mtime", "u32", 4, 2⟩,
    ⟨"inband_shadowed_obj_id", "u32", 4, 1⟩,
    ⟨"inband_is_shrink", "u32", 4, 1⟩,
    ⟨"file_size_high", "u32", 4, 1⟩,
    ⟨"reserved", "u32", 4, 1⟩,
    ⟨"shadows_obj", "int", 4, 1⟩,
    ⟨"is_shrink", "u32", 4, 1⟩ ]

/-- The name of the member declared right after the member called `name`. -/
def memberAfter : List MemberDecl → String → Option String
  | [], _ => none
  | [_], _ => none
  | m :: m' :: rest, name =>
    if m.name == name then some m'.name else memberAfter (m' :: rest) name

/-! ## File offset to chunk conversion -/

/-- Value of a C `int` (32 bits, two's complement) after `v` has been stored
into it. -/
def toInt32 (v : Int) : Int := (v + 2 ^ 31) % 2 ^ 32 - 2 ^ 31

/-- The members of `struct yaffs_dev` for "figuring out file offset to chunk
conversions": `data_bytes_per_chunk`, `chunk_shift`, `chunk_div` and
`chunk_mask` (all `u32`). -/
structure ChunkConv where
  data_bytes_per_chunk : Nat
  chunk_shift : Nat
  chunk_div : Nat
  chunk_mask : Nat
deriving DecidableEq, Repr

/-- Modelled from the spec: the shift value of a chunk size (the mount code that
computes it is not among the sources): the number of times `x` can be halved
evenly, counted in at most `fuel` rounds. -/
def calc_shifts : Nat → Nat → Nat
  | 0, _ => 0
  | fuel + 1, x => if x = 0 ∨ x % 2 = 1 then 0 else calc_shifts fuel (x / 2) + 1

/-- Modelled from the spec: set-up of the conversion numbers at mount (the mount
code is not among the sources), after the documentation of the fields:
`chunk_shift` is the shift value, `chunk_div` the divisor after shifting (`1`
for `2^n` sizes) and `chunk_mask` the mask for the power-of-2 case. -/
def chunk_conv_setup (data_bytes_per_chunk : Nat) : ChunkConv :=
  let shift := calc_shifts 32 data_bytes_per_chunk
  { data_bytes_per_chunk := data_bytes_per_chunk,
    chunk_shift := shift,
    chunk_div := data_bytes_per_chunk >>> shift,
    chunk_mask := ((1 <<< shift) - 1) % 2 ^ 32 }

/-- Modelled from the spec: `yaffs_addr_to_chunk(dev, addr, &chunk_out,
&offset_out)` (declared in `yaffs_guts.h`, body not among the sources) for a
file address `addr ≥ 0`: the address is shifted by `chunk_shift` and divided by
`chunk_div`; in the power-of-2 case (`chunk_div == 1`) the offset is
`addr & chunk_mask`, otherwise the address less the start of the chunk.  The
results are an `int` and a `u32`. -/
def yaffs_addr_to_chunk (dev : ChunkConv) (addr : Nat) : Int × Nat :=
  let chunk := (addr >>> dev.chunk_shift) / dev.chunk_div
  let offset :=
    if dev.chunk_div = 1 then addr &&& dev.chunk_mask
    else addr - chunk * dev.data_bytes_per_chunk
  (toInt32 (chunk : Int), offset % 2 ^ 32)

/-! ## Tnode width selection -/

/-- The search for the least number of bits `b ≥ bits` with `n ≤ 2^b`, in at
most `fuel` rounds. -/
def bits_needed_from : Nat → Nat → Nat → Nat
  | 0, bits, _ => bits
  | fuel + 1, bits, n => if n ≤ 2 ^ bits then bits else bits_needed_from fuel (bits + 1) n

/-- The number of bits needed to address `n` chunks: the least `b` with
`n ≤ 2^b` (`n` rounds are always enough). -/
def bits_needed (n : Nat) : Nat := bits_needed_from n 0 n

/-- The members of `struct yaffs_dev` set by the tnode width selection:
`tnode_width` (`u32`), `chunk_grp_bits` and `chunk_grp_size` (both `u16`). -/
structure TnodeGeom where
  tnode_width : Nat
  chunk_grp_bits : Nat
  chunk_grp_size : Nat
deriving DecidableEq, Repr

/-- Modelled from the spec: the tnode width selection at mount (the mount code
is not among the sources).  `tnode_width` is chosen so that `2^tnode_width` is at
least the total number of chunks, or fixed to 16 if wide tnodes are disabled;
`chunk_grp_bits` is the number of bits that remain to be resolved if the tnodes
are not wide enough, and `chunk_grp_size == 2^^chunk_grp_bits`. -/
def tnode_width_setup (total_chunks : Nat) (wide_tnodes_disabled : Bool) : TnodeGeom :=
  let bits := bits_needed total_chunks
  let width := if wide_tnodes_disabled then 16 else bits
  let grp_bits := (if bits ≤ width then 0 else bits - width) % 2 ^ 16
  { tnode_width := width % 2 ^ 32,
    chunk_grp_bits := grp_bits,
    chunk_grp_size := (1 <<< grp_bits) % 2 ^ 16 }

/-! ## The log: sequence numbers, allocator and garbage collection -/

/-- The members of `struct yaffs_ext_tags` that order the log: `obj_id`,
`chunk_id` ("if 0 this is a header, else a data chunk") and `seq_number` ("the
sequence number of this block"). -/
structure yaffs_ext_tags where
  obj_id : Nat
  chunk_id : Nat
  seq_number : Nat
deriving DecidableEq, Repr

/-- The members of `struct yaffs_dev`, `struct yaffs_block_info` and
`struct yaffs_obj` that take part in the log: the geometry, per block its
`block_state` and `seq_number`, per chunk the tags programmed into it (`none`
while erased) and its bit in `chunk_bits`, the device's `seq_number`, the
allocator cursor (`alloc_block`, `none` for the C value -1, and `alloc_page`),
`alloc_block_finder`, and per object its `hdr_chunk` and the slots of its tnode
tree. -/
structure LogDev where
  chunks_per_block : Nat
  n_blocks : Nat
  block_state : Nat → yaffs_block_state
  block_seq : Nat → Nat
  chunk_tags : Nat → Option yaffs_ext_tags
  chunk_bits : Nat → Bool
  seq_number : Nat
  alloc_block : Option Nat
  alloc_page : Nat
  alloc_block_finder : Nat
  hdr_chunk : Nat → Option Nat
  tnode_slot : Nat → Nat → Option Nat

/-- The block that holds chunk `c`. -/
def LogDev.block_of (dev : LogDev) (c : Nat) : Nat := c / dev.chunks_per_block

/-- The position of chunk `c` within its block. -/
def LogDev.page_of (dev : LogDev) (c : Nat) : Nat := c % dev.chunks_per_block

/-- The chunk that the object `obj_id` references for `chunk_id`: its `hdr_chunk`
for `chunk_id = 0`, otherwise the slot of its tnode tree. -/
def LogDev.live_chunk (dev : LogDev) (obj_id chunk_id : Nat) : Option Nat :=
  if chunk_id = 0 then dev.hdr_chunk obj_id else dev.tnode_slot obj_id chunk_id

/-- Store `v` as the object's reference for `chunk_id` (the work of
`yaffs_put_chunk_in_file` for a data chunk, an assignment to `hdr_chunk` for a
header). -/
def LogDev.set_live (dev : LogDev) (obj_id chunk_id : Nat) (v : Option Nat) : LogDev :=
  { dev with
    hdr_chunk := if chunk_id = 0 then Function.update dev.hdr_chunk obj_id v else dev.hdr_chunk,
    tnode_slot :=
      if chunk_id = 0 then dev.tnode_slot
      else Function.update dev.tnode_slot obj_id
        (Function.update (dev.tnode_slot obj_id) chunk_id v) }

/-- Chunk `c1` is older in the log than chunk `c2`: its block has the smaller
`seq_number`, or the sequence numbers tie and `c1` is at the earlier position. -/
def LogDev.older (dev : LogDev) (c1 c2 : Nat) : Prop :=
  dev.block_seq (dev.block_of c1) < dev.block_seq (dev.block_of c2) ∨
  (dev.block_seq (dev.block_of c1) = dev.block_seq (dev.block_of c2) ∧
    dev.page_of c1 < dev.page_of c2)

instance LogDev.older_decidable (dev : LogDev) (c1 c2 : Nat) : Decidable (dev.older c1 c2) :=
  inferInstanceAs (Decidable (_ ∨ _))

/-- A freshly formatted device: every block `Empty`, nothing programmed, no
allocating block, and the sequence counter at `YAFFS_LOWEST_SEQUENCE_NUMBER`. -/
def LogDev.format (chunks_per_block n_blocks : Nat) : LogDev :=
  { chunks_per_block := chunks_per_block,
    n_blocks := n_blocks,
    block_state := fun _ => .YAFFS_BLOCK_STATE_EMPTY,
    block_seq := fun _ => 0,
    chunk_tags := fun _ => none,
    chunk_bits := fun _ => false,
    seq_number := YAFFS_LOWEST_SEQUENCE_NUMBER,
    alloc_block := none,
    alloc_page := 0,
    alloc_block_finder := 0,
    hdr_chunk := fun _ => none,
    tnode_slot := fun _ _ => none }

/-- Modelled from the spec: the allocator's block finder (its body is not among
the sources): it "scans forward from its last position for an `Empty` block". -/
def LogDev.find_alloc_block (dev : LogDev) : Option Nat :=
  ((List.range dev.n_blocks).map
      (fun k => (dev.alloc_block_finder + 1 + k) % dev.n_blocks)).find?
    (fun b => decide (dev.block_state b = .YAFFS_BLOCK_STATE_EMPTY))

/-- Modelled from the spec: the block to allocate from (the allocator's body is
not among the sources): the current `Allocating` block, or, when there is none,
the block found by the finder, which is assigned "the next `seq_number`",
"within the range `[LOWEST_SEQ, HIGHEST_SEQ]`", becomes `Allocating`, and has
`alloc_page` reset.  `none` when no block can be had. -/
def LogDev.cur_block (dev : LogDev) : Option (Nat × LogDev) :=
  match dev.alloc_block with
  | some b => some (b, dev)
  | none =>
    if dev.seq_number < YAFFS_HIGHEST_SEQUENCE_NUMBER then
      match dev.find_alloc_block with
      | some b =>
        some (b, { dev with
          seq_number := dev.seq_number + 1,
          block_state := Function.update dev.block_state b .YAFFS_BLOCK_STATE_ALLOCATING,
          block_seq := Function.update dev.block_seq b (dev.seq_number + 1),
          alloc_block := some b,
          alloc_page := 0,
          alloc_block_finder := b })
      | none => none
    else none

/-- The bitmap `chunk_bits` after the chunk that the object references for
`chunk_id`, if any, has been deleted. -/
def LogDev.bits_superseded (dev : LogDev) (obj_id chunk_id : Nat) : Nat → Bool :=
  match dev.live_chunk obj_id chunk_id with
  | some old => Function.update dev.chunk_bits old false
  | none => dev.chunk_bits

/-- Modelled from the spec: programming the chunk at the cursor of the
allocating block `b` with the tags `(obj_id, chunk_id, seq_number of b)` (the
write path is not among the sources): the cursor advances, the block becomes
`Full` when its last chunk is used, the new chunk's bit is set and the bit of
the chunk it supersedes is cleared, and the object's reference is moved to the
new chunk. -/
def LogDev.program (dev : LogDev) (b obj_id chunk_id : Nat) : LogDev :=
  let c := b * dev.chunks_per_block + dev.alloc_page
  let full := decide (dev.chunks_per_block ≤ dev.alloc_page + 1)
  ({ dev with
    chunk_tags := Function.update dev.chunk_tags c
      (some ⟨obj_id, chunk_id, dev.block_seq b⟩),
    chunk_bits := Function.update (dev.bits_superseded obj_id chunk_id) c true,
    alloc_page := dev.alloc_page + 1,
    block_state :=
      if full then Function.update dev.block_state b .YAFFS_BLOCK_STATE_FULL
      else dev.block_state,
    alloc_block := if full then none else some b } : LogDev).set_live obj_id chunk_id (some c)

/-- Modelled from the spec: the normal write path for one chunk of an object, a
data chunk (`chunk_id ≥ 1`) or an object header (`chunk_id = 0`): it "allocates a
new physical chunk, updates the tnode slot, and programs the page".  The device
is unchanged when no chunk can be allocated. -/
def LogDev.wr_chunk (dev : LogDev) (obj_id chunk_id : Nat) : LogDev :=
  match dev.cur_block with
  | some (b, d) => d.program b obj_id chunk_id
  | none => dev

/-- Modelled from the spec: deletion of the chunk an object references for
`chunk_id` (truncation or deletion of the object): the reference is dropped and
the chunk's bit is cleared; nothing is programmed or erased. -/
def LogDev.del_chunk (dev : LogDev) (obj_id chunk_id : Nat) : LogDev :=
  ({ dev with chunk_bits := dev.bits_superseded obj_id chunk_id } : LogDev).set_live
    obj_id chunk_id none

/-- Modelled from the spec: the collector's treatment of one chunk of the victim:
"for each live chunk, it reads the tag; if still reachable via the object's
tnode (data chunk) or is the current header (header chunk), it rewrites the
chunk through the normal write path"; chunks that are not reachable "are simply
not copied". -/
def LogDev.gc_chunk (dev : LogDev) (c : Nat) : LogDev :=
  if dev.chunk_bits c then
    match dev.chunk_tags c with
    | some t =>
      if dev.live_chunk t.obj_id t.chunk_id = some c then dev.wr_chunk t.obj_id t.chunk_id
      else { dev with chunk_bits := Function.update dev.chunk_bits c false }
    | none => { dev with chunk_bits := Function.update dev.chunk_bits c false }
  else dev

/-- No chunk of block `b` has its bit set in `chunk_bits`. -/
def LogDev.block_clear (dev : LogDev) (b : Nat) : Bool :=
  (List.range dev.chunks_per_block).all
    (fun p => !dev.chunk_bits (b * dev.chunks_per_block + p))

/-- Erasure of block `b`: all its chunks lose their tags and the block is
`Empty` again. -/
def LogDev.erase_block (dev : LogDev) (b : Nat) : LogDev :=
  { dev with
    chunk_tags := fun c => if dev.block_of c = b then none else dev.chunk_tags c,
    block_state := Function.update dev.block_state b .YAFFS_BLOCK_STATE_EMPTY }

/-- Modelled from the spec: garbage collection of the victim block `b`, a `Full`
block (the collector is not among the sources): it "walks victim chunks in
physical order", and "after the last live chunk is rewritten, the victim
transitions to `Dirty` then `Empty` after erase". -/
def LogDev.yaffs_gc_block (dev : LogDev) (b : Nat) : LogDev :=
  if dev.block_state b = .YAFFS_BLOCK_STATE_FULL then
    let d := (List.range dev.chunks_per_block).foldl
      (fun d p => d.gc_chunk (b * dev.chunks_per_block + p)) dev
    if d.block_state b = .YAFFS_BLOCK_STATE_FULL ∧ d.block_clear b = true then d.erase_block b
    else d
  else dev

/-- The operations on the log: writing a chunk of an object, deleting one, and
collecting a block. -/
inductive LogOp where
  | wr (obj_id chunk_id : Nat)
  | del (obj_id chunk_id : Nat)
  | gc (block : Nat)
deriving DecidableEq, Repr

/-- One operation on the log. -/
def LogDev.step (dev : LogDev) : LogOp → LogDev
  | .wr obj_id chunk_id => dev.wr_chunk obj_id chunk_id
  | .del obj_id chunk_id => dev.del_chunk obj_id chunk_id
  | .gc block => dev.yaffs_gc_block block

/-- A sequence of operations on the log, in order. -/
def LogDev.run (dev : LogDev) (ops : List LogOp) : LogDev := ops.foldl LogDev.step dev

/-- Block `b` holds programmed chunks: it is `Allocating` or `Full`. -/
def LogDev.in_use (dev : LogDev) (b : Nat) : Prop :=
  dev.block_state b = .YAFFS_BLOCK_STATE_ALLOCATING ∨
  dev.block_state b = .YAFFS_BLOCK_STATE_FULL

/-- The invariant of the log: programmed chunks lie in blocks in use and carry
their block's sequence number; blocks in use have pairwise distinct sequence
numbers, none above the device's; the allocating block carries the device's
sequence number and is erased from the cursor on; a referenced chunk carries the
tags of its reference, has its bit set, and is the newest of the chunks with
these tags; and a chunk whose bit is set is referenced. -/
structure LogDev.Inv (dev : LogDev) : Prop where
  cpb_pos : 0 < dev.chunks_per_block
  seq_le : dev.seq_number ≤ YAFFS_HIGHEST_SEQUENCE_NUMBER
  tags_in_use : ∀ c t, dev.chunk_tags c = some t →
    dev.in_use (dev.block_of c) ∧ t.seq_number = dev.block_seq (dev.block_of c)
  seq_bound : ∀ b, dev.in_use b → dev.block_seq b ≤ dev.seq_number
  seq_inj : ∀ b1 b2, dev.in_use b1 → dev.in_use b2 →
    dev.block_seq b1 = dev.block_seq b2 → b1 = b2
  cursor : ∀ b, dev.alloc_block = some b →
    dev.block_state b = .YAFFS_BLOCK_STATE_ALLOCATING ∧
    dev.block_seq b = dev.seq_number ∧
    dev.alloc_page < dev.chunks_per_block ∧
    ∀ c, dev.block_of c = b → dev.alloc_page ≤ dev.page_of c → dev.chunk_tags c = none
  live_newest : ∀ o i c, dev.live_chunk o i = some c →
    (∃ t, dev.chunk_tags c = some t ∧ t.obj_id = o ∧ t.chunk_id = i) ∧
    dev.chunk_bits c = true ∧
    ∀ c2 t2, dev.chunk_tags c2 = some t2 → t2.obj_id = o → t2.chunk_id = i →
      c2 = c ∨ dev.older c2 c
  bits_live : ∀ c, dev.chunk_bits c = true →
    ∃ t, dev.chunk_tags c = some t ∧ dev.live_chunk t.obj_id t.chunk_id = some c

/-! ## Checkpoint object flags -/

/-- Macro `#define CHECKPOINT_VARIANT_BITS 0, 3` (offset, length). -/
def CHECKPOINT_VARIANT_BITS : Nat × Nat := (0, 3)
/-- Macro `#define CHECKPOINT_DELETED_BITS 3, 1` (offset, length). -/
def CHECKPOINT_DELETED_BITS : Nat × Nat := (3, 1)
/-- Macro `#define CHECKPOINT_SOFT_DEL_BITS 4, 1` (offset, length). -/
def CHECKPOINT_SOFT_DEL_BITS : Nat × Nat := (4, 1)
/-- Macro `#define CHECKPOINT_UNLINKED_BITS 5, 1` (offset, length). -/
def CHECKPOINT_UNLINKED_BITS : Nat × Nat := (5, 1)
/-- Macro `#define CHECKPOINT_FAKE_BITS 6, 1` (offset, length). -/
def CHECKPOINT_FAKE_BITS : Nat × Nat := (6, 1)
/-- Macro `#define CHECKPOINT_RENAME_ALLOWED_BITS 7, 1` (offset, length). -/
def CHECKPOINT_RENAME_ALLOWED_BITS : Nat × Nat := (7, 1)
/-- Macro `#define CHECKPOINT_UNLINK_ALLOWED_BITS 8, 1` (offset, length). -/
def CHECKPOINT_UNLINK_ALLOWED_BITS : Nat × Nat := (8, 1)
/-- Macro `#define CHECKPOINT_SERIAL_BITS 9, 8` (offset, length). -/
def CHECKPOINT_SERIAL_BITS : Nat × Nat := (9, 8)

/-- The bit ranges of `yaffs_checkpt_obj.bit_field`, in the order of their
definition in the header. -/
def checkpoint_bit_ranges : List (Nat × Nat) :=
  [ CHECKPOINT_VARIANT_BITS, CHECKPOINT_DELETED_BITS, CHECKPOINT_SOFT_DEL_BITS,
    CHECKPOINT_UNLINKED_BITS, CHECKPOINT_FAKE_BITS, CHECKPOINT_RENAME_ALLOWED_BITS,
    CHECKPOINT_UNLINK_ALLOWED_BITS, CHECKPOINT_SERIAL_BITS ]

/-- Width in bits of the member `u32 bit_field` of `struct yaffs_checkpt_obj`. -/
def checkpt_obj_bit_field_width : Nat := 32

/-- The bit positions of a range `(offset, length)`. -/
def bitRange (bits : Nat × Nat) : List Nat := (List.range bits.2).map (fun k => bits.1 + k)

/-- Whether each range of a list starts where the one before it ends, the first
one at bit `start`. -/
def rangesContiguous : Nat → List (Nat × Nat) → Bool
  | _, [] => true
  | start, r :: rest => r.1 == start && rangesContiguous (r.1 + r.2) rest

/-- Modelled from the spec: storing `value` into the range `bits = (offset,
length)` of the packed flags word `bit_field` (a `u32`; the accessor is not
among the sources): the bits of the range are cleared and replaced by the low
`length` bits of `value`, all other bits are kept. -/
def checkpt_obj_bit_assign (bit_field : Nat) (bits : Nat × Nat) (value : Nat) : Nat :=
  let and_mask := (((1 <<< bits.2) - 1) <<< bits.1) % 2 ^ 32
  (bit_field &&& (2 ^ 32 - (and_mask + 1))) ||| (((value <<< bits.1) % 2 ^ 32) &&& and_mask)

/-- Modelled from the spec: reading the range `bits = (offset, length)` of the
packed flags word `bit_field` (the accessor is not among the sources). -/
def checkpt_obj_bit_get (bit_field : Nat) (bits : Nat × Nat) : Nat :=
  (bit_field >>> bits.1) &&& ((1 <<< bits.2) - 1)

/-- The enumerators of `enum yaffs_obj_type`. -/
inductive yaffs_obj_type where
  | YAFFS_OBJECT_TYPE_UNKNOWN
  | YAFFS_OBJECT_TYPE_FILE
  | YAFFS_OBJECT_TYPE_SYMLINK
  | YAFFS_OBJECT_TYPE_DIRECTORY
  | YAFFS_OBJECT_TYPE_HARDLINK
  | YAFFS_OBJECT_TYPE_SPECIAL
deriving DecidableEq, Repr

/-- The enumerator list of `enum yaffs_obj_type` as written in the header, in
declaration order; none has an explicit value. -/
def yaffs_obj_type_decl : List (yaffs_obj_type × Option Nat) :=
  [ (.YAFFS_OBJECT_TYPE_UNKNOWN, none),
    (.YAFFS_OBJECT_TYPE_FILE, none),
    (.YAFFS_OBJECT_TYPE_SYMLINK, none),
    (.YAFFS_OBJECT_TYPE_DIRECTORY, none),
    (.YAFFS_OBJECT_TYPE_HARDLINK, none),
    (.YAFFS_OBJECT_TYPE_SPECIAL, none) ]

/-- The value of an object type as a C integer. -/
def yaffs_obj_type.val (t : yaffs_obj_type) : Nat :=
  match (enumValues 0 yaffs_obj_type_decl).find? (fun e => e.1 == t) with
  | some e => e.2
  | none => 0

/-- Macro `#define YAFFS_OBJECT_TYPE_MAX YAFFS_OBJECT_TYPE_SPECIAL`. -/
def YAFFS_OBJECT_TYPE_MAX : Nat := yaffs_obj_type.YAFFS_OBJECT_TYPE_SPECIAL.val

/-- Width in bits of the member `u8 serial` of `struct yaffs_obj`. -/
def yaffs_obj_serial_width : Nat := 8

/-! ## Record layout with alignment -/

/-- The offset `off` rounded up to the next multiple of `a`. -/
def alignUp (off a : Nat) : Nat := (off + a - 1) / a * a

/-- Offsets of the members of a struct under natural alignment: each member
starts at the next multiple of the size of its element type at or after the end
of the member before it (`off`). -/
def memberOffsets : Nat → List MemberDecl → List (String × Nat)
  | _, [] => []
  | off, m :: rest =>
    (m.name, alignUp off m.elem_size)
      :: memberOffsets (alignUp off m.elem_size + m.elem_size * m.count) rest

/-- The offset of the first byte after the last member. -/
def membersEnd : Nat → List MemberDecl → Nat
  | off, [] => off
  | off, m :: rest => membersEnd (alignUp off m.elem_size + m.elem_size * m.count) rest

/-- The alignment of a struct: the largest alignment of its members. -/
def membersAlign (ms : List MemberDecl) : Nat := ms.foldl (fun a m => max a m.elem_size) 1

/-- Size `sizeof` of a struct: the end of its last member, rounded up to the
alignment of the struct. -/
def sizeofStruct (ms : List MemberDecl) : Nat := alignUp (membersEnd 0 ms) (membersAlign ms)

/-- Offset `offsetof(struct, name)` of the member called `name`. -/
def offsetOf (ms : List MemberDecl) (name : String) : Option Nat :=
  ((memberOffsets 0 ms).find? (fun e => e.1 == name)).map (fun e => e.2)

/-- Size `sizeof(struct yaffs_obj_hdr)` (non-Unicode configuration). -/
def sizeof_yaffs_obj_hdr : Nat := sizeofStruct yaffs_obj_hdr_members

/-! ## Bit-field stores -/

/-- Value read back from an unsigned bit-field of `width` bits after `v` has been
stored into it: `v` reduced modulo `2^width`. -/
def store_unsigned_bitfield (width v : Nat) : Nat := v % 2 ^ width

/-- Whether the bit-field called `name` of a run of bit-fields has a signed base
type. -/
def bitfieldSigned (fs : List BitFieldDecl) (name : String) : Bool :=
  match fs.find? (fun f => f.name == name) with
  | some f => f.isSigned
  | none => false

/-! ## The allocating block -/

/-- Every block in state `YAFFS_BLOCK_STATE_ALLOCATING` is the block indexed by
`alloc_block`. -/
def LogDev.OneAlloc (dev : LogDev) : Prop :=
  ∀ b, dev.block_state b = .YAFFS_BLOCK_STATE_ALLOCATING → dev.alloc_block = some b

end Yaffs

/-! # Root interrupt handlers (`arch/arm64/kernel/irq.c`) -/

namespace Irq

/-- The functions a root handler pointer `void (*)(struct pt_regs *)` can point
to: the two default handlers defined in `irq.c`, or any other function,
identified by its address. -/
inductive Handler where
  | default_handle_irq
  | default_handle_fiq
  | other (addr : Nat)
deriving DecidableEq, Repr

/-- The error number `EBUSY` ("device or resource busy", 16); `set_handle_irq`
and `set_handle_fiq` return `-EBUSY`. -/
def EBUSY : Int := 16

/-- The state that `set_handle_irq` and `set_handle_fiq` act on: the two root
handler pointers `handle_arch_irq` and `handle_arch_fiq`, and the messages
printed by `pr_info` (format and argument). -/
structure IrqState where
  handle_arch_irq : Handler
  handle_arch_fiq : Handler
  log : List (String × Handler)
deriving DecidableEq, Repr

/-- The state after the initialisers
`handle_arch_irq = default_handle_irq` and `handle_arch_fiq = default_handle_fiq`. -/
def IrqState.boot : IrqState :=
  { handle_arch_irq := .default_handle_irq, handle_arch_fiq := .default_handle_fiq, log := [] }

/-- The call `pr_info(fmt, handler)`: one more message. -/
def IrqState.pr_info (s : IrqState) (fmt : String) (handler : Handler) : IrqState :=
  { s with log := s.log ++ [(fmt, handler)] }

/-- The function `set_handle_irq`: the returned `int` and the state after the
call. -/
def set_handle_irq (s : IrqState) (handle_irq : Handler) : Int × IrqState :=
  if s.handle_arch_irq ≠ .default_handle_irq then (-EBUSY, s)
  else (0, ({ s with handle_arch_irq := handle_irq } : IrqState).pr_info
    "Root IRQ handler: %ps\n" handle_irq)

/-- The function `set_handle_fiq`: the returned `int` and the state after the
call. -/
def set_handle_fiq (s : IrqState) (handle_fiq : Handler) : Int × IrqState :=
  if s.handle_arch_fiq ≠ .default_handle_fiq then (-EBUSY, s)
  else (0, ({ s with handle_arch_fiq := handle_fiq } : IrqState).pr_info
    "Root FIQ handler: %ps\n" handle_fiq)

/-- A call of one of the two setters. -/
inductive SetCall where
  | irq (handler : Handler)
  | fiq (handler : Handler)
deriving DecidableEq, Repr

/-- The state after one call of a setter. -/
def IrqState.call (s : IrqState) : SetCall → IrqState
  | .irq handler => (set_handle_irq s handler).2
  | .fiq handler => (set_handle_fiq s handler).2

/-- The state after a sequence of calls of the setters. -/
def IrqState.calls (s : IrqState) (cs : List SetCall) : IrqState := cs.foldl IrqState.call s

end Irq

/-! # IP header macros (`include/uapi/linux/ip.h`) -/

namespace Ip

/-- Macro `#define IPTOS_TOS_MASK 0x1E`. -/
def IPTOS_TOS_MASK : Nat := 0x1E
/-- Macro `#define IPTOS_TOS(tos) ((tos)&IPTOS_TOS_MASK)`. -/
def IPTOS_TOS (tos : Nat) : Nat := tos &&& IPTOS_TOS_MASK
/-- Macro `#define IPTOS_PREC_MASK 0xE0`. -/
def IPTOS_PREC_MASK : Nat := 0xE0
/-- Macro `#define IPTOS_PREC(tos) ((tos)&IPTOS_PREC_MASK)`. -/
def IPTOS_PREC (tos : Nat) : Nat := tos &&& IPTOS_PREC_MASK

/-- Macro `#define IPOPT_COPY 0x80`. -/
def IPOPT_COPY : Nat := 0x80
/-- Macro `#define IPOPT_CLASS_MASK 0x60`. -/
def IPOPT_CLASS_MASK : Nat := 0x60
/-- Macro `#define IPOPT_NUMBER_MASK 0x1f`. -/
def IPOPT_NUMBER_MASK : Nat := 0x1f
/-- Macro `#define IPOPT_COPIED(o) ((o)&IPOPT_COPY)`. -/
def IPOPT_COPIED (o : Nat) : Nat := o &&& IPOPT_COPY
/-- Macro `#define IPOPT_CLASS(o) ((o)&IPOPT_CLASS_MASK)`. -/
def IPOPT_CLASS (o : Nat) : Nat := o &&& IPOPT_CLASS_MASK
/-- Macro `#define IPOPT_NUMBER(o) ((o)&IPOPT_NUMBER_MASK)`. -/
def IPOPT_NUMBER (o : Nat) : Nat := o &&& IPOPT_NUMBER_MASK

end Ip

namespace Yaffs

/-! ## Two's-complement helper lemmas -/

theorem toBits64_lt (x : Int) : toBits64 x < 2 ^ 64 := by
  unfold toBits64
  have h1 : 0 ≤ x % 2 ^ 64 := Int.emod_nonneg _ (by norm_num)
  have h2 : x % 2 ^ 64 < 2 ^ 64 := Int.emod_lt_of_pos _ (by norm_num)
  omega

theorem toBits64_cast (x : Int) : ((toBits64 x : Nat) : Int) = x % 2 ^ 64 := by
  unfold toBits64
  have h1 : 0 ≤ x % 2 ^ 64 := Int.emod_nonneg _ (by norm_num)
  omega

theorem toBits64_of_nonneg (x : Int) (h0 : 0 ≤ x) (h1 : x < 2 ^ 64) :
    ((toBits64 x : Nat) : Int) = x := by
  rw [toBits64_cast]
  exact Int.emod_eq_of_lt h0 h1

theorem ofBits64_of_lt (n : Nat) (h : n < 2 ^ 63) : ofBits64 n = (n : Int) := by
  unfold ofBits64
  have h1 : n % 2 ^ 64 = n := Nat.mod_eq_of_lt (by omega)
  rw [h1, if_pos h]

theorem ofBits64_toBits64 (x : Int) (h0 : -2 ^ 63 ≤ x) (h1 : x < 2 ^ 63) :
    ofBits64 (toBits64 x) = x := by
  have hlt := toBits64_lt x
  have hc := toBits64_cast x
  unfold ofBits64
  rw [Nat.mod_eq_of_lt hlt]
  split <;> omega

theorem toBits64_ofBits64 (n : Nat) (h : n < 2 ^ 64) : toBits64 (ofBits64 n) = n := by
  have e : ofBits64 n = if n < 2 ^ 63 then (n : Int) else (n : Int) - 2 ^ 64 := by
    unfold ofBits64
    rw [Nat.mod_eq_of_lt h]
  rw [e]
  split
  · have hc := toBits64_cast (n : Int)
    omega
  · have hc := toBits64_cast ((n : Int) - 2 ^ 64)
    omega

theorem toBits64_mask32 : toBits64 (0xffffffff : Int) = 2 ^ 32 - 1 := by decide

theorem loffAnd_mask32 (a : Int) :
    loffAnd a 0xffffffff = ((toBits64 a % 2 ^ 32 : Nat) : Int) := by
  unfold loffAnd
  rw [toBits64_mask32, Nat.and_pow_two_sub_one_eq_mod]
  apply ofBits64_of_lt
  have := Nat.mod_lt (toBits64 a) (show 0 < 2 ^ 32 by norm_num)
  omega

theorem FSIZE_LOW_eq_mod (x : Int) : FSIZE_LOW x = x % 2 ^ 32 := by
  unfold FSIZE_LOW
  rw [loffAnd_mask32]
  have hc := toBits64_cast x
  omega

theorem FSIZE_HIGH_eq_div_mod (x : Int) : FSIZE_HIGH x = x / 2 ^ 32 % 2 ^ 32 := by
  unfold FSIZE_HIGH loffShr
  rw [loffAnd_mask32]
  have hs : Int.shiftRight x 32 = x / 2 ^ 32 := by
    have := Int.shiftRight_eq_div_pow x 32
    simpa using this
  rw [hs]
  have hc := toBits64_cast (x / 2 ^ 32)
  omega

theorem FSIZE_COMBINE_eq (h l : Nat) (hh : h < 2 ^ 32) (hl : l < 2 ^ 32) :
    FSIZE_COMBINE h l = ofBits64 (2 ^ 32 * h + l) := by
  have bh : toBits64 (h : Int) = h := by
    have := toBits64_of_nonneg (h : Int) (by omega) (by omega)
    omega
  have bl : toBits64 (l : Int) = l := by
    have := toBits64_of_nonneg (l : Int) (by omega) (by omega)
    omega
  have ch : toBits64 (castLoff (h : Int)) = h := by
    unfold castLoff
    rw [bh, toBits64_ofBits64 h (by omega)]
  have cl : toBits64 (castLoff (l : Int)) = l := by
    unfold castLoff
    rw [bl, toBits64_ofBits64 l (by omega)]
  unfold FSIZE_COMBINE
  rw [loffAnd_mask32, cl, Nat.mod_eq_of_lt hl]
  unfold loffOr loffShl
  rw [ch, bl, Nat.shiftLeft_eq, toBits64_ofBits64 _ (by omega), Nat.mul_comm h,
    Nat.mul_add_lt_is_or hl]

/-! ## File-size marshalling -/

/-- C1: for every 64-bit file size `x`, `FSIZE_LOW x` and `FSIZE_HIGH x` are
values in `[0, 2^32)` (they fit the `u32` header fields), and
`FSIZE_COMBINE (FSIZE_HIGH x) (FSIZE_LOW x) = x`; under `LOFF_T_32_BIT` the high
half is `0` and the combination gives `x` back as well. -/
theorem fsize_marshal_roundtrip (x : Int) (h0 : -2 ^ 63 ≤ x) (h1 : x < 2 ^ 63) :
    (0 ≤ FSIZE_LOW x ∧ FSIZE_LOW x < 2 ^ 32) ∧
    (0 ≤ FSIZE_HIGH x ∧ FSIZE_HIGH x < 2 ^ 32) ∧
    FSIZE_COMBINE (FSIZE_HIGH x) (FSIZE_LOW x) = x ∧
    FSIZE_HIGH_32 x = 0 ∧
    FSIZE_COMBINE_32 (FSIZE_HIGH_32 x) (FSIZE_LOW_32 x) = x := by
  have hl := FSIZE_LOW_eq_mod x
  have hh := FSIZE_HIGH_eq_div_mod x
  refine ⟨by omega, by omega, ?_, rfl, rfl⟩
  obtain ⟨ln, hln⟩ : ∃ n : Nat, FSIZE_LOW x = (n : Int) :=
    Int.eq_ofNat_of_zero_le (by omega)
  obtain ⟨hn, hhn⟩ : ∃ n : Nat, FSIZE_HIGH x = (n : Int) :=
    Int.eq_ofNat_of_zero_le (by omega)
  have hc := toBits64_cast x
  have e : 2 ^ 32 * hn + ln = toBits64 x := by omega
  rw [hln, hhn, FSIZE_COMBINE_eq hn ln (by omega) (by omega), e]
  exact ofBits64_toBits64 x h0 h1

/-- Instance of C1 at the negative size `-5` (bit pattern `0xFFFF…FB`). -/
theorem fsize_marshal_roundtrip_witness :
    FSIZE_COMBINE (FSIZE_HIGH (-5)) (FSIZE_LOW (-5)) = -5 :=
  (fsize_marshal_roundtrip (-5) (by norm_num) (by norm_num)).2.2.1

/-! ## Sequence numbers -/

/-- C2: a genuine block sequence number, i.e. a `u32` value `s` with
`YAFFS_LOWEST_SEQUENCE_NUMBER ≤ s ≤ YAFFS_HIGHEST_SEQUENCE_NUMBER`, is never one
of the reserved values `YAFFS_SEQUENCE_BAD_BLOCK` and
`YAFFS_SEQUENCE_CHECKPOINT_DATA`, because
`0x21 < LOWEST ≤ HIGHEST < 0xFFFF0000 < 2^32`. -/
theorem seq_number_reserved_disjoint (s : Nat) (_hs : s < 2 ^ 32)
    (hlo : YAFFS_LOWEST_SEQUENCE_NUMBER ≤ s) (hhi : s ≤ YAFFS_HIGHEST_SEQUENCE_NUMBER) :
    s ≠ YAFFS_SEQUENCE_BAD_BLOCK ∧ s ≠ YAFFS_SEQUENCE_CHECKPOINT_DATA ∧
    (YAFFS_SEQUENCE_CHECKPOINT_DATA < YAFFS_LOWEST_SEQUENCE_NUMBER ∧
     YAFFS_LOWEST_SEQUENCE_NUMBER ≤ YAFFS_HIGHEST_SEQUENCE_NUMBER ∧
     YAFFS_HIGHEST_SEQUENCE_NUMBER < YAFFS_SEQUENCE_BAD_BLOCK ∧
     YAFFS_SEQUENCE_BAD_BLOCK < 2 ^ 32) := by
  unfold YAFFS_LOWEST_SEQUENCE_NUMBER at hlo ⊢
  unfold YAFFS_HIGHEST_SEQUENCE_NUMBER at hhi ⊢
  unfold YAFFS_SEQUENCE_BAD_BLOCK YAFFS_SEQUENCE_CHECKPOINT_DATA
  omega

/-- Instance of C2 at the first sequence number, `0x1000`. -/
theorem seq_number_reserved_disjoint_witness :
    (0x1000 : Nat) ≠ YAFFS_SEQUENCE_BAD_BLOCK ∧
    (0x1000 : Nat) ≠ YAFFS_SEQUENCE_CHECKPOINT_DATA :=
  have h := seq_number_reserved_disjoint 0x1000 (by norm_num)
    (by unfold YAFFS_LOWEST_SEQUENCE_NUMBER; norm_num)
    (by unfold YAFFS_HIGHEST_SEQUENCE_NUMBER; norm_num)
  ⟨h.1, h.2.1⟩

/-! ## Object ids -/

/-- C3 as stated fails: `YAFFS_OBJECT_SPACE` is not `2^19`,
`YAFFS_MAX_OBJECT_ID` is not `2^19 - 1`, and `0x40000` is a non-zero 19-bit value
that lies outside `[1, YAFFS_OBJECT_SPACE)`. -/
theorem object_space_not_19_bits :
    YAFFS_OBJECT_SPACE ≠ 2 ^ 19 ∧ YAFFS_MAX_OBJECT_ID ≠ 2 ^ 19 - 1 ∧
    ((0x40000 : Nat) ≠ 0 ∧ (0x40000 : Nat) < 2 ^ 19 ∧
      ¬ (1 ≤ (0x40000 : Nat) ∧ (0x40000 : Nat) < YAFFS_OBJECT_SPACE)) := by
  unfold YAFFS_MAX_OBJECT_ID YAFFS_OBJECT_SPACE
  omega

/-- C3 (amended): the object-id space is 18 bits wide.
`YAFFS_OBJECT_SPACE = 2^18`, the ids in `[1, YAFFS_OBJECT_SPACE)` are exactly the
non-zero values representable in 18 bits, and `YAFFS_MAX_OBJECT_ID = 2^18 - 1`. -/
theorem object_space_18_bits :
    YAFFS_OBJECT_SPACE = 2 ^ 18 ∧
    (∀ id : Nat, (1 ≤ id ∧ id < YAFFS_OBJECT_SPACE) ↔ (id ≠ 0 ∧ id < 2 ^ 18)) ∧
    YAFFS_MAX_OBJECT_ID = 2 ^ 18 - 1 := by
  unfold YAFFS_MAX_OBJECT_ID YAFFS_OBJECT_SPACE
  refine ⟨by norm_num, fun id => ?_, by norm_num⟩
  omega

/-! ## Tnode tree capacity -/

/-- C4: with 16 leaf slots (4 index bits), 8 internal slots (3 index bits) and a
maximum level of 8, `YAFFS_TNODES_MAX_BITS = 4 + 3 * 8 = 28` and
`YAFFS_MAX_CHUNK_ID = 2^28 - 1`; the chunk ids `0 .. YAFFS_MAX_CHUNK_ID` are
exactly `2^28` many, which at 2 KiB per chunk is `2^39` bytes, i.e. 512 GiB. -/
theorem tnode_tree_capacity :
    (YAFFS_NTNODES_LEVEL0 = 16 ∧ YAFFS_NTNODES_LEVEL0 = 2 ^ YAFFS_TNODES_LEVEL0_BITS ∧
      YAFFS_TNODES_LEVEL0_BITS = 4) ∧
    (YAFFS_NTNODES_INTERNAL = 8 ∧ YAFFS_NTNODES_INTERNAL = 2 ^ YAFFS_TNODES_INTERNAL_BITS ∧
      YAFFS_TNODES_INTERNAL_BITS = 3) ∧
    YAFFS_TNODES_MAX_LEVEL = 8 ∧
    (YAFFS_TNODES_MAX_BITS = 4 + 3 * 8 ∧ YAFFS_TNODES_MAX_BITS = 28) ∧
    YAFFS_MAX_CHUNK_ID = 2 ^ 28 - 1 ∧
    (Finset.range (YAFFS_MAX_CHUNK_ID + 1)).card = 2 ^ 28 ∧
    (YAFFS_MAX_CHUNK_ID + 1) * 2048 = 2 ^ 39 ∧
    2 ^ 39 = 512 * 2 ^ 30 := by
  have hb : YAFFS_TNODES_MAX_BITS = 28 := by decide
  have hm : YAFFS_MAX_CHUNK_ID = 2 ^ 28 - 1 := by
    unfold YAFFS_MAX_CHUNK_ID
    rw [hb]
    decide
  refine ⟨by decide, by decide, by decide, ⟨by decide, hb⟩, hm, ?_, ?_, by norm_num⟩
  · rw [Finset.card_range, hm]
    norm_num
  · rw [hm]
    norm_num

/-! ## Block bookkeeping record -/

/-- C5: the bit-field widths of `struct yaffs_block_info`
(`soft_del_pages:10, pages_in_use:10, block_state:4, needs_retiring:1,
skip_erased_check:1, gc_prioritise:1, chunk_error_strikes:3, has_summary:1,
has_shrink_hdr:1`) sum to exactly 32 bits; they occupy one `u32` unit, and with
the 32-bit `seq_number` the record is exactly the two `u32` words overlaid by
`yaffs_block_info_union.as_u32[2]`. -/
theorem block_info_packs_in_two_words :
    yaffs_block_info_bitfields.map (fun f => (f.name, f.width)) =
      [("soft_del_pages", 10), ("pages_in_use", 10), ("block_state", 4),
       ("needs_retiring", 1), ("skip_erased_check", 1), ("gc_prioritise", 1),
       ("chunk_error_strikes", 3), ("has_summary", 1), ("has_shrink_hdr", 1)] ∧
    bitfieldBits yaffs_block_info_bitfields = 32 ∧
    bitfieldUnits yaffs_block_info_bitfields = 1 ∧
    sizeof_yaffs_block_info = 2 * sizeof_u32 ∧
    sizeof_yaffs_block_info = yaffs_block_info_union_as_u32_len * sizeof_u32 ∧
    8 * sizeof_yaffs_block_info = bitfieldBits yaffs_block_info_bitfields + 32 := by
  refine ⟨by decide, by decide, by decide, by decide, by decide, by decide⟩

/-! ## Chunk accounting -/

theorem store_s10_of_range (v : Int) (h0 : -512 ≤ v) (h1 : v ≤ 511) : store_s10 v = v := by
  unfold store_s10
  omega

theorem store_s10_succ (k : Int) : store_s10 (store_s10 k + 1) = store_s10 (k + 1) := by
  unfold store_s10
  omega

theorem BlockAcct.softSet_le_bitsSet (b : BlockAcct) : b.softSet ≤ b.bitsSet := by
  unfold BlockAcct.softSet BlockAcct.bitsSet
  apply List.countP_mono_left
  intro c _ hc
  simp only [Bool.and_eq_true] at hc
  exact hc.1

theorem BlockAcct.bitsSet_le_length (b : BlockAcct) : b.bitsSet ≤ b.chunks.length :=
  List.countP_le_length _

theorem BlockAcct.erased_inv (n : Nat) : (BlockAcct.erased n).Inv n := by
  unfold BlockAcct.Inv BlockAcct.bitsSet BlockAcct.softSet BlockAcct.erased
  simp [List.countP_replicate]

theorem BlockAcct.alloc_inv (n : Nat) (hn : n ≤ 511) (b : BlockAcct) (page : Nat)
    (hb : b.Inv n) : (b.alloc page).Inv n := by
  obtain ⟨hlen, hpiu, hsdp⟩ := hb
  unfold BlockAcct.alloc
  split
  · rename_i c hc
    split
    · exact ⟨hlen, hpiu, hsdp⟩
    · rename_i hin
      obtain ⟨hlt, hget⟩ := List.getElem?_eq_some_iff.mp hc
      have hcin : c.in_use = false := by simpa using hin
      have hbits : (b.chunks.set page ⟨true, false⟩).countP (fun c => c.in_use)
          = b.bitsSet + 1 := by
        rw [List.countP_set _ _ _ _ hlt, hget]
        simp [hcin, BlockAcct.bitsSet]
      have hsoft : (b.chunks.set page ⟨true, false⟩).countP
          (fun c => c.in_use && c.soft_deleted) = b.softSet := by
        rw [List.countP_set _ _ _ _ hlt, hget]
        simp [hcin, BlockAcct.softSet]
      have hle : b.bitsSet + 1 ≤ n := by
        rw [← hbits, ← hlen, ← List.length_set b.chunks page ⟨true, false⟩]
        exact List.countP_le_length _
      refine ⟨by simp [hlen], ?_, ?_⟩
      · simp only [BlockAcct.bitsSet, hbits]
        rw [hpiu, store_s10_of_range _ (by omega) (by omega)]
        push_cast
        rfl
      · simp only [BlockAcct.softSet, hsoft]
        exact hsdp
  · exact ⟨hlen, hpiu, hsdp⟩

theorem BlockAcct.chunk_del_inv (n : Nat) (hn : n ≤ 511) (b : BlockAcct) (page : Nat)
    (hb : b.Inv n) : (b.chunk_del page).Inv n := by
  obtain ⟨hlen, hpiu, hsdp⟩ := hb
  have hle := b.bitsSet_le_length
  have hsb := b.softSet_le_bitsSet
  unfold BlockAcct.chunk_del
  split
  · rename_i c hc
    split
    · rename_i hin
      obtain ⟨hlt, hget⟩ := List.getElem?_eq_some_iff.mp hc
      have hbits : (b.chunks.set page ⟨false, false⟩).countP (fun c => c.in_use) + 1
          = b.bitsSet := by
        rw [List.countP_set _ _ _ _ hlt, hget]
        have hpos : 0 < b.chunks.countP (fun c => c.in_use) :=
          List.countP_pos_iff.mpr ⟨c, hget ▸ List.getElem_mem hlt, hin⟩
        simp only [hin, BlockAcct.bitsSet]
        simp
        omega
      have hsoft : (b.chunks.set page ⟨false, false⟩).countP
          (fun c => c.in_use && c.soft_deleted) + (if c.soft_deleted then 1 else 0)
          = b.softSet := by
        rw [List.countP_set _ _ _ _ hlt, hget]
        by_cases hs : c.soft_deleted = true
        · have hpos : 0 < b.chunks.countP (fun c => c.in_use && c.soft_deleted) :=
            List.countP_pos_iff.mpr ⟨c, hget ▸ List.getElem_mem hlt, by simp [hin, hs]⟩
          simp only [hin, hs, BlockAcct.softSet]
          simp
          omega
        · simp [hs, BlockAcct.softSet]
      refine ⟨by simp [hlen], ?_, ?_⟩
      · simp only [BlockAcct.bitsSet]
        rw [hpiu, store_s10_of_range _ (by omega) (by omega)]
        omega
      · simp only [BlockAcct.softSet]
        by_cases hs : c.soft_deleted = true
        · simp only [hs, if_true] at hsoft ⊢
          rw [hsdp, store_s10_of_range _ (by omega) (by omega)]
          omega
        · simp only [hs] at hsoft ⊢
          simp only [Bool.false_eq_true, if_false] at hsoft ⊢
          omega
    · exact ⟨hlen, hpiu, hsdp⟩
  · exact ⟨hlen, hpiu, hsdp⟩

theorem BlockAcct.soft_del_inv (n : Nat) (hn : n ≤ 511) (b : BlockAcct) (page : Nat)
    (hb : b.Inv n) : (b.soft_del page).Inv n := by
  obtain ⟨hlen, hpiu, hsdp⟩ := hb
  unfold BlockAcct.soft_del
  split
  · rename_i c hc
    split
    · rename_i hcond
      obtain ⟨hlt, hget⟩ := List.getElem?_eq_some_iff.mp hc
      have hin : c.in_use = true := by
        simp only [Bool.and_eq_true] at hcond
        exact hcond.1
      have hns : c.soft_deleted = false := by
        simp only [Bool.and_eq_true, Bool.not_eq_true'] at hcond
        exact hcond.2
      have hbits : (b.chunks.set page ⟨true, true⟩).countP (fun c => c.in_use)
          = b.bitsSet := by
        rw [List.countP_set _ _ _ _ hlt, hget]
        have hpos : 0 < b.chunks.countP (fun c => c.in_use) :=
          List.countP_pos_iff.mpr ⟨c, hget ▸ List.getElem_mem hlt, hin⟩
        simp only [hin, BlockAcct.bitsSet]
        simp
        omega
      have hsoft : (b.chunks.set page ⟨true, true⟩).countP
          (fun c => c.in_use && c.soft_deleted) = b.softSet + 1 := by
        rw [List.countP_set _ _ _ _ hlt, hget]
        simp [hin, hns, BlockAcct.softSet]
      have hle : b.softSet + 1 ≤ n := by
        rw [← hsoft, ← hlen, ← List.length_set b.chunks page ⟨true, true⟩]
        exact List.countP_le_length _
      refine ⟨by simp [hlen], ?_, ?_⟩
      · simp only [BlockAcct.bitsSet, hbits]
        exact hpiu
      · simp only [BlockAcct.softSet, hsoft]
        rw [hsdp, store_s10_of_range _ (by omega) (by omega)]
        push_cast
        rfl
    · exact ⟨hlen, hpiu, hsdp⟩
  · exact ⟨hlen, hpiu, hsdp⟩

theorem onBlock_inv (n : Nat) (d : List BlockAcct) (blk : Nat) (f : BlockAcct → BlockAcct)
    (hf : ∀ b, b.Inv n → (f b).Inv n) (hd : ∀ b ∈ d, b.Inv n) :
    ∀ b ∈ onBlock d blk f, b.Inv n := by
  unfold onBlock
  split
  · rename_i b0 hb0
    obtain ⟨hlt, hget⟩ := List.getElem?_eq_some_iff.mp hb0
    intro b hb
    rcases List.mem_or_eq_of_mem_set hb with h | h
    · exact hd b h
    · rw [h]
      exact hf b0 (hd b0 (hget ▸ List.getElem_mem hlt))
  · exact hd

theorem acctStep_inv (n : Nat) (hn : n ≤ 511) (d : List BlockAcct) (op : AcctOp)
    (hd : ∀ b ∈ d, b.Inv n) : ∀ b ∈ acctStep n d op, b.Inv n := by
  cases op with
  | alloc blk page =>
    exact onBlock_inv n d blk _ (fun b hb => BlockAcct.alloc_inv n hn b page hb) hd
  | chunk_del blk page =>
    exact onBlock_inv n d blk _ (fun b hb => BlockAcct.chunk_del_inv n hn b page hb) hd
  | soft_del blk page =>
    exact onBlock_inv n d blk _ (fun b hb => BlockAcct.soft_del_inv n hn b page hb) hd
  | erase blk =>
    exact onBlock_inv n d blk _ (fun _ _ => BlockAcct.erased_inv n) hd

theorem acctFold_inv (n : Nat) (hn : n ≤ 511) (ops : List AcctOp) :
    ∀ d : List BlockAcct, (∀ b ∈ d, b.Inv n) →
      ∀ b ∈ ops.foldl (acctStep n) d, b.Inv n := by
  induction ops with
  | nil => intro d hd; simpa using hd
  | cons op rest ih =>
    intro d hd
    rw [List.foldl_cons]
    exact ih _ (acctStep_inv n hn d op hd)

theorem getElem?_replicate_append_cons {α : Type} (k : Nat) (a b : α) (rest : List α) :
    (List.replicate k a ++ b :: rest)[k]? = some b := by
  induction k with
  | zero => simp
  | succ k ih => simpa [List.replicate_succ] using ih

theorem set_replicate_append_cons {α : Type} (k : Nat) (a b c : α) (rest : List α) :
    (List.replicate k a ++ b :: rest).set k c = List.replicate k a ++ c :: rest := by
  induction k with
  | zero => simp
  | succ k ih => simp [List.replicate_succ, ih]

/-- Allocating pages `0 .. k-1` of an erased block, one after the other. -/
theorem alloc_prefix_run (n k : Nat) (hk : k ≤ n) :
    ((List.range k).map (AcctOp.alloc 0)).foldl (acctStep n) [BlockAcct.erased n]
      = [{ chunks := List.replicate k ⟨true, false⟩ ++ List.replicate (n - k) ⟨false, false⟩,
           pages_in_use := store_s10 k, soft_del_pages := 0 }] := by
  induction k with
  | zero => simp [BlockAcct.erased, store_s10]
  | succ k ih =>
    rw [List.range_succ, List.map_append, List.foldl_append, ih (by omega)]
    have hrep : List.replicate (n - k) (⟨false, false⟩ : ChunkAcct)
        = ⟨false, false⟩ :: List.replicate (n - (k + 1)) ⟨false, false⟩ := by
      rw [show n - k = (n - (k + 1)) + 1 by omega, List.replicate_succ]
    rw [hrep]
    simp only [List.map_cons, List.map_nil, List.foldl_cons, List.foldl_nil, acctStep, onBlock,
      List.getElem?_cons_zero, List.set_cons_zero, BlockAcct.alloc,
      getElem?_replicate_append_cons, set_replicate_append_cons]
    simp only [Bool.false_eq_true, if_false]
    have happ : List.replicate k (⟨true, false⟩ : ChunkAcct) ++
        ⟨true, false⟩ :: List.replicate (n - (k + 1)) ⟨false, false⟩
        = List.replicate (k + 1) ⟨true, false⟩ ++ List.replicate (n - (k + 1)) ⟨false, false⟩ := by
      rw [List.replicate_succ', List.append_assoc]
      rfl
    rw [happ, store_s10_succ]
    push_cast
    rfl

/-- C6 as stated fails on a device with 512 chunks per block: after the 512
chunks of a block have been allocated, all 512 bits of its slice are set but the
signed 10-bit `pages_in_use` reads `-512`. -/
theorem chunk_accounting_fails_at_512 :
    ∃ b ∈ acctRun 1 512 ((List.range 512).map (AcctOp.alloc 0)),
      b.bitsSet = 512 ∧ b.pages_in_use = -512 ∧ b.pages_in_use ≠ (b.bitsSet : Int) := by
  have h := alloc_prefix_run 512 512 (le_refl _)
  unfold acctRun acctFormat
  rw [List.replicate_one, h]
  refine ⟨_, List.mem_singleton.mpr rfl, ?_, ?_, ?_⟩
  · simp only [BlockAcct.bitsSet, List.countP_append, List.countP_replicate]
    decide
  · show store_s10 ((512 : Nat) : Int) = -512
    unfold store_s10
    omega
  · simp only [BlockAcct.bitsSet, List.countP_append, List.countP_replicate]
    unfold store_s10
    simp only [if_true, Bool.false_eq_true, if_false]
    omega

/-- C6 (amended): on a device whose blocks hold at most 511 chunks, in every
state reached from a formatted device by chunk allocations, `yaffs_chunk_del`s,
soft deletes and erases, every block has `pages_in_use` equal to the number of
bits set in its slice of the chunk bitmap and `soft_del_pages ≤ pages_in_use`. -/
theorem chunk_accounting_invariant (n_blocks chunks_per_block : Nat)
    (hcpb : chunks_per_block ≤ 511) (ops : List AcctOp) (b : BlockAcct)
    (hb : b ∈ acctRun n_blocks chunks_per_block ops) :
    b.pages_in_use = (b.bitsSet : Int) ∧ b.soft_del_pages ≤ b.pages_in_use := by
  have hinit : ∀ b ∈ acctFormat n_blocks chunks_per_block, b.Inv chunks_per_block := by
    intro b hb
    rw [acctFormat, List.mem_replicate] at hb
    rw [hb.2]
    exact BlockAcct.erased_inv chunks_per_block
  obtain ⟨_, hpiu, hsdp⟩ := acctFold_inv chunks_per_block hcpb ops _ hinit b hb
  have hle := b.softSet_le_bitsSet
  refine ⟨hpiu, ?_⟩
  rw [hpiu, hsdp]
  exact_mod_cast hle

/-- Instance of C6 (amended): 4 chunks per block, two blocks; block 0 after two
allocations, one soft delete and one deletion. -/
theorem chunk_accounting_invariant_witness :
    (1 : Int) = ((⟨[⟨true, true⟩, ⟨false, false⟩, ⟨false, false⟩, ⟨false, false⟩], 1, 1⟩ :
        BlockAcct).bitsSet : Int) ∧ (1 : Int) ≤ 1 :=
  chunk_accounting_invariant 2 4 (by norm_num)
    [.alloc 0 0, .alloc 0 1, .soft_del 0 0, .chunk_del 0 1]
    ⟨[⟨true, true⟩, ⟨false, false⟩, ⟨false, false⟩, ⟨false, false⟩], 1, 1⟩ (by decide)

/-! ## Checkpoint validity gate -/

/-- C9: `yaffs_checkpoint_restore` reports `YAFFS_FAIL` and leaves the device not
checkpointed whenever the validity header's magic is not `YAFFS_MAGIC`, or its
version is not `YAFFS_CHECKPOINT_VERSION` (8), or the head or tail marker does
not match, or the sum or xor checksum does not match; it returns `YAFFS_OK` only
if all of them match. -/
theorem checkpoint_restore_validity_gate (dev : CheckptDev) (s : CheckpointStream) :
    ((s.head_marker.magic ≠ YAFFS_MAGIC ∨ s.head_marker.version ≠ YAFFS_CHECKPOINT_VERSION ∨
        s.head_marker.head ≠ 1 ∨
        s.tail_marker.magic ≠ YAFFS_MAGIC ∨ s.tail_marker.version ≠ YAFFS_CHECKPOINT_VERSION ∨
        s.tail_marker.head ≠ 0 ∨
        s.stored_sum ≠ checkpt_sum s.records ∨ s.stored_xor ≠ checkpt_xor s.records) →
      (yaffs_checkpoint_restore dev s).1 = YAFFS_FAIL ∧
      (yaffs_checkpoint_restore dev s).2.is_checkpointed = false) ∧
    ((yaffs_checkpoint_restore dev s).1 = YAFFS_OK →
      s.head_marker.magic = YAFFS_MAGIC ∧ s.head_marker.version = YAFFS_CHECKPOINT_VERSION ∧
        s.head_marker.head = 1 ∧
        s.tail_marker.magic = YAFFS_MAGIC ∧ s.tail_marker.version = YAFFS_CHECKPOINT_VERSION ∧
        s.tail_marker.head = 0 ∧
        s.stored_sum = checkpt_sum s.records ∧ s.stored_xor = checkpt_xor s.records) ∧
    YAFFS_CHECKPOINT_VERSION = 8 ∧ YAFFS_OK ≠ YAFFS_FAIL := by
  unfold yaffs_checkpoint_restore validity_marker_ok
  refine ⟨?_, ?_, rfl, by decide⟩
  · intro h
    split
    · rename_i hc
      simp only [Bool.and_eq_true, beq_iff_eq] at hc
      obtain ⟨⟨⟨⟨_, ⟨h1, h2⟩, h3⟩, ⟨h4, h5⟩, h6⟩, h7⟩, h8⟩ := hc
      rcases h with h | h | h | h | h | h | h | h <;> contradiction
    · exact ⟨rfl, rfl⟩
  · intro h
    split at h
    · rename_i hc
      simp only [Bool.and_eq_true, beq_iff_eq] at hc
      obtain ⟨⟨⟨⟨_, ⟨h1, h2⟩, h3⟩, ⟨h4, h5⟩, h6⟩, h7⟩, h8⟩ := hc
      exact ⟨h1, h2, h3, h4, h5, h6, h7, h8⟩
    · simp [YAFFS_FAIL, YAFFS_OK] at h

/-! ## Free-space reserve -/

/-- C10: `yaffs_check_alloc_available dev n` is true exactly when `n` new chunks
can be programmed without leaving fewer than `n_reserved_blocks` blocks' worth of
free chunks, and a normal (non-reserve) write is refused with no-space once the
free space has dropped to `n_reserved_blocks` blocks' worth. -/
theorem reserve_honoured (dev : SpaceDev) (n : Int) :
    (yaffs_check_alloc_available dev n = true ↔
      (dev.n_reserved_blocks : Int) * (dev.chunks_per_block : Int) ≤ dev.n_free_chunks - n) ∧
    (dev.n_free_chunks ≤ (dev.n_reserved_blocks : Int) * (dev.chunks_per_block : Int) →
      write_space_check dev false = SpaceResult.no_space) := by
  unfold write_space_check yaffs_check_alloc_available SpaceDev.reserved_chunks
  constructor
  · rw [decide_eq_true_iff]
    omega
  · intro h
    have hn : ¬ ((dev.n_reserved_blocks : Int) * (dev.chunks_per_block : Int) + 1
        ≤ dev.n_free_chunks) := by omega
    simp [hn]

/-! ## Tnode tree -/

theorem Tnode.lookup_none (level i : Nat) : Tnode.lookup level none i = none := by
  induction level with
  | zero => rfl
  | succ l ih => simpa [Tnode.lookup, Tnode.kidsOf] using ih

theorem Tnode.lookup_insert_same (level : Nat) :
    ∀ (t : Option Tnode) (i v : Nat),
      Tnode.lookup level (some (Tnode.insert level t i v)) i = some v := by
  induction level with
  | zero =>
    intro t i v
    simp [Tnode.lookup, Tnode.insert, Tnode.slotsOf]
  | succ l ih =>
    intro t i v
    simp only [Tnode.lookup, Tnode.insert, Tnode.kidsOf, Function.update_same]
    exact ih _ i v

theorem tnode_index0_eq (i : Nat) : (tnode_index0 i).val = i % 2 ^ 4 := by
  show i &&& (2 ^ 4 - 1) = i % 2 ^ 4
  exact Nat.and_pow_two_sub_one_eq_mod i 4

theorem tnode_index_eq (l i : Nat) :
    (tnode_index (l + 1) i).val = i / 2 ^ (4 + 3 * l) % 2 ^ 3 := by
  show (i >>> (4 + (l + 1 - 1) * (4 - 1))) &&& (2 ^ 3 - 1) = _
  rw [Nat.and_pow_two_sub_one_eq_mod, Nat.shiftRight_eq_div_pow]
  congr 3
  simp [Nat.mul_comm]

theorem tnode_fits_iff (l i : Nat) : tnode_fits l i = true ↔ i < 2 ^ (4 + 3 * l) := by
  unfold tnode_fits
  rw [beq_iff_eq, Nat.shiftRight_eq_div_pow]
  show i / 2 ^ (4 + l * (4 - 1)) = 0 ↔ _
  rw [Nat.div_eq_zero_iff (Nat.two_pow_pos _)]
  simp [Nat.mul_comm]

theorem Tnode.lookup_insert_other (level : Nat) :
    ∀ (t : Option Tnode) (i j v : Nat),
      i % 2 ^ (4 + 3 * level) ≠ j % 2 ^ (4 + 3 * level) →
      Tnode.lookup level (some (Tnode.insert level t i v)) j = Tnode.lookup level t j := by
  induction level with
  | zero =>
    intro t i j v h
    have hne : tnode_index0 j ≠ tnode_index0 i := by
      intro e
      have := congrArg Fin.val e
      rw [tnode_index0_eq, tnode_index0_eq] at this
      exact h this.symm
    simp only [Tnode.lookup, Tnode.insert, Tnode.slotsOf]
    rw [Function.update_noteq hne]
  | succ l ih =>
    intro t i j v h
    simp only [Tnode.lookup, Tnode.insert, Tnode.kidsOf]
    by_cases hidx : tnode_index (l + 1) j = tnode_index (l + 1) i
    · rw [hidx, Function.update_same]
      apply ih
      intro hlow
      apply h
      have e : 4 + 3 * (l + 1) = (4 + 3 * l) + 3 := by ring
      have hd := congrArg Fin.val hidx
      rw [tnode_index_eq, tnode_index_eq] at hd
      rw [e, Nat.pow_add, Nat.mod_mul, Nat.mod_mul, hlow, hd]
    · rw [Function.update_noteq hidx]

theorem TnodeTree.grow_find (fuel : Nat) :
    ∀ (t : TnodeTree) (i j : Nat), (TnodeTree.grow fuel t i).find j = t.find j := by
  induction fuel with
  | zero => intro t i j; rfl
  | succ f ih =>
    intro t i j
    rw [TnodeTree.grow]
    split
    · rfl
    · rw [ih]
      unfold TnodeTree.find
      simp only [Tnode.lookup, Tnode.kidsOf]
      by_cases hfit : tnode_fits t.top_level j = true
      · have hfit' : tnode_fits (t.top_level + 1) j = true := by
          rw [tnode_fits_iff] at hfit ⊢
          calc j < 2 ^ (4 + 3 * t.top_level) := hfit
            _ ≤ 2 ^ (4 + 3 * (t.top_level + 1)) :=
              Nat.pow_le_pow_right (by norm_num) (by omega)
        have hz : tnode_index (t.top_level + 1) j = 0 := by
          apply Fin.ext
          rw [tnode_index_eq]
          rw [tnode_fits_iff] at hfit
          rw [Nat.div_eq_of_lt hfit]
          rfl
        rw [if_pos hfit', if_pos hfit, hz, Function.update_same]
      · rw [if_neg hfit]
        split
        · rename_i hfit'
          have hnz : tnode_index (t.top_level + 1) j ≠ 0 := by
            intro e
            have hv := congrArg Fin.val e
            rw [tnode_index_eq] at hv
            rw [tnode_fits_iff] at hfit hfit'
            have e2 : 4 + 3 * (t.top_level + 1) = (4 + 3 * t.top_level) + 3 := by ring
            rw [e2, Nat.pow_add] at hfit'
            have hlt : j / 2 ^ (4 + 3 * t.top_level) < 2 ^ 3 :=
              (Nat.div_lt_iff_lt_mul (Nat.two_pow_pos _)).mpr (by rw [Nat.mul_comm]; exact hfit')
            rw [Nat.mod_eq_of_lt hlt] at hv
            have hz : j / 2 ^ (4 + 3 * t.top_level) = 0 := hv
            rw [Nat.div_eq_zero_iff (Nat.two_pow_pos _)] at hz
            exact hfit hz
          rw [Function.update_noteq hnz]
          exact Tnode.lookup_none _ _
        · rfl

/-- A slot stored in the tree is found again, and no other slot changes. -/
theorem TnodeTree.add_find (t t' : TnodeTree) (i v : Nat) (h : t.add i v = some t') :
    t'.find = Function.update t.find i (some v) := by
  unfold TnodeTree.add at h
  simp only at h
  split at h
  case isFalse => cases h
  case isTrue hc =>
  obtain ⟨hfit, _⟩ := hc
  simp only [Option.some.injEq] at h
  subst h
  funext j
  by_cases hj : j = i
  · subst hj
    rw [Function.update_same]
    unfold TnodeTree.find
    simp only
    rw [if_pos hfit]
    exact Tnode.lookup_insert_same _ _ _ _
  · rw [Function.update_noteq hj, ← TnodeTree.grow_find YAFFS_TNODES_MAX_LEVEL t i j]
    unfold TnodeTree.find
    simp only
    split
    · rename_i hfj
      apply Tnode.lookup_insert_other
      rw [tnode_fits_iff] at hfit hfj
      rw [Nat.mod_eq_of_lt hfit, Nat.mod_eq_of_lt hfj]
      exact fun e => hj e.symm
    · rfl

theorem TnodeTree.find_empty (i : Nat) : (⟨0, none⟩ : TnodeTree).find i = none := by
  unfold TnodeTree.find
  split <;> rfl

/-! ## File data path: NAND layer -/

theorem group_base_le (c g : Nat) : (c >>> g) <<< g ≤ c := by
  rw [Nat.shiftRight_eq_div_pow, Nat.shiftLeft_eq]
  exact Nat.div_mul_le_self c (2 ^ g)

theorem group_offset_lt (c g : Nat) : c - (c >>> g) <<< g < 2 ^ g := by
  rw [Nat.shiftRight_eq_div_pow, Nat.shiftLeft_eq]
  have h := Nat.mod_lt c (Nat.two_pow_pos g)
  have h2 := Nat.div_add_mod c (2 ^ g)
  have h3 : c / 2 ^ g * 2 ^ g = 2 ^ g * (c / 2 ^ g) := Nat.mul_comm _ _
  omega

/-- The chunk found for a logical chunk id is the chunk in use that carries it. -/
theorem FileDev.find_chunk_in_file_live (dev : FileDev) (hwf : dev.Wf) (c : Nat) (ch : NandChunk)
    (hbit : dev.chunk_bits c = true) (hnand : dev.nand c = some ch) :
    dev.find_chunk_in_file ch.tags.chunk_id = some c := by
  obtain ⟨ch0, hn0, hobj, _, hslot⟩ := hwf.live c hbit
  rw [hnand] at hn0
  cases hn0
  unfold FileDev.find_chunk_in_file
  rw [hslot]
  simp only
  unfold FileDev.find_chunk_in_group
  split
  · rename_i hg
    rw [hg]
    simp
  · have hle := group_base_le c dev.chunk_grp_bits
    have hlt := group_offset_lt c dev.chunk_grp_bits
    have hp : ∀ j, (dev.chunk_bits ((c >>> dev.chunk_grp_bits) <<< dev.chunk_grp_bits + j) &&
        dev.tags_match ((c >>> dev.chunk_grp_bits) <<< dev.chunk_grp_bits + j) dev.obj_id
          ch.tags.chunk_id) = true →
        (c >>> dev.chunk_grp_bits) <<< dev.chunk_grp_bits + j = c := by
      intro j hj
      simp only [Bool.and_eq_true] at hj
      obtain ⟨hb, hm⟩ := hj
      unfold FileDev.tags_match at hm
      split at hm
      · rename_i ch' hch'
        simp only [Bool.and_eq_true, beq_iff_eq] at hm
        exact hwf.uniq _ _ ch' ch hb hbit hch' hnand hm.2
      · exact absurd hm (by simp)
    cases hf : (List.range dev.chunk_grp_size).find?
      (fun j => dev.chunk_bits ((c >>> dev.chunk_grp_bits) <<< dev.chunk_grp_bits + j) &&
        dev.tags_match ((c >>> dev.chunk_grp_bits) <<< dev.chunk_grp_bits + j) dev.obj_id
          ch.tags.chunk_id) with
    | none =>
      rw [List.find?_eq_none] at hf
      have hmem : c - (c >>> dev.chunk_grp_bits) <<< dev.chunk_grp_bits
          ∈ List.range dev.chunk_grp_size := by
        rw [List.mem_range]
        exact hlt
      have := hf _ hmem
      have hc : (c >>> dev.chunk_grp_bits) <<< dev.chunk_grp_bits +
          (c - (c >>> dev.chunk_grp_bits) <<< dev.chunk_grp_bits) = c := by omega
      rw [hc] at this
      simp [hbit, FileDev.tags_match, hnand, hobj] at this
    | some j =>
      have hj := List.find?_some hf
      have := hp j hj
      simp [this]

theorem FileDev.find_chunk_in_file_none (dev : FileDev) (i : Nat) (h : dev.tnode i = none) :
    dev.find_chunk_in_file i = none := by
  unfold FileDev.find_chunk_in_file
  rw [h]

theorem FileDev.rd_data_obj_live (dev : FileDev) (hwf : dev.Wf) (c : Nat) (ch : NandChunk)
    (hbit : dev.chunk_bits c = true) (hnand : dev.nand c = some ch) :
    dev.rd_data_obj ch.tags.chunk_id = ch.data := by
  unfold FileDev.rd_data_obj
  rw [dev.find_chunk_in_file_live hwf c ch hbit hnand]
  simp [hnand]

theorem FileDev.rd_data_obj_none (dev : FileDev) (i : Nat) (h : dev.tnode i = none) :
    dev.rd_data_obj i = List.replicate dev.data_bytes_per_chunk 0 := by
  unfold FileDev.rd_data_obj
  rw [dev.find_chunk_in_file_none i h]

theorem FileDev.rd_data_obj_length (dev : FileDev) (hwf : dev.Wf) (i : Nat) :
    (dev.rd_data_obj i).length = dev.data_bytes_per_chunk := by
  cases ht : dev.tnode i with
  | none => rw [dev.rd_data_obj_none i ht, List.length_replicate]
  | some s =>
    obtain ⟨c, ch, hb, hn, hi⟩ := hwf.slot i s ht
    obtain ⟨ch0, hn0, _, hlen, _⟩ := hwf.live c hb
    rw [hn] at hn0
    cases hn0
    rw [← hi, dev.rd_data_obj_live hwf c ch hb hn]
    exact hlen

theorem FileDev.find_chunk_in_file_some (dev : FileDev) (hwf : dev.Wf) (i p : Nat)
    (h : dev.find_chunk_in_file i = some p) :
    dev.chunk_bits p = true ∧ ∃ ch, dev.nand p = some ch ∧ ch.tags.chunk_id = i := by
  cases ht : dev.tnode i with
  | none => rw [dev.find_chunk_in_file_none i ht] at h; cases h
  | some s =>
    obtain ⟨c, ch, hb, hn, hi⟩ := hwf.slot i s ht
    have hf := dev.find_chunk_in_file_live hwf c ch hb hn
    rw [hi, h] at hf
    cases hf
    exact ⟨hb, ch, hn, hi⟩

theorem slot_fits (c g w n : Nat) (hc : c < n) (hn : n ≤ 2 ^ (w + g)) :
    (c >>> g) &&& (2 ^ w - 1) = c >>> g := by
  apply Nat.and_pow_two_sub_one_of_lt_two_pow
  rw [Nat.shiftRight_eq_div_pow, Nat.div_lt_iff_lt_mul (Nat.two_pow_pos g), ← Nat.pow_add]
  omega

theorem FileDev.wr_data_obj_spec (dev dev' : FileDev) (hwf : dev.Wf) (i : Nat) (data : List Nat)
    (nb : Nat) (hlen : data.length = dev.data_bytes_per_chunk)
    (h : dev.wr_data_obj i data nb = some dev') :
    dev'.Wf ∧ dev'.rd_data_obj i = data ∧
    (∀ j, j ≠ i → dev'.rd_data_obj j = dev.rd_data_obj j) ∧
    dev.SameGeometry dev' ∧ dev'.file_size = dev.file_size ∧ dev'.cache = dev.cache ∧
    dev'.cache_last_use = dev.cache_last_use := by
  unfold FileDev.wr_data_obj at h
  split at h
  case isFalse => cases h
  case isTrue hspace =>
  simp only at h
  cases hadd : dev.tree.add i ((dev.alloc_next >>> dev.chunk_grp_bits) &&& dev.tnode_mask) with
  | none => rw [hadd] at h; cases h
  | some tree' =>
  rw [hadd] at h
  simp only at h
  have hcfresh : dev.chunk_bits dev.alloc_next = false := hwf.fresh _ (le_refl _)
  -- any chunk in use that carries id `i` is the previous chunk
  have F1 : ∀ x ch, dev.chunk_bits x = true → dev.nand x = some ch → ch.tags.chunk_id = i →
      dev.find_chunk_in_file i = some x := by
    intro x ch hb hn hi
    rw [← hi]
    exact dev.find_chunk_in_file_live hwf x ch hb hn
  -- the chunks in use afterwards
  have F2 : ∀ x, dev'.chunk_bits x = true ↔
      (x = dev.alloc_next ∨ (dev.chunk_bits x = true ∧ dev.find_chunk_in_file i ≠ some x)) := by
    intro x
    cases hp : dev.find_chunk_in_file i with
    | none =>
      rw [hp] at h
      simp only [Option.some.injEq] at h
      subst h
      simp only
      by_cases hx : x = dev.alloc_next
      · subst hx
        simp
      · simp [Function.update_noteq hx, hx]
    | some p =>
      have hpl := (dev.find_chunk_in_file_some hwf i p hp).1
      have hpc : p ≠ dev.alloc_next := by
        intro e
        rw [e, hcfresh] at hpl
        cases hpl
      rw [hp] at h
      simp only [Option.some.injEq] at h
      subst h
      simp only
      by_cases hx : x = p
      · subst hx
        simp [hpc]
      · rw [Function.update_noteq hx]
        by_cases hx2 : x = dev.alloc_next
        · subst hx2
          simp [Ne.symm hx]
        · simp [Function.update_noteq hx2, hx2, Ne.symm hx]
  have hnand : dev'.nand = Function.update dev.nand dev.alloc_next
      (some ⟨⟨dev.obj_id, i, nb⟩, data⟩) := by
    simp only [Option.some.injEq] at h
    subst h
    rfl
  have htn : dev'.tnode = Function.update dev.tnode i
      (some (dev.alloc_next >>> dev.chunk_grp_bits)) := by
    simp only [Option.some.injEq] at h
    subst h
    have := TnodeTree.add_find _ _ _ _ hadd
    simp only [FileDev.tnode_mask] at this
    rw [slot_fits _ _ _ _ hspace hwf.slots_fit] at this
    exact this
  have hgeo : dev.SameGeometry dev' := by
    simp only [Option.some.injEq] at h
    subst h
    exact ⟨rfl, rfl, rfl, rfl, rfl, rfl, rfl⟩
  have hnext : dev'.alloc_next = dev.alloc_next + 1 := by
    simp only [Option.some.injEq] at h
    subst h
    rfl
  have hrest : dev'.file_size = dev.file_size ∧ dev'.cache = dev.cache ∧
      dev'.cache_last_use = dev.cache_last_use := by
    simp only [Option.some.injEq] at h
    subst h
    exact ⟨rfl, rfl, rfl⟩
  clear h
  obtain ⟨gd, gg, gw, gn, _, _, gobj⟩ := hgeo
  -- old chunks in use keep their content
  have hold : ∀ x, dev.chunk_bits x = true → dev'.nand x = dev.nand x := by
    intro x hx
    rw [hnand, Function.update_noteq]
    intro e
    rw [e, hcfresh] at hx
    cases hx
  have hnew : dev'.nand dev.alloc_next = some ⟨⟨dev.obj_id, i, nb⟩, data⟩ := by
    rw [hnand, Function.update_same]
  have hwf' : dev'.Wf := by
    refine ⟨by rw [gd]; exact hwf.chunk_pos, by rw [gn, gw, gg]; exact hwf.slots_fit,
      by rw [hnext, gn]; omega, ?_, ?_, ?_, ?_⟩
    · intro x hx
      rw [hnext] at hx
      cases hb : dev'.chunk_bits x with
      | false => rfl
      | true =>
        rcases (F2 x).mp hb with e | ⟨hb0, _⟩
        · omega
        · rw [hwf.fresh x (by omega)] at hb0
          cases hb0
    · intro x hx
      rcases (F2 x).mp hx with e | ⟨hb0, hne⟩
      · subst e
        refine ⟨_, hnew, gobj.symm, by rw [gd]; exact hlen, ?_⟩
        simp only
        rw [htn, Function.update_same, gg]
      · obtain ⟨ch, hn, hobj, hl, hs⟩ := hwf.live x hb0
        refine ⟨ch, by rw [hold x hb0]; exact hn, by rw [gobj]; exact hobj,
          by rw [gd]; exact hl, ?_⟩
        have hk : ch.tags.chunk_id ≠ i := fun e => hne (F1 x ch hb0 hn e)
        rw [htn, Function.update_noteq hk, gg]
        exact hs
    · intro x x' ch ch' hx hx' hn hn' hid
      rcases (F2 x).mp hx with e | ⟨hb0, hne⟩
      · rcases (F2 x').mp hx' with e' | ⟨hb0', hne'⟩
        · rw [e, e']
        · exfalso
          rw [hold x' hb0'] at hn'
          rw [e, hnew] at hn
          cases hn
          exact hne' (F1 x' ch' hb0' hn' hid.symm)
      · rcases (F2 x').mp hx' with e' | ⟨hb0', hne'⟩
        · exfalso
          rw [hold x hb0] at hn
          rw [e', hnew] at hn'
          cases hn'
          exact hne (F1 x ch hb0 hn hid)
        · rw [hold x hb0] at hn
          rw [hold x' hb0'] at hn'
          exact hwf.uniq x x' ch ch' hb0 hb0' hn hn' hid
    · intro k s hk
      by_cases hki : k = i
      · subst hki
        exact ⟨dev.alloc_next, _, (F2 _).mpr (Or.inl rfl), hnew, rfl⟩
      · rw [htn, Function.update_noteq hki] at hk
        obtain ⟨c0, ch0, hb0, hn0, hi0⟩ := hwf.slot k s hk
        refine ⟨c0, ch0, (F2 c0).mpr (Or.inr ⟨hb0, ?_⟩), by rw [hold c0 hb0]; exact hn0, hi0⟩
        intro e
        obtain ⟨_, chp, hnp, hip⟩ := dev.find_chunk_in_file_some hwf i c0 e
        rw [hn0] at hnp
        cases hnp
        exact hki (hi0.symm.trans hip)
  refine ⟨hwf', ?_, ?_, ⟨gd, gg, gw, gn, by assumption, by assumption, gobj⟩, hrest⟩
  · have := dev'.rd_data_obj_live hwf' dev.alloc_next _ ((F2 _).mpr (Or.inl rfl)) hnew
    simpa using this
  · intro j hj
    cases ht : dev.tnode j with
    | none =>
      have ht' : dev'.tnode j = none := by rw [htn, Function.update_noteq hj]; exact ht
      rw [dev'.rd_data_obj_none j ht', dev.rd_data_obj_none j ht, gd]
    | some s =>
      obtain ⟨c0, ch0, hb0, hn0, hi0⟩ := hwf.slot j s ht
      have hb0' : dev'.chunk_bits c0 = true := by
        refine (F2 c0).mpr (Or.inr ⟨hb0, ?_⟩)
        intro e
        obtain ⟨_, chp, hnp, hip⟩ := dev.find_chunk_in_file_some hwf i c0 e
        rw [hn0] at hnp
        cases hnp
        exact hj (hi0.symm.trans hip)
      have hn0' : dev'.nand c0 = some ch0 := by rw [hold c0 hb0]; exact hn0
      rw [← hi0, dev'.rd_data_obj_live hwf' c0 ch0 hb0' hn0', dev.rd_data_obj_live hwf c0 ch0 hb0 hn0]

/-! ## File data path: cache layer -/

theorem find_cache_mem (l : List CacheEntry) (i : Nat) (e : CacheEntry)
    (h : l.find? (fun e => e.chunk_id == i) = some e) : e ∈ l ∧ e.chunk_id = i := by
  refine ⟨List.mem_of_find?_eq_some h, ?_⟩
  have := List.find?_some h
  simpa using this

theorem find_cache_none (l : List CacheEntry) (i : Nat)
    (h : l.find? (fun e => e.chunk_id == i) = none) : ∀ e ∈ l, e.chunk_id ≠ i := by
  intro e he
  rw [List.find?_eq_none] at h
  simpa using h e he

theorem find_cache_of_mem (l : List CacheEntry) (hnd : (l.map (fun e => e.chunk_id)).Nodup)
    (e : CacheEntry) (he : e ∈ l) : l.find? (fun x => x.chunk_id == e.chunk_id) = some e := by
  induction l with
  | nil => cases he
  | cons a rest ih =>
    rw [List.map_cons, List.nodup_cons] at hnd
    rcases List.mem_cons.mp he with h | h
    · subst h
      simp
    · have hne : a.chunk_id ≠ e.chunk_id := by
        intro heq
        apply hnd.1
        rw [heq]
        exact List.mem_map_of_mem _ h
      rw [List.find?_cons_of_neg _ (by simpa using hne)]
      exact ih hnd.2 h

theorem find_cache_map (l : List CacheEntry) (f : CacheEntry → CacheEntry)
    (hf : ∀ e, (f e).chunk_id = e.chunk_id) (j : Nat) :
    (l.map f).find? (fun e => e.chunk_id == j) = (l.find? (fun e => e.chunk_id == j)).map f := by
  induction l with
  | nil => rfl
  | cons a rest ih =>
    rw [List.map_cons]
    by_cases h : a.chunk_id = j
    · rw [List.find?_cons_of_pos _ (by simpa [hf] using h), List.find?_cons_of_pos _ (by simpa using h)]
      rfl
    · rw [List.find?_cons_of_neg _ (by simpa [hf] using h), List.find?_cons_of_neg _ (by simpa using h)]
      exact ih

theorem find_cache_filter_ne (l : List CacheEntry) (j k : Nat) (hjk : j ≠ k) :
    (l.filter (fun e => e.chunk_id != k)).find? (fun e => e.chunk_id == j)
      = l.find? (fun e => e.chunk_id == j) := by
  induction l with
  | nil => rfl
  | cons a rest ih =>
    by_cases hk : a.chunk_id = k
    · have hj : a.chunk_id ≠ j := by omega
      rw [List.filter_cons_of_neg (by simpa using hk), List.find?_cons_of_neg _ (by simpa using hj)]
      exact ih
    · rw [List.filter_cons_of_pos (by simpa using hk)]
      by_cases hj : a.chunk_id = j
      · rw [List.find?_cons_of_pos _ (by simpa using hj), List.find?_cons_of_pos _ (by simpa using hj)]
      · rw [List.find?_cons_of_neg _ (by simpa using hj), List.find?_cons_of_neg _ (by simpa using hj)]
        exact ih

theorem find_cache_filter_eq (l : List CacheEntry) (k : Nat) :
    (l.filter (fun e => e.chunk_id != k)).find? (fun e => e.chunk_id == k) = none := by
  rw [List.find?_eq_none]
  intro e he
  rw [List.mem_filter] at he
  simpa using he.2

theorem lru_victim_mem (l : List CacheEntry) (v : CacheEntry) (h : lru_victim l = some v) :
    v ∈ l := by
  induction l generalizing v with
  | nil => cases h
  | cons a rest ih =>
    rw [lru_victim] at h
    cases hv : lru_victim rest with
    | none =>
      rw [hv] at h
      cases h
      exact List.mem_cons_self _ _
    | some w =>
      rw [hv] at h
      simp only at h
      split at h
      · cases h
        exact List.mem_cons_of_mem _ (ih _ hv)
      · cases h
        exact List.mem_cons_self _ _

theorem FileDev.Wf.with_cache {dev : FileDev} (hwf : dev.Wf) (c : List CacheEntry) (t : Nat) :
    ({ dev with cache := c, cache_last_use := t } : FileDev).Wf :=
  ⟨hwf.chunk_pos, hwf.slots_fit, hwf.cursor, hwf.fresh, hwf.live, hwf.uniq, hwf.slot⟩

theorem FileDev.rd_data_obj_with_cache (dev : FileDev) (c : List CacheEntry) (t : Nat) (j : Nat) :
    ({ dev with cache := c, cache_last_use := t } : FileDev).rd_data_obj j = dev.rd_data_obj j :=
  rfl

theorem FileDev.rd_chunk_hit (dev : FileDev) (j : Nat) (e : CacheEntry)
    (h : dev.cache.find? (fun e => e.chunk_id == j) = some e) : dev.rd_chunk j = e.data := by
  unfold FileDev.rd_chunk FileDev.find_chunk_cache
  rw [h]

theorem FileDev.rd_chunk_miss (dev : FileDev) (j : Nat)
    (h : dev.cache.find? (fun e => e.chunk_id == j) = none) :
    dev.rd_chunk j = dev.rd_data_obj j := by
  unfold FileDev.rd_chunk FileDev.find_chunk_cache
  rw [h]

theorem FileDev.rd_chunk_length (dev : FileDev) (hinv : dev.Inv) (j : Nat) :
    (dev.rd_chunk j).length = dev.data_bytes_per_chunk := by
  cases h : dev.cache.find? (fun e => e.chunk_id == j) with
  | none => rw [dev.rd_chunk_miss j h]; exact dev.rd_data_obj_length hinv.wf j
  | some e => rw [dev.rd_chunk_hit j e h]; exact hinv.cache_len e (find_cache_mem _ _ _ h).1

theorem FileDev.SameGeometry.refl (dev : FileDev) : dev.SameGeometry dev :=
  ⟨rfl, rfl, rfl, rfl, rfl, rfl, rfl⟩

theorem FileDev.SameGeometry.trans {a b c : FileDev} (h1 : a.SameGeometry b)
    (h2 : b.SameGeometry c) : a.SameGeometry c := by
  obtain ⟨a1, a2, a3, a4, a5, a6, a7⟩ := h1
  obtain ⟨b1, b2, b3, b4, b5, b6, b7⟩ := h2
  exact ⟨b1.trans a1, b2.trans a2, b3.trans a3, b4.trans a4, b5.trans a5, b6.trans a6,
    b7.trans a7⟩

theorem FileDev.wr_chunk_hit (dev : FileDev) (hinv : dev.Inv) (i : Nat) (data : List Nat)
    (nb t : Nat) (hlen : data.length = dev.data_bytes_per_chunk) (e0 : CacheEntry)
    (hfind : dev.cache.find? (fun e => e.chunk_id == i) = some e0) :
    dev.WrPost { dev with
      cache := dev.cache.map (fun e =>
        if e.chunk_id == i then
          { e with data := data, n_bytes := nb, dirty := true, last_use := t }
        else e),
      cache_last_use := t } i data := by
  have hf : ∀ e : CacheEntry, (if e.chunk_id == i then
      ({ e with data := data, n_bytes := nb, dirty := true, last_use := t } : CacheEntry)
      else e).chunk_id = e.chunk_id := by
    intro e
    split <;> rfl
  refine ⟨⟨hinv.wf.with_cache _ _, ?_, ?_, ?_⟩, ?_, ?_, FileDev.SameGeometry.refl _, rfl⟩
  · simp only [List.map_map]
    have : ((fun e : CacheEntry => e.chunk_id) ∘ fun e : CacheEntry =>
        if e.chunk_id == i then
          ({ e with data := data, n_bytes := nb, dirty := true, last_use := t } : CacheEntry)
        else e) = fun e => e.chunk_id := funext hf
    rw [this]
    exact hinv.cache_nodup
  · intro e' he'
    simp only [List.mem_map] at he'
    obtain ⟨e, he, rfl⟩ := he'
    split
    · exact hlen
    · exact hinv.cache_len e he
  · intro e' he' hd
    simp only [List.mem_map] at he'
    obtain ⟨e, he, rfl⟩ := he'
    split at hd
    · cases hd
    · rename_i hne
      simp only [hne]
      exact hinv.cache_clean e he hd
  · apply FileDev.rd_chunk_hit _ i
      ({ e0 with data := data, n_bytes := nb, dirty := true, last_use := t } : CacheEntry)
    simp only
    rw [find_cache_map _ _ hf, hfind]
    have := (find_cache_mem _ _ _ hfind).2
    simp [this]
  · intro j hj
    cases hj' : dev.cache.find? (fun e => e.chunk_id == j) with
    | none =>
      rw [dev.rd_chunk_miss j hj']
      apply FileDev.rd_chunk_miss
      simp only
      rw [find_cache_map _ _ hf, hj']
      rfl
    | some e =>
      rw [dev.rd_chunk_hit j e hj']
      apply FileDev.rd_chunk_hit
      simp only
      rw [find_cache_map _ _ hf, hj']
      have := (find_cache_mem _ _ _ hj').2
      have hne : ¬ (e.chunk_id = i) := by omega
      simp [hne]

theorem FileDev.wr_chunk_direct (dev dev' : FileDev) (hinv : dev.Inv) (i : Nat) (data : List Nat)
    (nb : Nat) (hlen : data.length = dev.data_bytes_per_chunk)
    (hfind : dev.cache.find? (fun e => e.chunk_id == i) = none)
    (h : dev.wr_data_obj i data nb = some dev') : dev.WrPost dev' i data := by
  obtain ⟨hwf', hsame, hother, hgeo, hfs, hcache, _⟩ :=
    dev.wr_data_obj_spec dev' hinv.wf i data nb hlen h
  have hmiss := find_cache_none _ _ hfind
  refine ⟨⟨hwf', by rw [hcache]; exact hinv.cache_nodup, ?_, ?_⟩, ?_, ?_, hgeo, hfs⟩
  · intro e he
    rw [hcache] at he
    rw [hgeo.1]
    exact hinv.cache_len e he
  · intro e he hd
    rw [hcache] at he
    rw [hother _ (hmiss e he)]
    exact hinv.cache_clean e he hd
  · rw [dev'.rd_chunk_miss i (by rw [hcache]; exact hfind)]
    exact hsame
  · intro j hj
    cases hj' : dev.cache.find? (fun e => e.chunk_id == j) with
    | none =>
      rw [dev.rd_chunk_miss j hj', dev'.rd_chunk_miss j (by rw [hcache]; exact hj')]
      exact hother j hj
    | some e =>
      rw [dev.rd_chunk_hit j e hj', dev'.rd_chunk_hit j e (by rw [hcache]; exact hj')]

theorem FileDev.wr_chunk_add (dev : FileDev) (hinv : dev.Inv) (i : Nat) (data : List Nat)
    (nb t : Nat) (hlen : data.length = dev.data_bytes_per_chunk)
    (hfind : dev.cache.find? (fun e => e.chunk_id == i) = none) :
    dev.WrPost { dev with cache := ⟨i, t, true, nb, data⟩ :: dev.cache, cache_last_use := t }
      i data := by
  have hmiss := find_cache_none _ _ hfind
  refine ⟨⟨hinv.wf.with_cache _ _, ?_, ?_, ?_⟩, ?_, ?_, FileDev.SameGeometry.refl _, rfl⟩
  · simp only [List.map_cons, List.nodup_cons]
    refine ⟨?_, hinv.cache_nodup⟩
    intro hmem
    rw [List.mem_map] at hmem
    obtain ⟨e, he, hid⟩ := hmem
    exact hmiss e he hid
  · intro e he
    rcases List.mem_cons.mp he with h | h
    · rw [h]
      exact hlen
    · exact hinv.cache_len e h
  · intro e he hd
    rcases List.mem_cons.mp he with h | h
    · rw [h] at hd
      cases hd
    · exact hinv.cache_clean e h hd
  · apply FileDev.rd_chunk_hit _ i ⟨i, t, true, nb, data⟩
    simp
  · intro j hj
    have hskip : ((⟨i, t, true, nb, data⟩ :: dev.cache : List CacheEntry).find?
        (fun e => e.chunk_id == j)) = dev.cache.find? (fun e => e.chunk_id == j) := by
      rw [List.find?_cons_of_neg]
      simpa using Ne.symm hj
    cases hj' : dev.cache.find? (fun e => e.chunk_id == j) with
    | none =>
      rw [dev.rd_chunk_miss j hj', FileDev.rd_chunk_miss _ j (by rw [hskip]; exact hj')]
      rfl
    | some e =>
      rw [dev.rd_chunk_hit j e hj', FileDev.rd_chunk_hit _ j e (by rw [hskip]; exact hj')]

theorem FileDev.wr_chunk_evict (dev dev1 : FileDev) (hinv : dev.Inv) (i : Nat) (data : List Nat)
    (nb t : Nat) (hlen : data.length = dev.data_bytes_per_chunk)
    (hfind : dev.cache.find? (fun e => e.chunk_id == i) = none)
    (v : CacheEntry) (hv : v ∈ dev.cache)
    (h : (if v.dirty then dev.wr_data_obj v.chunk_id v.data v.n_bytes else some dev)
      = some dev1) :
    dev.WrPost { dev1 with
      cache := ⟨i, t, true, nb, data⟩ :: dev1.cache.filter (fun e => e.chunk_id != v.chunk_id),
      cache_last_use := t } i data := by
  have hmiss := find_cache_none _ _ hfind
  have hvi : v.chunk_id ≠ i := hmiss v hv
  -- the state after the victim has been flushed
  have hflush : dev1.Wf ∧ dev1.rd_data_obj v.chunk_id = v.data ∧
      (∀ j, j ≠ v.chunk_id → dev1.rd_data_obj j = dev.rd_data_obj j) ∧
      dev.SameGeometry dev1 ∧ dev1.file_size = dev.file_size ∧ dev1.cache = dev.cache := by
    cases hd : v.dirty with
    | true =>
      rw [hd] at h
      simp only [if_true] at h
      obtain ⟨a, b, c, d, e, f, _⟩ :=
        dev.wr_data_obj_spec dev1 hinv.wf v.chunk_id v.data v.n_bytes (hinv.cache_len v hv) h
      exact ⟨a, b, c, d, e, f⟩
    | false =>
      rw [hd] at h
      simp only [Bool.false_eq_true, if_false, Option.some.injEq] at h
      subst h
      exact ⟨hinv.wf, (hinv.cache_clean v hv hd).symm, fun _ _ => rfl,
        FileDev.SameGeometry.refl _, rfl, rfl⟩
  obtain ⟨hwf1, hv1, hother1, hgeo1, hfs1, hcache1⟩ := hflush
  have hsub : ∀ e, e ∈ dev1.cache.filter (fun e => e.chunk_id != v.chunk_id) →
      e ∈ dev.cache ∧ e.chunk_id ≠ v.chunk_id := by
    intro e he
    rw [List.mem_filter, hcache1] at he
    exact ⟨he.1, by simpa using he.2⟩
  refine ⟨⟨hwf1.with_cache _ _, ?_, ?_, ?_⟩, ?_, ?_, hgeo1, hfs1⟩
  · simp only [List.map_cons, List.nodup_cons]
    constructor
    · intro hmem
      rw [List.mem_map] at hmem
      obtain ⟨e, he, hid⟩ := hmem
      exact hmiss e (hsub e he).1 hid
    · rw [hcache1]
      exact hinv.cache_nodup.sublist ((List.filter_sublist _).map _)
  · intro e he
    rcases List.mem_cons.mp he with h | h
    · rw [h]
      simp only
      rw [hgeo1.1]
      exact hlen
    · simp only
      rw [hgeo1.1]
      exact hinv.cache_len e (hsub e h).1
  · intro e he hd
    rcases List.mem_cons.mp he with h | h
    · rw [h] at hd
      cases hd
    · rw [FileDev.rd_data_obj_with_cache, hother1 _ (hsub e h).2]
      exact hinv.cache_clean e (hsub e h).1 hd
  · apply FileDev.rd_chunk_hit _ i ⟨i, t, true, nb, data⟩
    simp
  · intro j hj
    have hskip : ((⟨i, t, true, nb, data⟩ ::
        dev1.cache.filter (fun e => e.chunk_id != v.chunk_id) : List CacheEntry).find?
        (fun e => e.chunk_id == j))
        = (dev1.cache.filter (fun e => e.chunk_id != v.chunk_id)).find?
            (fun e => e.chunk_id == j) := by
      rw [List.find?_cons_of_neg]
      simpa using Ne.symm hj
    by_cases hjv : j = v.chunk_id
    · subst hjv
      rw [FileDev.rd_chunk_miss _ _ (by rw [hskip]; exact find_cache_filter_eq _ _),
        FileDev.rd_data_obj_with_cache, hv1,
        dev.rd_chunk_hit _ v (find_cache_of_mem _ hinv.cache_nodup v hv)]
    · have hsame : (dev1.cache.filter (fun e => e.chunk_id != v.chunk_id)).find?
          (fun e => e.chunk_id == j) = dev.cache.find? (fun e => e.chunk_id == j) := by
        rw [find_cache_filter_ne _ _ _ hjv, hcache1]
      cases hj' : dev.cache.find? (fun e => e.chunk_id == j) with
      | none =>
        rw [dev.rd_chunk_miss j hj',
          FileDev.rd_chunk_miss _ j (by rw [hskip, hsame]; exact hj'),
          FileDev.rd_data_obj_with_cache, hother1 j hjv]
      | some e =>
        rw [dev.rd_chunk_hit j e hj',
          FileDev.rd_chunk_hit _ j e (by rw [hskip, hsame]; exact hj')]

/-- A successful write of chunk `i` through the cache keeps the device
consistent, makes chunk `i` read as the data written and leaves every other
chunk as it read before. -/
theorem FileDev.wr_chunk_spec (dev dev' : FileDev) (hinv : dev.Inv) (i : Nat) (data : List Nat)
    (nb : Nat) (af : Bool) (hlen : data.length = dev.data_bytes_per_chunk)
    (h : dev.wr_chunk i data nb af = some dev') : dev.WrPost dev' i data := by
  unfold FileDev.wr_chunk FileDev.find_chunk_cache at h
  simp only at h
  cases hfind : dev.cache.find? (fun e => e.chunk_id == i) with
  | some e0 =>
    rw [hfind] at h
    simp only [Option.some.injEq] at h
    rw [← h]
    exact dev.wr_chunk_hit hinv i data nb _ hlen e0 hfind
  | none =>
    rw [hfind] at h
    simp only at h
    split at h
    · exact dev.wr_chunk_direct dev' hinv i data nb hlen hfind h
    · split at h
      · simp only [Option.some.injEq] at h
        rw [← h]
        exact dev.wr_chunk_add hinv i data nb _ hlen hfind
      · cases hv : lru_victim dev.cache with
        | none => rw [hv] at h; cases h
        | some v =>
          rw [hv] at h
          simp only at h
          cases h1 : (if v.dirty then dev.wr_data_obj v.chunk_id v.data v.n_bytes
              else some dev) with
          | none => rw [h1] at h; cases h
          | some dev1 =>
            rw [h1] at h
            simp only [Option.some.injEq] at h
            rw [← h]
            exact dev.wr_chunk_evict dev1 hinv i data nb _ hlen hfind v
              (lru_victim_mem _ _ hv) h1

/-! ## File data path: file layer -/

theorem chunk_split (d off p n : Nat) (hd : 0 < d) (hn : off % d + n ≤ d) :
    (p / d = off / d ∧ off % d ≤ p % d ∧ p % d < off % d + n) ↔ (off ≤ p ∧ p < off + n) := by
  have hp := Nat.div_add_mod p d
  have ho := Nat.div_add_mod off d
  have hpm := Nat.mod_lt p hd
  have hom := Nat.mod_lt off hd
  generalize hr : off % d = r at *
  generalize hq : off / d = q at *
  constructor
  · rintro ⟨h1, h2, h3⟩
    rw [h1] at hp
    generalize p % d = s at *
    generalize d * q = m at *
    constructor <;> omega
  · rintro ⟨h1, h2⟩
    have hq2 : p / d = q := by
      apply Nat.div_eq_of_lt_le
      · rw [Nat.mul_comm]
        generalize d * q = m at *
        omega
      · rw [Nat.add_mul, Nat.one_mul, Nat.mul_comm]
        generalize d * q = m at *
        omega
    rw [hq2] at hp
    generalize p % d = s at *
    generalize d * q = m at *
    refine ⟨hq2, ?_, ?_⟩ <;> omega

theorem chunk_split_mod (d off p n : Nat) (hd : 0 < d) (hn : off % d + n ≤ d)
    (h1 : off ≤ p) (h2 : p < off + n) : p % d - off % d = p - off := by
  have hq := ((chunk_split d off p n hd hn).mpr ⟨h1, h2⟩).1
  have hp := Nat.div_add_mod p d
  have ho := Nat.div_add_mod off d
  rw [hq] at hp
  generalize p % d = s at *
  generalize off % d = r at *
  generalize d * (off / d) = m at *
  omega

theorem overlay_length (old : List Nat) (start : Nat) (piece : List Nat)
    (h : start + piece.length ≤ old.length) : (overlay old start piece).length = old.length := by
  unfold overlay
  simp only [List.length_append, List.length_take, List.length_drop]
  omega

theorem overlay_getElem? (old : List Nat) (start : Nat) (piece : List Nat)
    (h : start + piece.length ≤ old.length) (k : Nat) :
    (overlay old start piece)[k]? =
      if start ≤ k ∧ k < start + piece.length then piece[k - start]? else old[k]? := by
  unfold overlay
  have hlt : (old.take start).length = start := by
    rw [List.length_take]
    omega
  by_cases h1 : k < start
  · rw [List.append_assoc, List.getElem?_append_left (by omega), List.getElem?_take,
      if_pos h1, if_neg (by omega)]
  · by_cases h2 : k < start + piece.length
    · rw [List.getElem?_append_left (by rw [List.length_append]; omega),
        List.getElem?_append_right (by omega), hlt, if_pos ⟨by omega, h2⟩]
    · rw [List.getElem?_append_right (by rw [List.length_append]; omega),
        List.length_append, hlt, List.getElem?_drop, if_neg (by omega)]
      congr 1
      omega

theorem FileDev.Inv.with_file_size {dev : FileDev} (hinv : dev.Inv) (s : Nat) :
    ({ dev with file_size := s } : FileDev).Inv :=
  ⟨⟨hinv.wf.chunk_pos, hinv.wf.slots_fit, hinv.wf.cursor, hinv.wf.fresh, hinv.wf.live,
      hinv.wf.uniq, hinv.wf.slot⟩, hinv.cache_nodup, hinv.cache_len, hinv.cache_clean⟩

theorem FileDev.byteAt_with_file_size (dev : FileDev) (s p : Nat) :
    ({ dev with file_size := s } : FileDev).byteAt p = dev.byteAt p := rfl

theorem FileDev.wr_loop_step (fuel : Nat) (dev : FileDev) (offset : Nat) (buffer : List Nat)
    (hne : ¬ buffer.length = 0) (n_copy : Nat)
    (hn : n_copy = min buffer.length
      (dev.data_bytes_per_chunk - offset % dev.data_bytes_per_chunk)) :
    dev.wr_loop (fuel + 1) offset buffer =
      match dev.wr_chunk (offset / dev.data_bytes_per_chunk + 1)
          (overlay (dev.rd_chunk (offset / dev.data_bytes_per_chunk + 1))
            (offset % dev.data_bytes_per_chunk) (buffer.take n_copy))
          (min dev.data_bytes_per_chunk (max dev.file_size (offset + n_copy) -
            (offset / dev.data_bytes_per_chunk + 1 - 1) * dev.data_bytes_per_chunk))
          (decide (offset % dev.data_bytes_per_chunk = 0 ∧ n_copy = dev.data_bytes_per_chunk)) with
      | none => (0, dev)
      | some dev1 =>
        (n_copy + (FileDev.wr_loop fuel { dev1 with file_size := max dev.file_size (offset + n_copy) }
            (offset + n_copy) (buffer.drop n_copy)).1,
          (FileDev.wr_loop fuel { dev1 with file_size := max dev.file_size (offset + n_copy) }
            (offset + n_copy) (buffer.drop n_copy)).2) := by
  subst hn
  rw [FileDev.wr_loop, if_neg hne]

/-- Effect of the write loop on the bytes held by the device. -/
theorem FileDev.wr_loop_spec (fuel : Nat) :
    ∀ (dev : FileDev) (offset : Nat) (buffer : List Nat) (r : Nat × FileDev), dev.Inv →
      buffer.length ≤ fuel → dev.wr_loop fuel offset buffer = r →
      r.2.Inv ∧ dev.SameGeometry r.2 ∧ r.1 ≤ buffer.length ∧
      dev.file_size ≤ r.2.file_size ∧ (0 < r.1 → offset + r.1 ≤ r.2.file_size) ∧
      ∀ p, r.2.byteAt p =
        if offset ≤ p ∧ p < offset + r.1 then buffer[p - offset]?.getD 0 else dev.byteAt p := by
  induction fuel with
  | zero =>
    intro dev offset buffer r hinv _ hr
    simp only [FileDev.wr_loop] at hr
    subst hr
    refine ⟨hinv, FileDev.SameGeometry.refl _, Nat.zero_le _, le_refl _, by simp, ?_⟩
    intro p
    rw [if_neg (by simp only; omega)]
  | succ fuel ih =>
    intro dev offset buffer r hinv hfuel hr
    by_cases hne : buffer.length = 0
    · rw [FileDev.wr_loop, if_pos hne] at hr
      subst hr
      refine ⟨hinv, FileDev.SameGeometry.refl _, Nat.zero_le _, le_refl _, by simp, ?_⟩
      intro p
      rw [if_neg (by simp only; omega)]
    · have hd := hinv.wf.chunk_pos
      have hstart := Nat.mod_lt offset hd
      obtain ⟨n_copy, hnc⟩ : ∃ n, n = min buffer.length
          (dev.data_bytes_per_chunk - offset % dev.data_bytes_per_chunk) := ⟨_, rfl⟩
      rw [dev.wr_loop_step fuel offset buffer hne n_copy hnc] at hr
      have hnc1 : 0 < n_copy := by omega
      have hnc2 : n_copy ≤ buffer.length := by omega
      have hnc3 : offset % dev.data_bytes_per_chunk + n_copy ≤ dev.data_bytes_per_chunk := by
        omega
      have hold := dev.rd_chunk_length hinv (offset / dev.data_bytes_per_chunk + 1)
      have htake : (buffer.take n_copy).length = n_copy := by
        rw [List.length_take]
        omega
      have hdl : (overlay (dev.rd_chunk (offset / dev.data_bytes_per_chunk + 1))
          (offset % dev.data_bytes_per_chunk) (buffer.take n_copy)).length
          = dev.data_bytes_per_chunk := by
        rw [overlay_length _ _ _ (by rw [htake, hold]; exact hnc3), hold]
      split at hr
      · subst hr
        refine ⟨hinv, FileDev.SameGeometry.refl _, Nat.zero_le _, le_refl _, by simp, ?_⟩
        intro p
        rw [if_neg (by simp only; omega)]
      · rename_i dev1 hw
        obtain ⟨hinv1, hsame, hother, hgeo, _⟩ := dev.wr_chunk_spec dev1 hinv _ _ _ _ hdl hw
        have hinv2 := hinv1.with_file_size (max dev.file_size (offset + n_copy))
        have hdrop : (buffer.drop n_copy).length ≤ fuel := by
          rw [List.length_drop]
          omega
        obtain ⟨r1, r2, r3, r4, r5, r6⟩ :=
          ih _ (offset + n_copy) (buffer.drop n_copy) _ hinv2 hdrop rfl
        generalize FileDev.wr_loop fuel _ (offset + n_copy) (buffer.drop n_copy) = r' at *
        subst hr
        rw [List.length_drop] at r3
        simp only at r4 r5 r6 ⊢
        refine ⟨r1, FileDev.SameGeometry.trans hgeo r2, by omega, by omega, by omega, ?_⟩
        intro p
        rw [r6 p, FileDev.byteAt_with_file_size]
        by_cases hin2 : offset + n_copy ≤ p ∧ p < offset + n_copy + r'.1
        · rw [if_pos hin2, if_pos (by omega), List.getElem?_drop]
          congr 2
          omega
        · rw [if_neg hin2]
          have hd1 : dev1.data_bytes_per_chunk = dev.data_bytes_per_chunk := hgeo.1
          by_cases hin1 : offset ≤ p ∧ p < offset + n_copy
          · rw [if_pos (by omega)]
            obtain ⟨hq, hm1, hm2⟩ :=
              (chunk_split dev.data_bytes_per_chunk offset p n_copy hd hnc3).mpr hin1
            have hmod := chunk_split_mod dev.data_bytes_per_chunk offset p n_copy hd hnc3
              hin1.1 hin1.2
            unfold FileDev.byteAt
            rw [hd1, hq, hsame, overlay_getElem? _ _ _ (by rw [htake, hold]; exact hnc3),
              htake, if_pos ⟨hm1, hm2⟩, List.getElem?_take, hmod, if_pos (by omega)]
          · rw [if_neg (by omega)]
            unfold FileDev.byteAt
            rw [hd1]
            by_cases hq : p / dev.data_bytes_per_chunk = offset / dev.data_bytes_per_chunk
            · have hnot : ¬ (offset % dev.data_bytes_per_chunk ≤ p % dev.data_bytes_per_chunk ∧
                  p % dev.data_bytes_per_chunk < offset % dev.data_bytes_per_chunk + n_copy) := by
                intro hc
                exact hin1 ((chunk_split dev.data_bytes_per_chunk offset p n_copy hd hnc3).mp
                  ⟨hq, hc.1, hc.2⟩)
              rw [hq, hsame, overlay_getElem? _ _ _ (by rw [htake, hold]; exact hnc3),
                htake, if_neg hnot]
            · rw [hother _ (by omega)]

theorem FileDev.rd_loop_step (fuel : Nat) (dev : FileDev) (offset n_bytes : Nat)
    (hne : ¬ n_bytes = 0) (n_copy : Nat)
    (hn : n_copy = min n_bytes (dev.data_bytes_per_chunk - offset % dev.data_bytes_per_chunk)) :
    dev.rd_loop (fuel + 1) offset n_bytes =
      ((dev.rd_chunk (offset / dev.data_bytes_per_chunk + 1)).drop
          (offset % dev.data_bytes_per_chunk)).take n_copy ++
        dev.rd_loop fuel (offset + n_copy) (n_bytes - n_copy) := by
  subst hn
  rw [FileDev.rd_loop, if_neg hne]

/-- The read loop returns the bytes that the device holds for the range. -/
theorem FileDev.rd_loop_spec (fuel : Nat) :
    ∀ (dev : FileDev) (offset n_bytes : Nat), dev.Inv → n_bytes ≤ fuel →
      dev.rd_loop fuel offset n_bytes
        = (List.range n_bytes).map (fun k => dev.byteAt (offset + k)) := by
  induction fuel with
  | zero =>
    intro dev offset n_bytes _ hn
    have : n_bytes = 0 := by omega
    subst this
    rfl
  | succ fuel ih =>
    intro dev offset n_bytes hinv hfuel
    by_cases hne : n_bytes = 0
    · subst hne
      rw [FileDev.rd_loop, if_pos rfl]
      rfl
    · have hd := hinv.wf.chunk_pos
      have hstart := Nat.mod_lt offset hd
      obtain ⟨n_copy, hnc⟩ : ∃ n, n = min n_bytes
          (dev.data_bytes_per_chunk - offset % dev.data_bytes_per_chunk) := ⟨_, rfl⟩
      rw [dev.rd_loop_step fuel offset n_bytes hne n_copy hnc,
        ih dev (offset + n_copy) (n_bytes - n_copy) hinv (by omega)]
      have hnc3 : offset % dev.data_bytes_per_chunk + n_copy ≤ dev.data_bytes_per_chunk := by
        omega
      have hold := dev.rd_chunk_length hinv (offset / dev.data_bytes_per_chunk + 1)
      have hsplit : n_bytes = n_copy + (n_bytes - n_copy) := by omega
      conv_rhs => rw [hsplit, List.range_add, List.map_append, List.map_map]
      congr 1
      · apply List.ext_getElem?
        intro k
        rw [List.getElem?_take, List.getElem?_drop, List.getElem?_map]
        by_cases hk : k < n_copy
        · rw [if_pos hk, List.getElem?_range hk]
          obtain ⟨hq, _, _⟩ := (chunk_split dev.data_bytes_per_chunk offset (offset + k) n_copy
            hd hnc3).mpr ⟨by omega, by omega⟩
          have hmod := chunk_split_mod dev.data_bytes_per_chunk offset (offset + k) n_copy
            hd hnc3 (by omega) (by omega)
          have hm : (offset + k) % dev.data_bytes_per_chunk
              = offset % dev.data_bytes_per_chunk + k := by
            have := ((chunk_split dev.data_bytes_per_chunk offset (offset + k) n_copy
              hd hnc3).mpr ⟨by omega, by omega⟩).2.1
            omega
          simp only [Option.map_some', FileDev.byteAt]
          rw [hq, hm]
          have hlt : offset % dev.data_bytes_per_chunk + k <
              (dev.rd_chunk (offset / dev.data_bytes_per_chunk + 1)).length := by
            rw [hold]
            omega
          rw [List.getElem?_eq_getElem hlt]
          rfl
        · rw [if_neg hk, List.getElem?_eq_none (by rw [List.length_range]; omega)]
          rfl
      · apply List.map_congr_left
        intro k _
        simp only [Function.comp_apply]
        rw [Nat.add_assoc]

theorem FileDev.format_inv (d g w n c : Nat) (b : Bool) (o : Nat) (hd : 0 < d)
    (hfit : n ≤ 2 ^ (w + g)) : (FileDev.format d g w n c b o).Inv := by
  refine ⟨⟨hd, hfit, Nat.zero_le _, fun _ _ => rfl, ?_, ?_, ?_⟩, ?_, ?_, ?_⟩
  · intro c hc
    cases hc
  · intro c c' ch ch' hc
    cases hc
  · intro i s hs
    have : (FileDev.format d g w n c b o).tnode i = none := TnodeTree.find_empty i
    rw [this] at hs
    cases hs
  · exact List.nodup_nil
  · intro e he
    cases he
  · intro e he
    cases he

theorem FileDev.format_byteAt (d g w n c : Nat) (b : Bool) (o p : Nat) :
    (FileDev.format d g w n c b o).byteAt p = 0 := by
  unfold FileDev.byteAt
  have h1 : (FileDev.format d g w n c b o).rd_chunk (p / d + 1)
      = (FileDev.format d g w n c b o).rd_data_obj (p / d + 1) :=
    FileDev.rd_chunk_miss (FileDev.format d g w n c b o) (p / d + 1) rfl
  have h2 : (FileDev.format d g w n c b o).rd_data_obj (p / d + 1) = List.replicate d 0 :=
    FileDev.rd_data_obj_none (FileDev.format d g w n c b o) (p / d + 1)
      (TnodeTree.find_empty _)
  show ((FileDev.format d g w n c b o).rd_chunk (p / d + 1))[p % d]?.getD 0 = 0
  rw [h1, h2, List.getElem?_replicate]
  split <;> rfl

/-- After a sequence of writes the device holds, at every position, the byte
most recently written there. -/
theorem FileDev.run_writes_spec (calls : List WriteCall) :
    ∀ (dev : FileDev) (acc : Option Nat) (p : Nat), dev.Inv → dev.byteAt p = acc.getD 0 →
      (dev.run_writes calls).1.Inv ∧
      (dev.run_writes calls).1.byteAt p
        = (last_written_from acc (dev.run_writes calls).2 p).getD 0 := by
  induction calls with
  | nil =>
    intro dev acc p hinv h
    exact ⟨hinv, h⟩
  | cons w ws ih =>
    intro dev acc p hinv h
    obtain ⟨r1, _, r3, _, _, r6⟩ :=
      dev.wr_loop_spec w.buffer.length w.offset w.buffer _ hinv (le_refl _) rfl
    simp only [FileDev.run_writes, last_written_from, List.foldl_cons]
    apply ih
    · exact r1
    · unfold FileDev.yaffs_wr_file
      rw [r6 p, List.length_take, Nat.min_eq_left r3]
      split
      · rename_i hin
        rw [List.getElem?_take, if_pos (by omega)]
      · exact h

/-- C7: on a formatted device (wide tnodes, `chunk_grp_bits = 0`, or narrow ones,
`chunk_grp_bits > 0`; with or without the short-op cache), after any sequence of
`yaffs_wr_file` calls a `yaffs_file_rd` within the file's length returns, at
every position, the byte most recently written there (and zero where nothing was
written). -/
theorem write_read_roundtrip (data_bytes_per_chunk chunk_grp_bits tnode_width n_chunks
    n_caches : Nat) (cache_bypass_aligned : Bool) (obj_id : Nat)
    (hchunk : 0 < data_bytes_per_chunk)
    (hwidth : n_chunks ≤ 2 ^ (tnode_width + chunk_grp_bits))
    (calls : List WriteCall) (offset len : Nat)
    (_hlen : offset + len ≤ ((FileDev.format data_bytes_per_chunk chunk_grp_bits tnode_width
      n_chunks n_caches cache_bypass_aligned obj_id).run_writes calls).1.file_size) :
    ((FileDev.format data_bytes_per_chunk chunk_grp_bits tnode_width n_chunks n_caches
        cache_bypass_aligned obj_id).run_writes calls).1.yaffs_file_rd offset len
      = (List.range len).map (fun k =>
          (last_written ((FileDev.format data_bytes_per_chunk chunk_grp_bits tnode_width
            n_chunks n_caches cache_bypass_aligned obj_id).run_writes calls).2
            (offset + k)).getD 0) := by
  have hinv := FileDev.format_inv data_bytes_per_chunk chunk_grp_bits tnode_width n_chunks
    n_caches cache_bypass_aligned obj_id hchunk hwidth
  unfold FileDev.yaffs_file_rd
  rw [FileDev.rd_loop_spec len _ offset len
    (FileDev.run_writes_spec calls _ none 0 hinv (FileDev.format_byteAt _ _ _ _ _ _ _ _)).1
    (le_refl _)]
  apply List.map_congr_left
  intro k _
  exact (FileDev.run_writes_spec calls _ none (offset + k) hinv
    (FileDev.format_byteAt _ _ _ _ _ _ _ _)).2

/-- Instance of C7 with narrow tnodes (groups of two chunks), a two-entry cache
and 4-byte chunks: two overlapping writes, then a read of bytes 2..7. -/
theorem write_read_roundtrip_witness :
    ((FileDev.format 4 1 8 100 2 true 7).run_writes
        [⟨[1, 2, 3, 4, 5, 6], 2⟩, ⟨[9, 9], 3⟩]).1.yaffs_file_rd 2 6 = [1, 9, 9, 4, 5, 6] :=
  (write_read_roundtrip 4 1 8 100 2 true 7 (by decide) (by decide)
    [⟨[1, 2, 3, 4, 5, 6], 2⟩, ⟨[9, 9], 3⟩] 2 6 (by decide)).trans (by decide)

/-! ## Block states -/

/-- C14: `enum yaffs_block_state` has exactly the ten pairwise-distinct states
Unknown, Scanning, NeedsScan, Empty, Allocating, Full, Dirty, Checkpoint,
Collecting, Dead, numbered 0..9 in that order; `YAFFS_NUMBER_OF_BLOCK_STATES` is
10, the length of the `bs[10]` array of `yaffs_count_blocks_by_state`; and every
state value fits the 4-bit `block_state` field. -/
theorem block_state_enum_values :
    enumValues 0 yaffs_block_state_decl =
      [ (.YAFFS_BLOCK_STATE_UNKNOWN, 0), (.YAFFS_BLOCK_STATE_SCANNING, 1),
        (.YAFFS_BLOCK_STATE_NEEDS_SCAN, 2), (.YAFFS_BLOCK_STATE_EMPTY, 3),
        (.YAFFS_BLOCK_STATE_ALLOCATING, 4), (.YAFFS_BLOCK_STATE_FULL, 5),
        (.YAFFS_BLOCK_STATE_DIRTY, 6), (.YAFFS_BLOCK_STATE_CHECKPOINT, 7),
        (.YAFFS_BLOCK_STATE_COLLECTING, 8), (.YAFFS_BLOCK_STATE_DEAD, 9) ] ∧
    yaffs_block_state_decl.length = 10 ∧
    (∀ s : yaffs_block_state, s ∈ yaffs_block_state_decl.map (fun e => e.1)) ∧
    (∀ s t : yaffs_block_state, s.val = t.val → s = t) ∧
    YAFFS_NUMBER_OF_BLOCK_STATES = 10 ∧
    YAFFS_NUMBER_OF_BLOCK_STATES = yaffs_count_blocks_by_state_bs_len ∧
    bitfieldWidth yaffs_block_info_bitfields "block_state" = 4 ∧
    (∀ s : yaffs_block_state,
      s.val < 2 ^ bitfieldWidth yaffs_block_info_bitfields "block_state" ∧ s.val < 16) := by
  refine ⟨by decide, by decide, ?_, ?_, by decide, by decide, by decide, ?_⟩
  · intro s
    cases s <;> decide
  · intro s t
    cases s <;> cases t <;> decide
  · intro s
    cases s <;> decide

/-! ## YAFFS1 tags and spare -/

/-- C15: the bit-field widths of `struct yaffs_tags` (`chunk_id:20,
serial_number:2, n_bytes_lsb:10, obj_id:18, ecc:12, n_bytes_msb:2`) sum to
exactly 64 bits; the first three fill the first `u32` exactly and the last three
the second, so that no field lies across a `u32` boundary; the record takes two
`u32` units, 8 bytes, as `as_bytes[8]` and `as_u32[2]` of `yaffs_tags_union`. -/
theorem yaffs_tags_pack_in_8_bytes :
    yaffs_tags_bitfields.map (fun f => (f.name, f.width)) =
      [("chunk_id", 20), ("serial_number", 2), ("n_bytes_lsb", 10),
       ("obj_id", 18), ("ecc", 12), ("n_bytes_msb", 2)] ∧
    bitfieldWidth yaffs_tags_bitfields "ecc" = 12 ∧
    bitfieldBits yaffs_tags_bitfields = 64 ∧
    bitfieldBits (yaffs_tags_bitfields.take 3) = 32 ∧
    bitfieldBits (yaffs_tags_bitfields.drop 3) = 32 ∧
    bitfieldStarts 0 yaffs_tags_bitfields = [0, 20, 22, 32, 50, 62] ∧
    (∀ p ∈ (bitfieldStarts 0 yaffs_tags_bitfields).zip yaffs_tags_bitfields,
      straddlesU32 p.1 p.2.width = false) ∧
    bitfieldUnits yaffs_tags_bitfields = 2 ∧
    sizeof_yaffs_tags = 8 ∧
    sizeof_yaffs_tags_union = 8 ∧
    sizeof_yaffs_tags = 1 * yaffs_tags_union_as_bytes_len ∧
    sizeof_yaffs_tags = sizeof_u32 * yaffs_tags_union_as_u32_len := by
  refine ⟨by decide, by decide, by decide, by decide, by decide, by decide, by decide,
    by decide, by decide, by decide, by decide, by decide⟩

/-- C16: `struct yaffs_spare` consists of 16 one-byte members (`tb0..tb7`,
`page_status`, `block_status`, `ecc1[3]`, `ecc2[3]`), so its size is
`YAFFS_BYTES_PER_SPARE = 16`, and it carries exactly the 8 tag bytes
`tb0..tb7`, the size of the packed `yaffs_tags_union`. -/
theorem yaffs_spare_is_16_bytes :
    yaffs_spare_members.map (fun m => (m.name, m.count)) =
      [("tb0", 1), ("tb1", 1), ("tb2", 1), ("tb3", 1), ("page_status", 1),
       ("block_status", 1), ("tb4", 1), ("tb5", 1), ("ecc1", 3), ("tb6", 1), ("tb7", 1),
       ("ecc2", 3)] ∧
    (∀ m ∈ yaffs_spare_members, m.ctype = "u8" ∧ m.elem_size = 1) ∧
    (yaffs_spare_members.map (fun m => m.count)).sum = 16 ∧
    sizeof_yaffs_spare = 16 ∧
    sizeof_yaffs_spare = YAFFS_BYTES_PER_SPARE ∧
    (yaffs_spare_members.filter (fun m => yaffs_spare_tag_names.contains m.name)).map
      (fun m => m.name) = yaffs_spare_tag_names ∧
    membersBytes (yaffs_spare_members.filter (fun m => yaffs_spare_tag_names.contains m.name))
      = 8 ∧
    membersBytes (yaffs_spare_members.filter (fun m => yaffs_spare_tag_names.contains m.name))
      = sizeof_yaffs_tags_union := by
  refine ⟨by decide, by decide, by decide, by decide, by decide, by decide, by decide,
    by decide⟩

/-! ## Reserved object ids -/

/-- C17: the reserved ids `YAFFS_OBJECTID_ROOT = 1`, `YAFFS_OBJECTID_LOSTNFOUND =
2`, `YAFFS_OBJECTID_UNLINKED = 3`, `YAFFS_OBJECTID_DELETED = 4`,
`YAFFS_OBJECTID_SUMMARY = 0x10` and the checkpoint markers
`YAFFS_OBJECTID_CHECKPOINT_DATA = 0x20`, `YAFFS_SEQUENCE_CHECKPOINT_DATA = 0x21`
are pairwise distinct and each lies in `[1, YAFFS_OBJECT_SPACE)`. -/
theorem reserved_object_ids :
    [YAFFS_OBJECTID_ROOT, YAFFS_OBJECTID_LOSTNFOUND, YAFFS_OBJECTID_UNLINKED,
      YAFFS_OBJECTID_DELETED, YAFFS_OBJECTID_SUMMARY, YAFFS_OBJECTID_CHECKPOINT_DATA,
      YAFFS_SEQUENCE_CHECKPOINT_DATA] = [1, 2, 3, 4, 0x10, 0x20, 0x21] ∧
    [YAFFS_OBJECTID_ROOT, YAFFS_OBJECTID_LOSTNFOUND, YAFFS_OBJECTID_UNLINKED,
      YAFFS_OBJECTID_DELETED, YAFFS_OBJECTID_SUMMARY, YAFFS_OBJECTID_CHECKPOINT_DATA,
      YAFFS_SEQUENCE_CHECKPOINT_DATA].Nodup ∧
    (∀ id ∈ [YAFFS_OBJECTID_ROOT, YAFFS_OBJECTID_LOSTNFOUND, YAFFS_OBJECTID_UNLINKED,
      YAFFS_OBJECTID_DELETED, YAFFS_OBJECTID_SUMMARY, YAFFS_OBJECTID_CHECKPOINT_DATA,
      YAFFS_SEQUENCE_CHECKPOINT_DATA], 1 ≤ id ∧ id < YAFFS_OBJECT_SPACE) := by
  refine ⟨by decide, by decide, by decide⟩

/-! ## Write retry limit and sequence-number lifetime -/

/-- C19: `YAFFS_WR_ATTEMPTS = 320`, which is exactly 5 blocks' worth of chunks
with 64 pages per block (large page) and exactly 10 blocks' worth with 32 pages
per block (small page, `YAFFS_CHUNKS_PER_BLOCK`), i.e. within the documented
5 to 10 blocks' worth of chunks. -/
theorem wr_attempts_blocks_worth :
    YAFFS_WR_ATTEMPTS = 320 ∧
    YAFFS_WR_ATTEMPTS = 5 * 64 ∧
    YAFFS_WR_ATTEMPTS = 10 * 32 ∧
    YAFFS_WR_ATTEMPTS = 10 * YAFFS_CHUNKS_PER_BLOCK ∧
    (5 ≤ YAFFS_WR_ATTEMPTS / 64 ∧ YAFFS_WR_ATTEMPTS / 64 ≤ 10) ∧
    (5 ≤ YAFFS_WR_ATTEMPTS / 32 ∧ YAFFS_WR_ATTEMPTS / 32 ≤ 10) := by
  refine ⟨by decide, by decide, by decide, by decide, by decide, by decide⟩

/-- C20: at 8 block allocations per second, the sequence numbers from
`YAFFS_LOWEST_SEQUENCE_NUMBER` up to `YAFFS_HIGHEST_SEQUENCE_NUMBER`
(`0xEFFFFF00`) last at least 15 years of 366 days:
`8 * 15 * 366 * 86400 ≤ HIGHEST - LOWEST`. -/
theorem seq_number_lifetime :
    YAFFS_HIGHEST_SEQUENCE_NUMBER = 0xEFFFFF00 ∧
    YAFFS_LOWEST_SEQUENCE_NUMBER ≤ YAFFS_HIGHEST_SEQUENCE_NUMBER ∧
    8 * 15 * 366 * 86400 ≤ YAFFS_HIGHEST_SEQUENCE_NUMBER - YAFFS_LOWEST_SEQUENCE_NUMBER ∧
    8 * 15 * 366 * 86400 = 3794688000 ∧
    YAFFS_HIGHEST_SEQUENCE_NUMBER - YAFFS_LOWEST_SEQUENCE_NUMBER = 4026527488 := by
  unfold YAFFS_HIGHEST_SEQUENCE_NUMBER YAFFS_LOWEST_SEQUENCE_NUMBER
  refine ⟨by norm_num, by norm_num, by norm_num, by norm_num, by norm_num⟩

/-! ## Object header record -/

/-- C18 as stated fails: in `struct yaffs_obj_hdr` the member declared right
after `file_size_high` is `reserved`, not `shadows_obj`, and the member list is
not the list of the claim. -/
theorem obj_hdr_has_reserved_word :
    memberAfter yaffs_obj_hdr_members "file_size_high" = some "reserved" ∧
    memberAfter yaffs_obj_hdr_members "file_size_high" ≠ some "shadows_obj" ∧
    yaffs_obj_hdr_members.map (fun m => m.name) ≠
      ["type", "parent_obj_id", "sum_no_longer_used", "name", "yst_mode", "yst_uid",
       "yst_gid", "yst_atime", "yst_mtime", "yst_ctime", "file_size_low", "equiv_id",
       "alias", "yst_rdev", "win_ctime", "win_atime", "win_mtime",
       "inband_shadowed_obj_id", "inband_is_shrink", "file_size_high", "shadows_obj",
       "is_shrink"] := by
  refine ⟨by decide, by decide, by decide⟩

/-- C18 (amended): `struct yaffs_obj_hdr` (non-Unicode configuration) consists
of exactly these members, in this order: `type`, `parent_obj_id`, the `u16` name
checksum, `name[256]`, `yst_mode`, `yst_uid`, `yst_gid`, `yst_atime`,
`yst_mtime`, `yst_ctime`, `file_size_low`, `equiv_id`, `alias[160]`, `yst_rdev`,
three two-word time pairs, `inband_shadowed_obj_id`, `inband_is_shrink`,
`file_size_high`, `reserved[1]`, `shadows_obj`, `is_shrink`; a reserved `u32`
word lies between `file_size_high` and `shadows_obj`. -/
theorem obj_hdr_member_list :
    yaffs_obj_hdr_members.map (fun m => (m.name, m.ctype, m.count)) =
      [("type", "u32", 1), ("parent_obj_id", "u32", 1), ("sum_no_longer_used", "u16", 1),
       ("name", "YCHAR", 256), ("yst_mode", "u32", 1), ("yst_uid", "u32", 1),
       ("yst_gid", "u32", 1), ("yst_atime", "u32", 1), ("yst_mtime", "u32", 1),
       ("yst_ctime", "u32", 1), ("file_size_low", "u32", 1), ("equiv_id", "int", 1),
       ("alias", "YCHAR", 160), ("yst_rdev", "u32", 1), ("win_ctime", "u32", 2),
       ("win_atime", "u32", 2), ("win_mtime", "u32", 2),
       ("inband_shadowed_obj_id", "u32", 1), ("inband_is_shrink", "u32", 1),
       ("file_size_high", "u32", 1), ("reserved", "u32", 1), ("shadows_obj", "int", 1),
       ("is_shrink", "u32", 1)] ∧
    yaffs_obj_hdr_members.length = 23 ∧
    memberAfter yaffs_obj_hdr_members "file_size_high" = some "reserved" ∧
    memberAfter yaffs_obj_hdr_members "reserved" = some "shadows_obj" ∧
    memberAfter yaffs_obj_hdr_members "shadows_obj" = some "is_shrink" ∧
    memberAfter yaffs_obj_hdr_members "is_shrink" = none := by
  refine ⟨by decide, by decide, by decide, by decide, by decide, by decide⟩

/-! ## File offset to chunk conversion -/

theorem toInt32_of_range (v : Int) (h0 : -2 ^ 31 ≤ v) (h1 : v < 2 ^ 31) : toInt32 v = v := by
  unfold toInt32
  omega

theorem calc_shifts_dvd (fuel x : Nat) : 2 ^ calc_shifts fuel x ∣ x := by
  induction fuel generalizing x with
  | zero => simp [calc_shifts]
  | succ f ih =>
    rw [calc_shifts]
    split
    · simp
    · next h =>
      have h2 : x = x / 2 * 2 := by omega
      rw [pow_succ]
      conv_rhs => rw [h2]
      exact Nat.mul_dvd_mul (ih (x / 2)) (dvd_refl 2)

theorem calc_shifts_pow (fuel k : Nat) (hk : k < fuel) : calc_shifts fuel (2 ^ k) = k := by
  induction fuel generalizing k with
  | zero => omega
  | succ f ih =>
    rw [calc_shifts]
    cases k with
    | zero => simp
    | succ j =>
      have hp : 0 < 2 ^ j := Nat.pow_pos (by decide)
      have h1 : 2 ^ (j + 1) = 2 * 2 ^ j := by rw [pow_succ, Nat.mul_comm]
      have h2 : ¬ (2 ^ (j + 1) = 0 ∨ 2 ^ (j + 1) % 2 = 1) := by omega
      have h3 : 2 ^ (j + 1) / 2 = 2 ^ j := by omega
      rw [if_neg h2, h3, ih j (by omega)]

theorem calc_shifts_lt_32 (d : Nat) (hd : 0 < d) (hd32 : d < 2 ^ 32) :
    calc_shifts 32 d < 32 := by
  have h := Nat.le_of_dvd hd (calc_shifts_dvd 32 d)
  exact (Nat.pow_lt_pow_iff_right (by decide : 1 < 2)).mp (lt_of_le_of_lt h hd32)

theorem chunk_conv_div_mul (d : Nat) :
    2 ^ (chunk_conv_setup d).chunk_shift * (chunk_conv_setup d).chunk_div = d := by
  show 2 ^ calc_shifts 32 d * (d >>> calc_shifts 32 d) = d
  rw [Nat.shiftRight_eq_div_pow]
  exact Nat.mul_div_cancel' (calc_shifts_dvd 32 d)

theorem chunk_conv_mask (d : Nat) (hd : 0 < d) (hd32 : d < 2 ^ 32) :
    (chunk_conv_setup d).chunk_mask = 2 ^ (chunk_conv_setup d).chunk_shift - 1 := by
  show ((1 <<< calc_shifts 32 d) - 1) % 2 ^ 32 = 2 ^ calc_shifts 32 d - 1
  have h := Nat.le_of_dvd hd (calc_shifts_dvd 32 d)
  rw [Nat.shiftLeft_eq, Nat.one_mul]
  apply Nat.mod_eq_of_lt
  omega

theorem yaffs_addr_to_chunk_eq (d a : Nat) (hd : 0 < d) (hd32 : d < 2 ^ 32) :
    yaffs_addr_to_chunk (chunk_conv_setup d) a = (toInt32 ((a / d : Nat) : Int), a % d) := by
  have hm := chunk_conv_div_mul d
  have hmask := chunk_conv_mask d hd hd32
  have hdata : (chunk_conv_setup d).data_bytes_per_chunk = d := rfl
  have hchunk : (a >>> (chunk_conv_setup d).chunk_shift) / (chunk_conv_setup d).chunk_div
      = a / d := by
    rw [Nat.shiftRight_eq_div_pow, Nat.div_div_eq_div_mul, hm]
  have hlt : a % d < 2 ^ 32 := lt_trans (Nat.mod_lt a hd) hd32
  unfold yaffs_addr_to_chunk
  simp only [hchunk, hdata]
  congr 1
  split
  · next h1 =>
    rw [h1, Nat.mul_one] at hm
    rw [hmask, Nat.and_pow_two_sub_one_eq_mod, hm]
    exact Nat.mod_eq_of_lt hlt
  · have h := Nat.div_add_mod a d
    have h2 : a - a / d * d = a % d := by
      rw [Nat.mul_comm] at h
      omega
    rw [h2]
    exact Nat.mod_eq_of_lt hlt

/-- C12: for a device with `data_bytes_per_chunk = d`, `0 < d < 2^32` (a `u32`),
and every address `a ≥ 0` of a file that the tnode tree can hold, that is, a file
of at most `YAFFS_MAX_CHUNK_ID + 1 = 2^28` chunks, `yaffs_addr_to_chunk` returns
`(chunk, offset)` with `a = chunk·d + offset`, `0 ≤ chunk ≤ YAFFS_MAX_CHUNK_ID`
and `0 ≤ offset < d`; `chunk_div = 1` exactly for power-of-two `d`, where
`d = 2^chunk_shift` and `chunk_mask = d - 1`, and the decomposition holds for
other `d` alike; and with `d = 2048` the addresses of a 5000-byte file fall in
exactly 3 chunks. -/
theorem addr_to_chunk_splits (d a : Nat) (hd : 0 < d) (hd32 : d < 2 ^ 32)
    (ha : a < (YAFFS_MAX_CHUNK_ID + 1) * d) :
    (a : Int) = (yaffs_addr_to_chunk (chunk_conv_setup d) a).1 * d
        + (yaffs_addr_to_chunk (chunk_conv_setup d) a).2 ∧
    (0 ≤ (yaffs_addr_to_chunk (chunk_conv_setup d) a).1 ∧
      (yaffs_addr_to_chunk (chunk_conv_setup d) a).1 ≤ (YAFFS_MAX_CHUNK_ID : Int)) ∧
    (yaffs_addr_to_chunk (chunk_conv_setup d) a).2 < d ∧
    ((chunk_conv_setup d).chunk_div = 1 ↔ ∃ k, d = 2 ^ k) ∧
    ((chunk_conv_setup d).chunk_div = 1 →
      d = 2 ^ (chunk_conv_setup d).chunk_shift ∧ (chunk_conv_setup d).chunk_mask = d - 1) ∧
    (Finset.image (fun b => (yaffs_addr_to_chunk (chunk_conv_setup 2048) b).1)
      (Finset.range 5000)).card = 3 := by
  have hmax : YAFFS_MAX_CHUNK_ID = 2 ^ 28 - 1 := by decide
  have hq28 : a / d < 2 ^ 28 := by
    apply (Nat.div_lt_iff_lt_mul hd).mpr
    rw [hmax] at ha
    exact ha
  have hq : a / d < 2 ^ 31 := by omega
  have hq0 : (0 : Int) ≤ ((a / d : Nat) : Int) := Int.ofNat_nonneg _
  have hq1 : ((a / d : Nat) : Int) < 2 ^ 31 := by exact_mod_cast hq
  have hm := chunk_conv_div_mul d
  rw [yaffs_addr_to_chunk_eq d a hd hd32, toInt32_of_range _ (by omega) hq1]
  refine ⟨?_, ⟨hq0, by rw [hmax]; omega⟩, Nat.mod_lt a hd, ⟨?_, ?_⟩, ?_, ?_⟩
  · have h := Nat.div_add_mod a d
    show (a : Int) = ((a / d : Nat) : Int) * d + ((a % d : Nat) : Int)
    rw [Nat.mul_comm] at h
    exact_mod_cast h.symm
  · intro h1
    rw [h1, Nat.mul_one] at hm
    exact ⟨_, hm.symm⟩
  · rintro ⟨k, rfl⟩
    have hk : k < 32 := (Nat.pow_lt_pow_iff_right (by decide : 1 < 2)).mp hd32
    show 2 ^ k >>> calc_shifts 32 (2 ^ k) = 1
    rw [calc_shifts_pow 32 k hk, Nat.shiftRight_eq_div_pow]
    exact Nat.div_self hd
  · intro h1
    rw [h1, Nat.mul_one] at hm
    refine ⟨hm.symm, ?_⟩
    rw [chunk_conv_mask d hd hd32, hm]
  · have himg : Finset.image (fun b => (yaffs_addr_to_chunk (chunk_conv_setup 2048) b).1)
        (Finset.range 5000) = ({0, 1, 2} : Finset Int) := by
      ext x
      simp only [Finset.mem_image, Finset.mem_range, Finset.mem_insert, Finset.mem_singleton]
      constructor
      · rintro ⟨b, hb, rfl⟩
        have hb1 : ((b / 2048 : Nat) : Int) < 2 ^ 31 := by omega
        rw [yaffs_addr_to_chunk_eq 2048 b (by norm_num) (by norm_num),
          toInt32_of_range _ (by omega) hb1]
        show ((b / 2048 : Nat) : Int) = 0 ∨ ((b / 2048 : Nat) : Int) = 1 ∨
          ((b / 2048 : Nat) : Int) = 2
        omega
      · rintro (rfl | rfl | rfl)
        · exact ⟨0, by norm_num, by decide⟩
        · exact ⟨2048, by norm_num, by decide⟩
        · exact ⟨4096, by norm_num, by decide⟩
    rw [himg]
    decide

/-- Instance of C12 with 1536-byte chunks (not a power of two:
`chunk_shift = 9`, `chunk_div = 3`): address 4999 is byte 391 of chunk 3. -/
theorem addr_to_chunk_splits_witness :
    yaffs_addr_to_chunk (chunk_conv_setup 1536) 4999 = (3, 391) ∧
    ((4999 : Nat) : Int) = (yaffs_addr_to_chunk (chunk_conv_setup 1536) 4999).1 * (1536 : Nat)
        + (yaffs_addr_to_chunk (chunk_conv_setup 1536) 4999).2 :=
  ⟨by decide, (addr_to_chunk_splits 1536 4999 (by norm_num) (by norm_num) (by decide)).1⟩

/-! ## Tnode width selection -/

theorem bits_needed_from_ge (fuel bits n : Nat) (h : n ≤ 2 ^ (bits + fuel)) :
    n ≤ 2 ^ bits_needed_from fuel bits n := by
  induction fuel generalizing bits with
  | zero => simpa [bits_needed_from] using h
  | succ f ih =>
    rw [bits_needed_from]
    split
    · assumption
    · exact ih (bits + 1) (by rw [Nat.add_right_comm, Nat.add_assoc] at *; exact h)

theorem bits_needed_from_le (fuel bits n c : Nat) (h : n ≤ 2 ^ c) (hb : bits ≤ c) :
    bits_needed_from fuel bits n ≤ c := by
  induction fuel generalizing bits with
  | zero => simpa [bits_needed_from] using hb
  | succ f ih =>
    rw [bits_needed_from]
    split
    · exact hb
    · next hn =>
      apply ih
      rcases Nat.lt_or_ge bits c with hlt | hge
      · exact hlt
      · have : bits = c := Nat.le_antisymm hb hge
        subst this
        exact absurd h hn

theorem bits_needed_ge (n : Nat) : n ≤ 2 ^ bits_needed n :=
  bits_needed_from_ge n 0 n (by rw [Nat.zero_add]; exact Nat.le_of_lt (Nat.lt_two_pow n))

theorem bits_needed_le (n c : Nat) (h : n ≤ 2 ^ c) : bits_needed n ≤ c :=
  bits_needed_from_le n 0 n c h (Nat.zero_le c)

/-- C13: for a device whose chunks are numbered by an `int` (`nand_chunk`,
`hdr_chunk`, `n_free_chunks`), that is, a device of `n ≤ 2^31` chunks, after
mount `tnode_width = 16` if wide tnodes are disabled; otherwise
`2^tnode_width ≥ n` and `chunk_grp_bits = 0`; and in every case
`chunk_grp_size = 2^chunk_grp_bits`. -/
theorem tnode_width_selection (n : Nat) (hn : n ≤ 2 ^ 31) :
    (tnode_width_setup n true).tnode_width = 16 ∧
    (n ≤ 2 ^ (tnode_width_setup n false).tnode_width ∧
      (tnode_width_setup n false).chunk_grp_bits = 0) ∧
    (∀ wide_tnodes_disabled : Bool,
      (tnode_width_setup n wide_tnodes_disabled).chunk_grp_size
        = 2 ^ (tnode_width_setup n wide_tnodes_disabled).chunk_grp_bits) := by
  have hge := bits_needed_ge n
  have hle : bits_needed n ≤ 31 := bits_needed_le n 31 hn
  refine ⟨rfl, ⟨?_, ?_⟩, ?_⟩
  · show n ≤ 2 ^ (bits_needed n % 2 ^ 32)
    rw [Nat.mod_eq_of_lt (by omega)]
    exact hge
  · show (if bits_needed n ≤ bits_needed n then 0 else bits_needed n - bits_needed n) % 2 ^ 16 = 0
    rw [if_pos (le_refl _), Nat.zero_mod]
  · intro dis
    have hbits : (tnode_width_setup n dis).chunk_grp_bits < 16 := by
      cases dis with
      | false =>
        show (if bits_needed n ≤ bits_needed n then 0 else bits_needed n - bits_needed n)
          % 2 ^ 16 < 16
        rw [if_pos (le_refl _)]
        norm_num
      | true =>
        show (if bits_needed n ≤ 16 then 0 else bits_needed n - 16) % 2 ^ 16 < 16
        split <;> omega
    show (1 <<< (tnode_width_setup n dis).chunk_grp_bits) % 2 ^ 16
      = 2 ^ (tnode_width_setup n dis).chunk_grp_bits
    rw [Nat.shiftLeft_eq, Nat.one_mul]
    exact Nat.mod_eq_of_lt (Nat.pow_lt_pow_right (by decide) hbits)

/-- Instance of C13 for a device of `2^20` chunks: 16-bit tnodes with groups of
`2^4` chunks when wide tnodes are disabled, 20-bit tnodes otherwise. -/
theorem tnode_width_selection_witness :
    tnode_width_setup (2 ^ 20) true = ⟨16, 4, 16⟩ ∧
    tnode_width_setup (2 ^ 20) false = ⟨20, 0, 1⟩ ∧
    (tnode_width_setup (2 ^ 20) true).chunk_grp_size
      = 2 ^ (tnode_width_setup (2 ^ 20) true).chunk_grp_bits :=
  ⟨by decide, by decide, (tnode_width_selection (2 ^ 20) (by norm_num)).2.2 true⟩

/-! ## Log ordering -/

theorem chunk_block_of (cpb b p : Nat) (hp : p < cpb) : (b * cpb + p) / cpb = b := by
  rw [Nat.mul_comm, Nat.mul_add_div (by omega), Nat.div_eq_of_lt hp, Nat.add_zero]

theorem chunk_page_of (cpb b p : Nat) (hp : p < cpb) : (b * cpb + p) % cpb = p := by
  rw [Nat.mul_comm, Nat.mul_add_mod, Nat.mod_eq_of_lt hp]

theorem chunk_of_block_page (cpb c : Nat) : c / cpb * cpb + c % cpb = c := by
  rw [Nat.mul_comm]
  exact Nat.div_add_mod c cpb

theorem LogDev.live_chunk_set_live (dev : LogDev) (o i : Nat) (v : Option Nat) (o2 i2 : Nat) :
    (dev.set_live o i v).live_chunk o2 i2
      = if o2 = o ∧ i2 = i then v else dev.live_chunk o2 i2 := by
  unfold LogDev.live_chunk LogDev.set_live
  by_cases hi : i = 0 <;> by_cases hi2 : i2 = 0 <;> by_cases ho : o2 = o <;>
    by_cases hii : i2 = i <;> simp_all [Function.update_apply]

theorem LogDev.find_alloc_block_empty (dev : LogDev) (b : Nat)
    (h : dev.find_alloc_block = some b) :
    dev.block_state b = .YAFFS_BLOCK_STATE_EMPTY := by
  unfold LogDev.find_alloc_block at h
  have h2 := List.find?_some h
  simpa using h2

theorem LogDev.Inv.erased_of_not_in_use {dev : LogDev} (h : dev.Inv) (c : Nat)
    (hn : ¬ dev.in_use (dev.block_of c)) : dev.chunk_tags c = none := by
  cases ht : dev.chunk_tags c with
  | none => rfl
  | some t => exact absurd (h.tags_in_use c t ht).1 hn

theorem LogDev.Inv.live_unique {dev : LogDev} (h : dev.Inv) (o i o2 i2 c : Nat)
    (h1 : dev.live_chunk o i = some c) (h2 : dev.live_chunk o2 i2 = some c) :
    o2 = o ∧ i2 = i := by
  obtain ⟨⟨t, ht, rfl, rfl⟩, _⟩ := h.live_newest o i c h1
  obtain ⟨⟨t2, ht2, rfl, rfl⟩, _⟩ := h.live_newest o2 i2 c h2
  rw [ht] at ht2
  cases ht2
  exact ⟨rfl, rfl⟩

theorem LogDev.log_format_inv (chunks_per_block n_blocks : Nat) (hc : 0 < chunks_per_block) :
    (LogDev.format chunks_per_block n_blocks).Inv where
  cpb_pos := hc
  seq_le := by
    show YAFFS_LOWEST_SEQUENCE_NUMBER ≤ YAFFS_HIGHEST_SEQUENCE_NUMBER
    decide
  tags_in_use := fun c t ht => by cases ht
  seq_bound := fun b hb => by
    rcases hb with hb | hb <;> cases hb
  seq_inj := fun b1 b2 hb => by
    rcases hb with hb | hb <;> cases hb
  cursor := fun b hb => by cases hb
  live_newest := fun o i c hl => by
    unfold LogDev.live_chunk LogDev.format at hl
    split at hl <;> cases hl
  bits_live := fun c hb => by cases hb

theorem LogDev.open_block_inv (dev : LogDev) (h : dev.Inv) (b : Nat)
    (hb : dev.block_state b = .YAFFS_BLOCK_STATE_EMPTY)
    (hseq : dev.seq_number < YAFFS_HIGHEST_SEQUENCE_NUMBER) :
    ({ dev with
        seq_number := dev.seq_number + 1,
        block_state := Function.update dev.block_state b .YAFFS_BLOCK_STATE_ALLOCATING,
        block_seq := Function.update dev.block_seq b (dev.seq_number + 1),
        alloc_block := some b,
        alloc_page := 0,
        alloc_block_finder := b } : LogDev).Inv := by
  have hnb : ¬ dev.in_use b := by
    unfold LogDev.in_use
    rw [hb]
    decide
  have hblk : ∀ c t, dev.chunk_tags c = some t → dev.block_of c ≠ b := by
    intro c t ht e
    exact hnb (e ▸ (h.tags_in_use c t ht).1)
  have huse : ∀ x, x ≠ b →
      (Function.update dev.block_state b .YAFFS_BLOCK_STATE_ALLOCATING x
          = .YAFFS_BLOCK_STATE_ALLOCATING ∨
        Function.update dev.block_state b .YAFFS_BLOCK_STATE_ALLOCATING x
          = .YAFFS_BLOCK_STATE_FULL) → dev.in_use x := by
    intro x hx hu
    rw [Function.update_noteq hx] at hu
    exact hu
  refine ⟨h.cpb_pos, ?_, ?_, ?_, ?_, ?_, ?_, h.bits_live⟩
  · show dev.seq_number + 1 ≤ YAFFS_HIGHEST_SEQUENCE_NUMBER
    omega
  · intro c t ht
    have h0 := h.tags_in_use c t ht
    have hne := hblk c t ht
    show (Function.update dev.block_state b _ (dev.block_of c) = _ ∨
        Function.update dev.block_state b _ (dev.block_of c) = _) ∧
      t.seq_number = Function.update dev.block_seq b _ (dev.block_of c)
    rw [Function.update_noteq hne, Function.update_noteq hne]
    exact h0
  · intro x hx
    show Function.update dev.block_seq b _ x ≤ dev.seq_number + 1
    by_cases hxb : x = b
    · rw [hxb, Function.update_same]
    · rw [Function.update_noteq hxb]
      exact Nat.le_succ_of_le (h.seq_bound x (huse x hxb hx))
  · intro b1 b2 h1 h2
    show Function.update dev.block_seq b _ b1 = Function.update dev.block_seq b _ b2 → b1 = b2
    by_cases e1 : b1 = b <;> by_cases e2 : b2 = b
    · intro _
      rw [e1, e2]
    · rw [e1, Function.update_same, Function.update_noteq e2]
      intro e
      have := h.seq_bound b2 (huse b2 e2 h2)
      omega
    · rw [e2, Function.update_same, Function.update_noteq e1]
      intro e
      have := h.seq_bound b1 (huse b1 e1 h1)
      omega
    · rw [Function.update_noteq e1, Function.update_noteq e2]
      exact h.seq_inj b1 b2 (huse b1 e1 h1) (huse b2 e2 h2)
  · intro x hx
    cases hx
    refine ⟨by show Function.update dev.block_state b _ b = _; rw [Function.update_same],
      by show Function.update dev.block_seq b _ b = _; rw [Function.update_same],
      h.cpb_pos, ?_⟩
    intro c hc _
    exact h.erased_of_not_in_use c (fun hu => hnb (hc ▸ hu))
  · intro o i c hl
    obtain ⟨h1, h2, h3⟩ := h.live_newest o i c hl
    refine ⟨h1, h2, ?_⟩
    intro c2 t2 ht2 ho hi
    obtain ⟨t, ht, _, _⟩ := h1
    rcases h3 c2 t2 ht2 ho hi with e | hold
    · exact Or.inl e
    · right
      have n1 := hblk c t ht
      have n2 := hblk c2 t2 ht2
      show Function.update dev.block_seq b _ (dev.block_of c2)
            < Function.update dev.block_seq b _ (dev.block_of c) ∨
          (Function.update dev.block_seq b _ (dev.block_of c2)
            = Function.update dev.block_seq b _ (dev.block_of c) ∧
            dev.page_of c2 < dev.page_of c)
      rw [Function.update_noteq n1, Function.update_noteq n2]
      exact hold

theorem LogDev.cur_block_spec (dev : LogDev) (h : dev.Inv) (b : Nat) (d : LogDev)
    (hc : dev.cur_block = some (b, d)) : d.Inv ∧ d.alloc_block = some b := by
  unfold LogDev.cur_block at hc
  split at hc
  · next b0 hb0 =>
    cases hc
    exact ⟨h, hb0⟩
  · split at hc
    · next hseq =>
      split at hc
      · next b1 hb1 =>
        cases hc
        exact ⟨LogDev.open_block_inv dev h b (dev.find_alloc_block_empty b hb1) hseq, rfl⟩
      · cases hc
    · cases hc

theorem LogDev.bits_superseded_true (dev : LogDev) (o i x : Nat) :
    dev.bits_superseded o i x = true ↔
      dev.chunk_bits x = true ∧ dev.live_chunk o i ≠ some x := by
  unfold LogDev.bits_superseded
  cases hl : dev.live_chunk o i with
  | none => simp
  | some old =>
    by_cases hx : x = old
    · subst hx
      simp
    · show Function.update dev.chunk_bits old false x = true ↔ _
      rw [Function.update_noteq hx]
      constructor
      · intro hb
        refine ⟨hb, ?_⟩
        intro e
        cases e
        exact hx rfl
      · exact fun hb => hb.1

theorem LogDev.program_inv (dev : LogDev) (h : dev.Inv) (b : Nat)
    (hb : dev.alloc_block = some b) (o i : Nat) : (dev.program b o i).Inv := by
  obtain ⟨hst, hbs, hpg, hfree⟩ := h.cursor b hb
  have hcb : dev.block_of (b * dev.chunks_per_block + dev.alloc_page) = b :=
    chunk_block_of _ _ _ hpg
  have hcp : dev.page_of (b * dev.chunks_per_block + dev.alloc_page) = dev.alloc_page :=
    chunk_page_of _ _ _ hpg
  have hcnone : dev.chunk_tags (b * dev.chunks_per_block + dev.alloc_page) = none :=
    hfree _ hcb (by rw [hcp])
  have hbu : dev.in_use b := Or.inl hst
  have e_live : ∀ o2 i2, (dev.program b o i).live_chunk o2 i2
      = if o2 = o ∧ i2 = i then some (b * dev.chunks_per_block + dev.alloc_page)
        else dev.live_chunk o2 i2 := by
    intro o2 i2
    unfold LogDev.program
    rw [LogDev.live_chunk_set_live]
    rfl
  have e_tags : (dev.program b o i).chunk_tags
      = Function.update dev.chunk_tags (b * dev.chunks_per_block + dev.alloc_page)
          (some ⟨o, i, dev.block_seq b⟩) := rfl
  have e_bits : (dev.program b o i).chunk_bits
      = Function.update (dev.bits_superseded o i)
          (b * dev.chunks_per_block + dev.alloc_page) true := rfl
  have e_state : (dev.program b o i).block_state
      = if decide (dev.chunks_per_block ≤ dev.alloc_page + 1) = true
        then Function.update dev.block_state b .YAFFS_BLOCK_STATE_FULL
        else dev.block_state := rfl
  have e_alloc : (dev.program b o i).alloc_block
      = if decide (dev.chunks_per_block ≤ dev.alloc_page + 1) = true then none
        else some b := rfl
  have huse : ∀ x, (dev.program b o i).in_use x ↔ dev.in_use x := by
    intro x
    unfold LogDev.in_use
    rw [e_state]
    split
    · by_cases hx : x = b
      · subst hx
        rw [Function.update_same, hst]
        simp
      · rw [Function.update_noteq hx]
    · rfl
  refine ⟨h.cpb_pos, h.seq_le, ?_, ?_, ?_, ?_, ?_, ?_⟩
  · intro x t ht
    rw [e_tags] at ht
    by_cases hx : x = b * dev.chunks_per_block + dev.alloc_page
    · subst hx
      rw [Function.update_same] at ht
      cases ht
      exact ⟨(huse _).2 (hcb.symm ▸ hbu), congrArg dev.block_seq hcb.symm⟩
    · rw [Function.update_noteq hx] at ht
      have h0 := h.tags_in_use x t ht
      exact ⟨(huse _).2 h0.1, h0.2⟩
  · exact fun x hx => h.seq_bound x ((huse x).1 hx)
  · exact fun b1 b2 h1 h2 => h.seq_inj b1 b2 ((huse b1).1 h1) ((huse b2).1 h2)
  · intro x hx
    rw [e_alloc] at hx
    by_cases hfull : dev.chunks_per_block ≤ dev.alloc_page + 1
    · rw [if_pos (decide_eq_true hfull)] at hx
      cases hx
    · rw [if_neg (by simpa using hfull)] at hx
      cases hx
      refine ⟨?_, hbs, ?_, ?_⟩
      · rw [e_state, if_neg (by simpa using hfull)]
        exact hst
      · show dev.alloc_page + 1 < dev.chunks_per_block
        omega
      · intro y hy hpy
        have hpy2 : dev.alloc_page + 1 ≤ dev.page_of y := hpy
        have hne : y ≠ b * dev.chunks_per_block + dev.alloc_page := by
          intro e
          rw [e, hcp] at hpy2
          omega
        rw [e_tags, Function.update_noteq hne]
        exact hfree y hy (by omega)
  · intro o2 i2 x hl
    rw [e_live] at hl
    by_cases hoi : o2 = o ∧ i2 = i
    · rw [if_pos hoi] at hl
      cases hl
      obtain ⟨rfl, rfl⟩ := hoi
      refine ⟨⟨_, by rw [e_tags, Function.update_same], rfl, rfl⟩,
        by rw [e_bits, Function.update_same], ?_⟩
      intro c2 t2 ht2 _ _
      by_cases hc2 : c2 = b * dev.chunks_per_block + dev.alloc_page
      · exact Or.inl hc2
      · right
        rw [e_tags, Function.update_noteq hc2] at ht2
        have hu := h.tags_in_use c2 t2 ht2
        have hle := h.seq_bound _ hu.1
        show dev.block_seq (dev.block_of c2)
              < dev.block_seq (dev.block_of (b * dev.chunks_per_block + dev.alloc_page)) ∨
          (dev.block_seq (dev.block_of c2)
              = dev.block_seq (dev.block_of (b * dev.chunks_per_block + dev.alloc_page)) ∧
            dev.page_of c2 < dev.page_of (b * dev.chunks_per_block + dev.alloc_page))
        rw [hcb, hcp, hbs]
        rcases Nat.lt_or_eq_of_le hle with hlt | heq
        · exact Or.inl hlt
        · refine Or.inr ⟨heq, ?_⟩
          have hblk : dev.block_of c2 = b :=
            h.seq_inj _ _ hu.1 hbu (heq.trans hbs.symm)
          by_contra hge
          have := hfree c2 hblk (by omega)
          rw [this] at ht2
          cases ht2
    · rw [if_neg hoi] at hl
      obtain ⟨⟨t, ht, hto, hti⟩, hbit, hmax⟩ := h.live_newest o2 i2 x hl
      have hxc : x ≠ b * dev.chunks_per_block + dev.alloc_page := by
        intro e
        rw [e, hcnone] at ht
        cases ht
      refine ⟨⟨t, by rw [e_tags, Function.update_noteq hxc]; exact ht, hto, hti⟩, ?_, ?_⟩
      · rw [e_bits, Function.update_noteq hxc]
        refine (dev.bits_superseded_true o i x).2 ⟨hbit, ?_⟩
        intro hlo
        exact hoi (h.live_unique o i o2 i2 x hlo hl)
      · intro c2 t2 ht2 ho hi
        have hc2 : c2 ≠ b * dev.chunks_per_block + dev.alloc_page := by
          intro e
          rw [e_tags, e, Function.update_same] at ht2
          cases ht2
          exact hoi ⟨ho.symm, hi.symm⟩
        rw [e_tags, Function.update_noteq hc2] at ht2
        exact hmax c2 t2 ht2 ho hi
  · intro x hx
    rw [e_bits] at hx
    by_cases hxc : x = b * dev.chunks_per_block + dev.alloc_page
    · subst hxc
      refine ⟨_, by rw [e_tags, Function.update_same], ?_⟩
      rw [e_live, if_pos ⟨rfl, rfl⟩]
    · rw [Function.update_noteq hxc] at hx
      obtain ⟨hbit, hnl⟩ := (dev.bits_superseded_true o i x).1 hx
      obtain ⟨t, ht, hlv⟩ := h.bits_live x hbit
      refine ⟨t, by rw [e_tags, Function.update_noteq hxc]; exact ht, ?_⟩
      rw [e_live, if_neg]
      · exact hlv
      · rintro ⟨e1, e2⟩
        rw [e1, e2] at hlv
        exact hnl hlv

theorem LogDev.wr_chunk_inv (dev : LogDev) (h : dev.Inv) (o i : Nat) :
    (dev.wr_chunk o i).Inv := by
  unfold LogDev.wr_chunk
  split
  · next b d hc =>
    obtain ⟨hd, hb⟩ := dev.cur_block_spec h b d hc
    exact d.program_inv hd b hb o i
  · exact h

theorem LogDev.del_chunk_inv (dev : LogDev) (h : dev.Inv) (o i : Nat) :
    (dev.del_chunk o i).Inv := by
  have e_live : ∀ o2 i2, (dev.del_chunk o i).live_chunk o2 i2
      = if o2 = o ∧ i2 = i then none else dev.live_chunk o2 i2 := by
    intro o2 i2
    unfold LogDev.del_chunk
    rw [LogDev.live_chunk_set_live]
    rfl
  have e_bits : (dev.del_chunk o i).chunk_bits = dev.bits_superseded o i := rfl
  refine ⟨h.cpb_pos, h.seq_le, h.tags_in_use, h.seq_bound, h.seq_inj, h.cursor, ?_, ?_⟩
  · intro o2 i2 x hl
    rw [e_live] at hl
    by_cases hoi : o2 = o ∧ i2 = i
    · rw [if_pos hoi] at hl
      cases hl
    · rw [if_neg hoi] at hl
      obtain ⟨h1, hbit, hmax⟩ := h.live_newest o2 i2 x hl
      refine ⟨h1, ?_, hmax⟩
      rw [e_bits]
      refine (dev.bits_superseded_true o i x).2 ⟨hbit, ?_⟩
      intro hlo
      exact hoi (h.live_unique o i o2 i2 x hlo hl)
  · intro x hx
    rw [e_bits] at hx
    obtain ⟨hbit, hnl⟩ := (dev.bits_superseded_true o i x).1 hx
    obtain ⟨t, ht, hlv⟩ := h.bits_live x hbit
    refine ⟨t, ht, ?_⟩
    rw [e_live, if_neg]
    · exact hlv
    · rintro ⟨e1, e2⟩
      rw [e1, e2] at hlv
      exact hnl hlv

theorem LogDev.gc_chunk_inv (dev : LogDev) (h : dev.Inv) (c : Nat) : (dev.gc_chunk c).Inv := by
  unfold LogDev.gc_chunk
  split
  · next hbit =>
    obtain ⟨t2, ht2, hlv⟩ := h.bits_live c hbit
    split
    · next t ht =>
      rw [ht] at ht2
      cases ht2
      rw [if_pos hlv]
      exact dev.wr_chunk_inv h _ _
    · next ht =>
      rw [ht] at ht2
      cases ht2
  · exact h

theorem LogDev.block_clear_bits (dev : LogDev) (hc : 0 < dev.chunks_per_block) (b : Nat)
    (h : dev.block_clear b = true) (x : Nat) (hx : dev.block_of x = b) :
    dev.chunk_bits x = false := by
  unfold LogDev.block_clear at h
  rw [List.all_eq_true] at h
  have h1 := h (x % dev.chunks_per_block) (List.mem_range.2 (Nat.mod_lt x hc))
  unfold LogDev.block_of at hx
  rw [← hx, chunk_of_block_page] at h1
  simpa using h1

theorem LogDev.erase_block_inv (dev : LogDev) (h : dev.Inv) (b : Nat)
    (hfull : dev.block_state b = .YAFFS_BLOCK_STATE_FULL)
    (hclear : dev.block_clear b = true) : (dev.erase_block b).Inv := by
  have hbits := dev.block_clear_bits h.cpb_pos b hclear
  have e_tags : ∀ x, (dev.erase_block b).chunk_tags x
      = if dev.block_of x = b then none else dev.chunk_tags x := fun _ => rfl
  have e_state : (dev.erase_block b).block_state
      = Function.update dev.block_state b .YAFFS_BLOCK_STATE_EMPTY := rfl
  have huse : ∀ x, (dev.erase_block b).in_use x → x ≠ b ∧ dev.in_use x := by
    intro x hx
    unfold LogDev.in_use at hx
    rw [e_state] at hx
    by_cases hxb : x = b
    · subst hxb
      rw [Function.update_same] at hx
      rcases hx with hx | hx <;> cases hx
    · rw [Function.update_noteq hxb] at hx
      exact ⟨hxb, hx⟩
  have hkeep : ∀ x t, (dev.erase_block b).chunk_tags x = some t →
      dev.block_of x ≠ b ∧ dev.chunk_tags x = some t := by
    intro x t ht
    rw [e_tags] at ht
    split at ht
    · cases ht
    · next hne => exact ⟨hne, ht⟩
  have hlive : ∀ x, dev.chunk_bits x = true → dev.block_of x ≠ b := by
    intro x hx e
    rw [hbits x e] at hx
    cases hx
  refine ⟨h.cpb_pos, h.seq_le, ?_, ?_, ?_, ?_, ?_, ?_⟩
  · intro x t ht
    obtain ⟨hne, ht0⟩ := hkeep x t ht
    have h0 := h.tags_in_use x t ht0
    refine ⟨?_, h0.2⟩
    show Function.update dev.block_state b _ (dev.block_of x) = _ ∨
      Function.update dev.block_state b _ (dev.block_of x) = _
    rw [Function.update_noteq hne]
    exact h0.1
  · exact fun x hx => h.seq_bound x (huse x hx).2
  · exact fun b1 b2 h1 h2 => h.seq_inj b1 b2 (huse b1 h1).2 (huse b2 h2).2
  · intro x hx
    obtain ⟨hst, hbs, hpg, hfree⟩ := h.cursor x hx
    have hxb : x ≠ b := by
      intro e
      rw [e, hfull] at hst
      cases hst
    refine ⟨by rw [e_state, Function.update_noteq hxb]; exact hst, hbs, hpg, ?_⟩
    intro y hy hpy
    rw [e_tags]
    split
    · rfl
    · exact hfree y hy hpy
  · intro o i x hl
    obtain ⟨⟨t, ht, hto, hti⟩, hbit, hmax⟩ := h.live_newest o i x hl
    refine ⟨⟨t, by rw [e_tags, if_neg (hlive x hbit)]; exact ht, hto, hti⟩, hbit, ?_⟩
    intro c2 t2 ht2 ho hi
    exact hmax c2 t2 (hkeep c2 t2 ht2).2 ho hi
  · intro x hx
    obtain ⟨t, ht, hlv⟩ := h.bits_live x hx
    exact ⟨t, by rw [e_tags, if_neg (hlive x hx)]; exact ht, hlv⟩

theorem LogDev.gc_chunks_inv (f : Nat → Nat) (pages : List Nat) (dev : LogDev) (h : dev.Inv) :
    (pages.foldl (fun d p => d.gc_chunk (f p)) dev).Inv := by
  induction pages generalizing dev with
  | nil => exact h
  | cons p rest ih => exact ih _ (dev.gc_chunk_inv h (f p))

theorem LogDev.yaffs_gc_block_inv (dev : LogDev) (h : dev.Inv) (b : Nat) :
    (dev.yaffs_gc_block b).Inv := by
  unfold LogDev.yaffs_gc_block
  have hd := LogDev.gc_chunks_inv (fun p => b * dev.chunks_per_block + p)
    (List.range dev.chunks_per_block) dev h
  split
  · dsimp only
    split
    · next hg => exact LogDev.erase_block_inv _ hd b hg.1 hg.2
    · exact hd
  · exact h

theorem LogDev.step_inv (dev : LogDev) (h : dev.Inv) (op : LogOp) : (dev.step op).Inv := by
  cases op with
  | wr o i => exact dev.wr_chunk_inv h o i
  | del o i => exact dev.del_chunk_inv h o i
  | gc b => exact dev.yaffs_gc_block_inv h b

theorem LogDev.run_inv (ops : List LogOp) (dev : LogDev) (h : dev.Inv) : (dev.run ops).Inv := by
  induction ops generalizing dev with
  | nil => exact h
  | cons op rest ih => exact ih _ (dev.step_inv h op)

/-- C11: on a device reached from a formatted one by any sequence of chunk
writes, chunk deletions and block collections, take two different chunks whose
tags carry the same `obj_id` and the same `chunk_id`.  Each carries the
`seq_number` of its block; one of the two is older than the other (smaller
block `seq_number`, or equal sequence numbers and the earlier position); and
the older one is not live: it is not the chunk the object references for this
`chunk_id`, no object's `hdr_chunk` and no tnode slot refers to it, and its bit
in `chunk_bits` is clear.  So the live instance, if any, is the one in the block
with the greater `seq_number`, or at the later position on a tie. -/
theorem log_ordering (chunks_per_block n_blocks : Nat) (hcpb : 0 < chunks_per_block)
    (ops : List LogOp) (dev : LogDev)
    (hdev : dev = (LogDev.format chunks_per_block n_blocks).run ops)
    (c1 c2 : Nat) (t1 t2 : yaffs_ext_tags)
    (h1 : dev.chunk_tags c1 = some t1) (h2 : dev.chunk_tags c2 = some t2)
    (ho : t1.obj_id = t2.obj_id) (hi : t1.chunk_id = t2.chunk_id) (hne : c1 ≠ c2) :
    (t1.seq_number = dev.block_seq (dev.block_of c1) ∧
      t2.seq_number = dev.block_seq (dev.block_of c2)) ∧
    (dev.older c1 c2 ∨ dev.older c2 c1) ∧
    (dev.older c1 c2 →
      dev.live_chunk t1.obj_id t1.chunk_id ≠ some c1 ∧
      (∀ o, dev.hdr_chunk o ≠ some c1) ∧
      (∀ o i, 0 < i → dev.tnode_slot o i ≠ some c1) ∧
      dev.chunk_bits c1 = false) := by
  have h : dev.Inv := by
    rw [hdev]
    exact LogDev.run_inv ops _ (LogDev.log_format_inv chunks_per_block n_blocks hcpb)
  have u1 := h.tags_in_use c1 t1 h1
  have u2 := h.tags_in_use c2 t2 h2
  refine ⟨⟨u1.2, u2.2⟩, ?_, ?_⟩
  · unfold LogDev.older
    rcases Nat.lt_trichotomy (dev.block_seq (dev.block_of c1))
        (dev.block_seq (dev.block_of c2)) with hlt | heq | hgt
    · exact Or.inl (Or.inl hlt)
    · have hblk := h.seq_inj _ _ u1.1 u2.1 heq
      rcases Nat.lt_trichotomy (dev.page_of c1) (dev.page_of c2) with plt | peq | pgt
      · exact Or.inl (Or.inr ⟨heq, plt⟩)
      · exfalso
        apply hne
        have e1 := chunk_of_block_page dev.chunks_per_block c1
        have e2 := chunk_of_block_page dev.chunks_per_block c2
        unfold LogDev.block_of at hblk
        unfold LogDev.page_of at peq
        rw [hblk, peq] at e1
        exact e1.symm.trans e2
      · exact Or.inr (Or.inr ⟨heq.symm, pgt⟩)
    · exact Or.inr (Or.inl hgt)
  · intro hold
    have hnl : ∀ o i, dev.live_chunk o i ≠ some c1 := by
      intro o i hl
      obtain ⟨⟨t, ht, hto, hti⟩, _, hmax⟩ := h.live_newest o i c1 hl
      rw [h1] at ht
      cases ht
      rcases hmax c2 t2 h2 (ho.symm.trans hto) (hi.symm.trans hti) with e | hold2
      · exact hne e.symm
      · unfold LogDev.older at hold hold2
        omega
    refine ⟨hnl _ _, ?_, ?_, ?_⟩
    · intro o e
      exact hnl o 0 (by unfold LogDev.live_chunk; rw [if_pos rfl]; exact e)
    · intro o i hpos e
      exact hnl o i (by unfold LogDev.live_chunk; rw [if_neg (by omega)]; exact e)
    · cases hb : dev.chunk_bits c1 with
      | false => rfl
      | true =>
        obtain ⟨t, _, hlv⟩ := h.bits_live c1 hb
        exact absurd hlv (hnl _ _)

/-- Instance of C11 on a device of three blocks of two chunks, after chunk 1 of
object 5 has been written, collected and rewritten twice: chunk 1 (block
sequence 0x1003, position 1) and chunk 2 (block sequence 0x1004, position 0)
both carry the tags of object 5, chunk 1; chunk 2 is the live one. -/
theorem log_ordering_witness :
    ((LogDev.format 2 3).run
        [.wr 5 1, .wr 5 0, .wr 6 1, .gc 1, .wr 5 1, .wr 5 1]).live_chunk 5 1 = some 2 ∧
    ((LogDev.format 2 3).run
        [.wr 5 1, .wr 5 0, .wr 6 1, .gc 1, .wr 5 1, .wr 5 1]).tnode_slot 5 1 ≠ some 1 :=
  ⟨by decide,
    (((log_ordering 2 3 (by decide) [.wr 5 1, .wr 5 0, .wr 6 1, .gc 1, .wr 5 1, .wr 5 1]
      _ rfl 1 2 ⟨5, 1, 0x1003⟩ ⟨5, 1, 0x1004⟩ (by decide) (by decide) rfl rfl
      (by decide)).2.2 (by decide)).2.2.1) 5 1 (by decide)⟩

/-! ## Checkpoint object flags -/

theorem checkpt_obj_bit_get_assign_same (bit_field offset length value : Nat)
    (h : offset + length ≤ 32) :
    checkpt_obj_bit_get (checkpt_obj_bit_assign bit_field (offset, length) value)
      (offset, length) = value % 2 ^ length := by
  unfold checkpt_obj_bit_get checkpt_obj_bit_assign
  have hm : ((2 ^ length - 1) <<< offset) % 2 ^ 32 < 2 ^ 32 := Nat.mod_lt _ (by norm_num)
  apply Nat.eq_of_testBit_eq
  intro i
  simp only [Nat.testBit_and, Nat.testBit_or, Nat.testBit_shiftRight, Nat.testBit_shiftLeft,
    Nat.testBit_mod_two_pow, Nat.testBit_two_pow_sub_one, Nat.testBit_two_pow_sub_succ hm,
    Nat.one_shiftLeft]
  by_cases hi : i < length
  · have h1 : offset + i < 32 := by omega
    have h2 : offset + i - offset = i := by omega
    simp [hi, h1, h2]
  · simp [hi]

theorem checkpt_obj_bit_get_assign_other (bit_field offset length value offset2 length2 : Nat)
    (hb : bit_field < 2 ^ 32)
    (hd : offset2 + length2 ≤ offset ∨ offset + length ≤ offset2) :
    checkpt_obj_bit_get (checkpt_obj_bit_assign bit_field (offset, length) value)
      (offset2, length2) = checkpt_obj_bit_get bit_field (offset2, length2) := by
  unfold checkpt_obj_bit_get checkpt_obj_bit_assign
  have hm : ((2 ^ length - 1) <<< offset) % 2 ^ 32 < 2 ^ 32 := Nat.mod_lt _ (by norm_num)
  apply Nat.eq_of_testBit_eq
  intro i
  simp only [Nat.testBit_and, Nat.testBit_or, Nat.testBit_shiftRight, Nat.testBit_shiftLeft,
    Nat.testBit_mod_two_pow, Nat.testBit_two_pow_sub_one, Nat.testBit_two_pow_sub_succ hm,
    Nat.one_shiftLeft]
  by_cases hi : i < length2
  · by_cases h32 : offset2 + i < 32
    · have hout : ¬ (offset2 + i ≥ offset ∧ offset2 + i - offset < length) := by omega
      by_cases h1 : offset2 + i ≥ offset
      · have h2 : ¬ offset2 + i - offset < length := fun h => hout ⟨h1, h⟩
        simp [hi, h32, h1, h2]
      · simp [hi, h32, h1]
    · have hz : bit_field.testBit (offset2 + i) = false :=
        Nat.testBit_lt_two_pow (lt_of_lt_of_le hb (Nat.pow_le_pow_right (by norm_num)
          (by omega)))
      simp [hi, h32, hz]
  · simp [hi]

/-- C21: the eight `(offset, length)` ranges of `yaffs_checkpt_obj.bit_field` are
`(0,3)`, `(3,1)`, `(4,1)`, `(5,1)`, `(6,1)`, `(7,1)`, `(8,1)`, `(9,8)`; each
starts where the one before it ends, so they are pairwise disjoint; their bits
are exactly the bits 0..16, each once, which fit the 32-bit word; and storing a
value into one range leaves the value read from any other range unchanged. -/
theorem checkpoint_flags_layout :
    checkpoint_bit_ranges
      = [(0, 3), (3, 1), (4, 1), (5, 1), (6, 1), (7, 1), (8, 1), (9, 8)] ∧
    rangesContiguous 0 checkpoint_bit_ranges = true ∧
    List.Pairwise (fun r s => r.1 + r.2 ≤ s.1) checkpoint_bit_ranges ∧
    (checkpoint_bit_ranges.map bitRange).flatten = List.range 17 ∧
    (∀ r ∈ checkpoint_bit_ranges, r.1 + r.2 ≤ checkpt_obj_bit_field_width) ∧
    (∀ r ∈ checkpoint_bit_ranges, ∀ s ∈ checkpoint_bit_ranges, r ≠ s →
      ∀ bit_field value, bit_field < 2 ^ checkpt_obj_bit_field_width →
        checkpt_obj_bit_get (checkpt_obj_bit_assign bit_field r value) s
          = checkpt_obj_bit_get bit_field s) := by
  refine ⟨by decide, by decide, by decide, by decide, by decide, ?_⟩
  have hdis : ∀ r ∈ checkpoint_bit_ranges, ∀ s ∈ checkpoint_bit_ranges, r ≠ s →
      (s.1 + s.2 ≤ r.1 ∨ r.1 + r.2 ≤ s.1) := by decide
  intro r hr s hs hne bit_field value hb
  exact checkpt_obj_bit_get_assign_other bit_field r.1 r.2 value s.1 s.2 hb (hdis r hr s hs hne)

/-- C29: every value of `enum yaffs_obj_type` is at most
`YAFFS_OBJECT_TYPE_MAX = 5` and below `2^3`, so it is read back unchanged from
the 3-bit range `CHECKPOINT_VARIANT_BITS` after being stored there; and every
value of the 8-bit `yaffs_obj.serial` is read back unchanged from the 8-bit range
`CHECKPOINT_SERIAL_BITS`. -/
theorem checkpoint_flag_fields_wide_enough :
    YAFFS_OBJECT_TYPE_MAX = 5 ∧
    CHECKPOINT_VARIANT_BITS.2 = 3 ∧
    CHECKPOINT_SERIAL_BITS.2 = yaffs_obj_serial_width ∧
    (∀ t : yaffs_obj_type, t.val ≤ YAFFS_OBJECT_TYPE_MAX ∧
      t.val < 2 ^ CHECKPOINT_VARIANT_BITS.2) ∧
    (∀ v, v ≤ YAFFS_OBJECT_TYPE_MAX → ∃ t : yaffs_obj_type, t.val = v) ∧
    (∀ (t : yaffs_obj_type) (bit_field : Nat),
      checkpt_obj_bit_get (checkpt_obj_bit_assign bit_field CHECKPOINT_VARIANT_BITS t.val)
        CHECKPOINT_VARIANT_BITS = t.val) ∧
    (∀ serial bit_field : Nat, serial < 2 ^ yaffs_obj_serial_width →
      checkpt_obj_bit_get (checkpt_obj_bit_assign bit_field CHECKPOINT_SERIAL_BITS serial)
        CHECKPOINT_SERIAL_BITS = serial) := by
  have hval : ∀ t : yaffs_obj_type, t.val < 2 ^ 3 := by
    intro t
    cases t <;> decide
  refine ⟨by decide, rfl, rfl, ?_, ?_, ?_, ?_⟩
  · intro t
    cases t <;> decide
  · intro v hv
    have h5 : v ≤ 5 := hv
    interval_cases v
    · exact ⟨.YAFFS_OBJECT_TYPE_UNKNOWN, by decide⟩
    · exact ⟨.YAFFS_OBJECT_TYPE_FILE, by decide⟩
    · exact ⟨.YAFFS_OBJECT_TYPE_SYMLINK, by decide⟩
    · exact ⟨.YAFFS_OBJECT_TYPE_DIRECTORY, by decide⟩
    · exact ⟨.YAFFS_OBJECT_TYPE_HARDLINK, by decide⟩
    · exact ⟨.YAFFS_OBJECT_TYPE_SPECIAL, by decide⟩
  · intro t bit_field
    have h := checkpt_obj_bit_get_assign_same bit_field 0 3 t.val (by norm_num)
    rw [Nat.mod_eq_of_lt (hval t)] at h
    exact h
  · intro serial bit_field hs
    have h := checkpt_obj_bit_get_assign_same bit_field 9 8 serial (by norm_num)
    have hs8 : serial < 2 ^ 8 := hs
    rw [Nat.mod_eq_of_lt hs8] at h
    exact h

/-! ## Signed page counters -/

/-- C23 as stated fails: a count of 1024, which is "512 or more", stored into a
signed 10-bit field reads back as 0, not as a negative number. -/
theorem page_counter_1024_reads_zero :
    (512 : Int) ≤ 1024 ∧ store_s10 1024 = 0 ∧ ¬ store_s10 1024 < 0 := by
  refine ⟨by norm_num, by decide, by decide⟩

/-- C23, amended: `pages_in_use` and `soft_del_pages` are signed 10-bit
bit-fields; a value `v` stored into such a field reads back as `v` reduced
modulo `2^10` and sign-extended, which equals `v` exactly when
`-512 ≤ v ≤ 511`; a count `v` with `512 ≤ v ≤ 1023` reads back as the negative
number `v - 1024`; so a non-negative count is represented exactly when it is at
most 511. -/
theorem signed_page_counters :
    (bitfieldWidth yaffs_block_info_bitfields "pages_in_use" = 10 ∧
      bitfieldSigned yaffs_block_info_bitfields "pages_in_use" = true ∧
      bitfieldWidth yaffs_block_info_bitfields "soft_del_pages" = 10 ∧
      bitfieldSigned yaffs_block_info_bitfields "soft_del_pages" = true) ∧
    (∀ v : Int, store_s10 v = (v + 2 ^ 9) % 2 ^ 10 - 2 ^ 9 ∧
      -512 ≤ store_s10 v ∧ store_s10 v ≤ 511 ∧ (store_s10 v - v) % 2 ^ 10 = 0) ∧
    (∀ v : Int, store_s10 v = v ↔ -512 ≤ v ∧ v ≤ 511) ∧
    (∀ v : Int, 512 ≤ v → v ≤ 1023 → store_s10 v = v - 1024 ∧ store_s10 v < 0) ∧
    (∀ v : Int, 0 ≤ v → (store_s10 v = v ↔ v ≤ 511)) ∧
    store_s10 512 = -512 := by
  refine ⟨⟨by decide, by decide, by decide, by decide⟩, ?_, ?_, ?_, ?_, by decide⟩
  · intro v
    unfold store_s10
    omega
  · intro v
    unfold store_s10
    omega
  · intro v h0 h1
    unfold store_s10
    omega
  · intro v h0
    unfold store_s10
    omega

/-! ## Object header size -/

/-- C24: with a one-byte `YCHAR` (`name[256]`, `alias[160]`) and every member
aligned to the size of its element type, `name` starts at offset 10 and ends at
266, two bytes of padding precede `yst_mode` at 268, these are the only padding
bytes, `is_shrink` is at offset 508, and `struct yaffs_obj_hdr` is 512 bytes,
which is `YAFFS_BYTES_PER_CHUNK`. -/
theorem obj_hdr_is_512_bytes :
    (YAFFS_MAX_NAME_LENGTH + 1 = 256 ∧ YAFFS_MAX_ALIAS_LENGTH + 1 = 160) ∧
    offsetOf yaffs_obj_hdr_members "name" = some 10 ∧
    offsetOf yaffs_obj_hdr_members "yst_mode" = some 268 ∧
    268 - (10 + 1 * (YAFFS_MAX_NAME_LENGTH + 1)) = 2 ∧
    membersBytes yaffs_obj_hdr_members + 2 = sizeof_yaffs_obj_hdr ∧
    membersAlign yaffs_obj_hdr_members = 4 ∧
    offsetOf yaffs_obj_hdr_members "is_shrink" = some 508 ∧
    sizeof_yaffs_obj_hdr = 512 ∧
    sizeof_yaffs_obj_hdr = YAFFS_BYTES_PER_CHUNK := by
  refine ⟨⟨by decide, by decide⟩, by decide, by decide, by decide, by decide, by decide,
    by decide, by decide, by decide⟩

/-! ## Object ids and the YAFFS1 tag field -/

/-- C25: `YAFFS_MAX_OBJECT_ID = YAFFS_OBJECT_SPACE - 1 = 0x3FFFF` is the largest
value, `2^18 - 1`, of the 18-bit field `obj_id` of `struct yaffs_tags`; so every
object id up to `YAFFS_MAX_OBJECT_ID` is stored in the field without truncation,
and every value read from the field is 0 or an id in
`[1, YAFFS_MAX_OBJECT_ID]`. -/
theorem object_id_fits_tag_field :
    YAFFS_MAX_OBJECT_ID = YAFFS_OBJECT_SPACE - 1 ∧
    YAFFS_MAX_OBJECT_ID = 0x3FFFF ∧
    bitfieldWidth yaffs_tags_bitfields "obj_id" = 18 ∧
    bitfieldSigned yaffs_tags_bitfields "obj_id" = false ∧
    YAFFS_MAX_OBJECT_ID = 2 ^ bitfieldWidth yaffs_tags_bitfields "obj_id" - 1 ∧
    (∀ id, id ≤ YAFFS_MAX_OBJECT_ID →
      store_unsigned_bitfield (bitfieldWidth yaffs_tags_bitfields "obj_id") id = id) ∧
    (∀ v, store_unsigned_bitfield (bitfieldWidth yaffs_tags_bitfields "obj_id") v = 0 ∨
      (1 ≤ store_unsigned_bitfield (bitfieldWidth yaffs_tags_bitfields "obj_id") v ∧
        store_unsigned_bitfield (bitfieldWidth yaffs_tags_bitfields "obj_id") v
          ≤ YAFFS_MAX_OBJECT_ID)) := by
  have hw : bitfieldWidth yaffs_tags_bitfields "obj_id" = 18 := by decide
  have hm : YAFFS_MAX_OBJECT_ID = 0x3FFFF := by decide
  refine ⟨rfl, hm, hw, by decide, by rw [hw, hm]; norm_num, ?_, ?_⟩
  · intro id hid
    rw [hw]
    rw [hm] at hid
    unfold store_unsigned_bitfield
    omega
  · intro v
    rw [hw, hm]
    unfold store_unsigned_bitfield
    omega

/-! ## Tnode index decomposition -/

theorem and_level0_mask (x : Nat) : x &&& YAFFS_TNODES_LEVEL0_MASK = x % 16 :=
  Nat.and_pow_two_sub_one_eq_mod x 4

theorem and_internal_mask (x : Nat) : x &&& YAFFS_TNODES_INTERNAL_MASK = x % 8 :=
  Nat.and_pow_two_sub_one_eq_mod x 3

theorem tnode_slot_sum (c : Nat) :
    (c &&& YAFFS_TNODES_LEVEL0_MASK) +
      ((List.range YAFFS_TNODES_MAX_LEVEL).map (fun k =>
        ((c >>> (YAFFS_TNODES_LEVEL0_BITS + k * YAFFS_TNODES_INTERNAL_BITS))
          &&& YAFFS_TNODES_INTERNAL_MASK)
          <<< (YAFFS_TNODES_LEVEL0_BITS + k * YAFFS_TNODES_INTERNAL_BITS))).sum
      = c % 2 ^ 28 := by
  have hr : List.range YAFFS_TNODES_MAX_LEVEL = [0, 1, 2, 3, 4, 5, 6, 7] := by decide
  have hb0 : YAFFS_TNODES_LEVEL0_BITS = 4 := rfl
  have hb1 : YAFFS_TNODES_INTERNAL_BITS = 3 := rfl
  rw [hr, hb0, hb1]
  simp only [List.map_cons, List.map_nil, List.sum_cons, List.sum_nil, and_level0_mask,
    and_internal_mask, Nat.shiftRight_eq_div_pow, Nat.shiftLeft_eq]
  norm_num
  omega

/-- C27: for every chunk id `c ≤ YAFFS_MAX_CHUNK_ID`, the level-0 slot index
`c & YAFFS_TNODES_LEVEL0_MASK` is below `YAFFS_NTNODES_LEVEL0`, each internal
slot index `(c >> (YAFFS_TNODES_LEVEL0_BITS + (l-1) * YAFFS_TNODES_INTERNAL_BITS))
& YAFFS_TNODES_INTERNAL_MASK`, `l = 1 .. YAFFS_TNODES_MAX_LEVEL`, is below
`YAFFS_NTNODES_INTERNAL`; these are the indices `tnode_index0` and `tnode_index`
used by the tree; `c` is the level-0 index plus the sum of the internal indices
shifted back to their positions; and a chunk id with the same indices is `c`. -/
theorem tnode_index_decomposition (c : Nat) (hc : c ≤ YAFFS_MAX_CHUNK_ID) :
    c &&& YAFFS_TNODES_LEVEL0_MASK < YAFFS_NTNODES_LEVEL0 ∧
    (tnode_index0 c).val = c &&& YAFFS_TNODES_LEVEL0_MASK ∧
    (∀ l, 1 ≤ l → l ≤ YAFFS_TNODES_MAX_LEVEL →
      (c >>> (YAFFS_TNODES_LEVEL0_BITS + (l - 1) * YAFFS_TNODES_INTERNAL_BITS))
          &&& YAFFS_TNODES_INTERNAL_MASK < YAFFS_NTNODES_INTERNAL ∧
      (tnode_index l c).val =
        (c >>> (YAFFS_TNODES_LEVEL0_BITS + (l - 1) * YAFFS_TNODES_INTERNAL_BITS))
          &&& YAFFS_TNODES_INTERNAL_MASK) ∧
    c = (c &&& YAFFS_TNODES_LEVEL0_MASK) +
      ((List.range YAFFS_TNODES_MAX_LEVEL).map (fun k =>
        ((c >>> (YAFFS_TNODES_LEVEL0_BITS + k * YAFFS_TNODES_INTERNAL_BITS))
          &&& YAFFS_TNODES_INTERNAL_MASK)
          <<< (YAFFS_TNODES_LEVEL0_BITS + k * YAFFS_TNODES_INTERNAL_BITS))).sum ∧
    (∀ c2, c2 ≤ YAFFS_MAX_CHUNK_ID → tnode_index0 c2 = tnode_index0 c →
      (∀ l, 1 ≤ l → l ≤ YAFFS_TNODES_MAX_LEVEL → tnode_index l c2 = tnode_index l c) →
      c2 = c) := by
  have hmax : YAFFS_MAX_CHUNK_ID = 2 ^ 28 - 1 := by decide
  have hlt : ∀ x, x ≤ YAFFS_MAX_CHUNK_ID → x % 2 ^ 28 = x := by
    intro x hx
    rw [hmax] at hx
    exact Nat.mod_eq_of_lt (by omega)
  refine ⟨?_, rfl, ?_, ?_, ?_⟩
  · rw [and_level0_mask]
    show c % 16 < 16
    omega
  · intro l _ _
    refine ⟨?_, rfl⟩
    rw [and_internal_mask]
    show _ % 8 < 8
    omega
  · rw [tnode_slot_sum, hlt c hc]
  · intro c2 hc2 h0 hl
    have e0 : c2 &&& YAFFS_TNODES_LEVEL0_MASK = c &&& YAFFS_TNODES_LEVEL0_MASK :=
      congrArg Fin.val h0
    have el : ∀ k, k ∈ List.range YAFFS_TNODES_MAX_LEVEL →
        (fun k => ((c2 >>> (YAFFS_TNODES_LEVEL0_BITS + k * YAFFS_TNODES_INTERNAL_BITS))
          &&& YAFFS_TNODES_INTERNAL_MASK)
          <<< (YAFFS_TNODES_LEVEL0_BITS + k * YAFFS_TNODES_INTERNAL_BITS)) k =
        (fun k => ((c >>> (YAFFS_TNODES_LEVEL0_BITS + k * YAFFS_TNODES_INTERNAL_BITS))
          &&& YAFFS_TNODES_INTERNAL_MASK)
          <<< (YAFFS_TNODES_LEVEL0_BITS + k * YAFFS_TNODES_INTERNAL_BITS)) k := by
      intro k hk
      have hk8 : k < YAFFS_TNODES_MAX_LEVEL := List.mem_range.1 hk
      have e := congrArg Fin.val (hl (k + 1) (by omega) (by omega))
      have e2 : (c2 >>> (YAFFS_TNODES_LEVEL0_BITS + k * YAFFS_TNODES_INTERNAL_BITS))
          &&& YAFFS_TNODES_INTERNAL_MASK =
          (c >>> (YAFFS_TNODES_LEVEL0_BITS + k * YAFFS_TNODES_INTERNAL_BITS))
          &&& YAFFS_TNODES_INTERNAL_MASK := e
      show _ <<< _ = _ <<< _
      rw [e2]
    rw [← hlt c2 hc2, ← hlt c hc, ← tnode_slot_sum c2, ← tnode_slot_sum c, e0,
      List.map_congr_left el]

/-- Instance of C27 at chunk id `0x89ABCDE`: level-0 index `0xE`, internal
indices 5, 1, 7, 5, 2, 3, 2, 4 for levels 1 to 8. -/
theorem tnode_index_decomposition_witness :
    (0x89ABCDE : Nat) ≤ YAFFS_MAX_CHUNK_ID ∧
    (0x89ABCDE : Nat) = (0x89ABCDE &&& YAFFS_TNODES_LEVEL0_MASK) +
      ((List.range YAFFS_TNODES_MAX_LEVEL).map (fun k =>
        ((0x89ABCDE >>> (YAFFS_TNODES_LEVEL0_BITS + k * YAFFS_TNODES_INTERNAL_BITS))
          &&& YAFFS_TNODES_INTERNAL_MASK)
          <<< (YAFFS_TNODES_LEVEL0_BITS + k * YAFFS_TNODES_INTERNAL_BITS))).sum ∧
    (tnode_index0 0x89ABCDE).val = 0xE ∧
    (List.range 8).map (fun k => (tnode_index (k + 1) 0x89ABCDE).val)
      = [5, 1, 7, 5, 2, 3, 2, 4] :=
  ⟨by decide, (tnode_index_decomposition 0x89ABCDE (by decide)).2.2.2.1, by decide, by decide⟩

/-! ## File-size halves -/

theorem FSIZE_COMBINE_low_any (h : Nat) (low : Int) (hh : h < 2 ^ 32) :
    FSIZE_COMBINE h low = ofBits64 (2 ^ 32 * h + toBits64 low % 2 ^ 32) := by
  have bh : toBits64 (h : Int) = h := by
    have := toBits64_of_nonneg (h : Int) (by omega) (by omega)
    omega
  have ch : toBits64 (castLoff (h : Int)) = h := by
    unfold castLoff
    rw [bh, toBits64_ofBits64 h (by omega)]
  have cl : toBits64 (castLoff low) = toBits64 low := by
    unfold castLoff
    rw [toBits64_ofBits64 _ (toBits64_lt low)]
  have hl : toBits64 low % 2 ^ 32 < 2 ^ 32 := Nat.mod_lt _ (by norm_num)
  have bl : toBits64 ((toBits64 low % 2 ^ 32 : Nat) : Int) = toBits64 low % 2 ^ 32 := by
    have := toBits64_of_nonneg ((toBits64 low % 2 ^ 32 : Nat) : Int) (by omega) (by omega)
    omega
  unfold FSIZE_COMBINE
  rw [loffAnd_mask32, cl]
  unfold loffOr loffShl
  rw [ch, bl, Nat.shiftLeft_eq, toBits64_ofBits64 _ (by omega), Nat.mul_comm h,
    Nat.mul_add_lt_is_or hl]

theorem FSIZE_halves_of_bits (h l : Nat) (hh : h < 2 ^ 32) (hl : l < 2 ^ 32) :
    FSIZE_HIGH (ofBits64 (2 ^ 32 * h + l)) = h ∧ FSIZE_LOW (ofBits64 (2 ^ 32 * h + l)) = l := by
  rw [FSIZE_HIGH_eq_div_mod, FSIZE_LOW_eq_mod]
  have e : ofBits64 (2 ^ 32 * h + l) =
      if 2 ^ 32 * h + l < 2 ^ 63 then ((2 ^ 32 * h + l : Nat) : Int)
      else ((2 ^ 32 * h + l : Nat) : Int) - 2 ^ 64 := by
    unfold ofBits64
    rw [Nat.mod_eq_of_lt (by omega)]
  rw [e]
  split <;> constructor <;> omega

/-- C28: in the 64-bit configuration, for all `h`, `l` with `0 ≤ h, l < 2^32`,
`FSIZE_HIGH (FSIZE_COMBINE h l) = h` and `FSIZE_LOW (FSIZE_COMBINE h l) = l`
(the shift of `h` wraps modulo `2^64`); and because `FSIZE_COMBINE` masks its
low operand to 32 bits, for any low operand, negative (sign-extended) ones
included, the high half of the result is still `h` and the low half is the low
operand modulo `2^32`. -/
theorem fsize_halves_recombine (h l : Nat) (hh : h < 2 ^ 32) (hl : l < 2 ^ 32) :
    FSIZE_HIGH (FSIZE_COMBINE h l) = h ∧
    FSIZE_LOW (FSIZE_COMBINE h l) = l ∧
    (∀ low : Int, FSIZE_HIGH (FSIZE_COMBINE h low) = h ∧
      FSIZE_LOW (FSIZE_COMBINE h low) = low % 2 ^ 32) := by
  have h1 := FSIZE_halves_of_bits h l hh hl
  rw [← FSIZE_COMBINE_eq h l hh hl] at h1
  refine ⟨h1.1, h1.2, ?_⟩
  intro low
  have hl2 : toBits64 low % 2 ^ 32 < 2 ^ 32 := Nat.mod_lt _ (by norm_num)
  have h2 := FSIZE_halves_of_bits h (toBits64 low % 2 ^ 32) hh hl2
  rw [← FSIZE_COMBINE_low_any h low hh] at h2
  refine ⟨h2.1, ?_⟩
  rw [h2.2]
  have hc := toBits64_cast low
  omega

/-- Instance of C28 with the high half `0x80000001` (the combined value is
negative) and the low half `0xFFFFFFFF`, and with the sign-extended low word
`-1`. -/
theorem fsize_halves_recombine_witness :
    FSIZE_HIGH (FSIZE_COMBINE (0x80000001 : Nat) (0xFFFFFFFF : Nat)) = (0x80000001 : Nat) ∧
    FSIZE_LOW (FSIZE_COMBINE (0x80000001 : Nat) (0xFFFFFFFF : Nat)) = (0xFFFFFFFF : Nat) ∧
    FSIZE_HIGH (FSIZE_COMBINE (0x80000001 : Nat) (-1)) = (0x80000001 : Nat) :=
  have w := fsize_halves_recombine 0x80000001 0xFFFFFFFF (by norm_num) (by norm_num)
  ⟨w.1, w.2.1, (w.2.2 (-1)).1⟩

/-! ## The allocating block -/

theorem LogDev.format_one_alloc (chunks_per_block n_blocks : Nat) :
    (LogDev.format chunks_per_block n_blocks).OneAlloc := by
  intro b hb
  cases hb

theorem LogDev.cur_block_one_alloc (dev : LogDev) (h : dev.OneAlloc) (b : Nat) (d : LogDev)
    (hc : dev.cur_block = some (b, d)) : d.OneAlloc ∧ d.alloc_block = some b := by
  unfold LogDev.cur_block at hc
  split at hc
  · next b0 hb0 =>
    cases hc
    exact ⟨h, hb0⟩
  · next hnone =>
    split at hc
    · split at hc
      · next b1 _ =>
        cases hc
        refine ⟨?_, rfl⟩
        intro x hx
        have hx2 : Function.update dev.block_state b .YAFFS_BLOCK_STATE_ALLOCATING x
            = .YAFFS_BLOCK_STATE_ALLOCATING := hx
        by_cases hxb : x = b
        · rw [hxb]
        · rw [Function.update_noteq hxb] at hx2
          have := h x hx2
          rw [hnone] at this
          cases this
      · cases hc
    · cases hc

theorem LogDev.program_one_alloc (dev : LogDev) (h : dev.OneAlloc) (b : Nat)
    (hb : dev.alloc_block = some b) (o i : Nat) : (dev.program b o i).OneAlloc := by
  have e_state : (dev.program b o i).block_state
      = if decide (dev.chunks_per_block ≤ dev.alloc_page + 1) = true
        then Function.update dev.block_state b .YAFFS_BLOCK_STATE_FULL
        else dev.block_state := rfl
  have e_alloc : (dev.program b o i).alloc_block
      = if decide (dev.chunks_per_block ≤ dev.alloc_page + 1) = true then none
        else some b := rfl
  intro x hx
  rw [e_state] at hx
  rw [e_alloc]
  split at hx
  · by_cases hxb : x = b
    · rw [hxb, Function.update_same] at hx
      cases hx
    · rw [Function.update_noteq hxb] at hx
      have := h x hx
      rw [hb] at this
      cases this
      exact absurd rfl hxb
  · next hnf =>
    rw [if_neg hnf, ← hb]
    exact h x hx

theorem LogDev.wr_chunk_one_alloc (dev : LogDev) (h : dev.OneAlloc) (o i : Nat) :
    (dev.wr_chunk o i).OneAlloc := by
  unfold LogDev.wr_chunk
  split
  · next b d hc =>
    obtain ⟨hd, hb⟩ := dev.cur_block_one_alloc h b d hc
    exact d.program_one_alloc hd b hb o i
  · exact h

theorem LogDev.del_chunk_one_alloc (dev : LogDev) (h : dev.OneAlloc) (o i : Nat) :
    (dev.del_chunk o i).OneAlloc := fun b hb => h b hb

theorem LogDev.gc_chunk_one_alloc (dev : LogDev) (h : dev.OneAlloc) (c : Nat) :
    (dev.gc_chunk c).OneAlloc := by
  unfold LogDev.gc_chunk
  split
  · split
    · split
      · exact dev.wr_chunk_one_alloc h _ _
      · exact fun b hb => h b hb
    · exact fun b hb => h b hb
  · exact h

theorem LogDev.erase_block_one_alloc (dev : LogDev) (h : dev.OneAlloc) (b : Nat) :
    (dev.erase_block b).OneAlloc := by
  intro x hx
  have hx2 : Function.update dev.block_state b .YAFFS_BLOCK_STATE_EMPTY x
      = .YAFFS_BLOCK_STATE_ALLOCATING := hx
  by_cases hxb : x = b
  · rw [hxb, Function.update_same] at hx2
    cases hx2
  · rw [Function.update_noteq hxb] at hx2
    exact h x hx2

theorem LogDev.gc_chunks_one_alloc (f : Nat → Nat) (pages : List Nat) (dev : LogDev)
    (h : dev.OneAlloc) : (pages.foldl (fun d p => d.gc_chunk (f p)) dev).OneAlloc := by
  induction pages generalizing dev with
  | nil => exact h
  | cons p rest ih => exact ih _ (dev.gc_chunk_one_alloc h (f p))

theorem LogDev.yaffs_gc_block_one_alloc (dev : LogDev) (h : dev.OneAlloc) (b : Nat) :
    (dev.yaffs_gc_block b).OneAlloc := by
  unfold LogDev.yaffs_gc_block
  have hd := LogDev.gc_chunks_one_alloc (fun p => b * dev.chunks_per_block + p)
    (List.range dev.chunks_per_block) dev h
  split
  · dsimp only
    split
    · exact LogDev.erase_block_one_alloc _ hd b
    · exact hd
  · exact h

theorem LogDev.step_one_alloc (dev : LogDev) (h : dev.OneAlloc) (op : LogOp) :
    (dev.step op).OneAlloc := by
  cases op with
  | wr o i => exact dev.wr_chunk_one_alloc h o i
  | del o i => exact dev.del_chunk_one_alloc h o i
  | gc b => exact dev.yaffs_gc_block_one_alloc h b

theorem LogDev.run_one_alloc (ops : List LogOp) (dev : LogDev) (h : dev.OneAlloc) :
    (dev.run ops).OneAlloc := by
  induction ops generalizing dev with
  | nil => exact h
  | cons op rest ih => exact ih _ (dev.step_one_alloc h op)

/-- C22: on a device reached from a formatted one by any sequence of chunk
writes, chunk deletions and block collections, every block whose `block_state`
is `YAFFS_BLOCK_STATE_ALLOCATING` is the block indexed by `alloc_block`, so at
most one block is in that state; and (for a geometry with at least one chunk
per block) the block indexed by `alloc_block`, when there is one, is in state
`YAFFS_BLOCK_STATE_ALLOCATING`. -/
theorem at_most_one_allocating_block (chunks_per_block n_blocks : Nat) (ops : List LogOp)
    (dev : LogDev) (hdev : dev = (LogDev.format chunks_per_block n_blocks).run ops) :
    (∀ b, dev.block_state b = .YAFFS_BLOCK_STATE_ALLOCATING → dev.alloc_block = some b) ∧
    (∀ b1 b2, dev.block_state b1 = .YAFFS_BLOCK_STATE_ALLOCATING →
      dev.block_state b2 = .YAFFS_BLOCK_STATE_ALLOCATING → b1 = b2) ∧
    (0 < chunks_per_block → ∀ b, dev.alloc_block = some b →
      dev.block_state b = .YAFFS_BLOCK_STATE_ALLOCATING) := by
  have h : dev.OneAlloc := by
    rw [hdev]
    exact LogDev.run_one_alloc ops _ (LogDev.format_one_alloc chunks_per_block n_blocks)
  refine ⟨h, ?_, ?_⟩
  · intro b1 b2 h1 h2
    have e1 := h b1 h1
    have e2 := h b2 h2
    rw [e1] at e2
    cases e2
    rfl
  · intro hcpb b hb
    have hinv : dev.Inv := by
      rw [hdev]
      exact LogDev.run_inv ops _ (LogDev.log_format_inv chunks_per_block n_blocks hcpb)
    exact (hinv.cursor b hb).1

/-- Instance of C22 on a device of three blocks of two chunks after three chunk
writes: block 1 is full, block 2 is the allocating block, and it is the only
block in state `YAFFS_BLOCK_STATE_ALLOCATING`. -/
theorem at_most_one_allocating_block_witness :
    ((LogDev.format 2 3).run [.wr 5 1, .wr 5 1, .wr 5 1]).block_state 2
      = .YAFFS_BLOCK_STATE_ALLOCATING ∧
    ((LogDev.format 2 3).run [.wr 5 1, .wr 5 1, .wr 5 1]).block_state 1
      = .YAFFS_BLOCK_STATE_FULL ∧
    ((LogDev.format 2 3).run [.wr 5 1, .wr 5 1, .wr 5 1]).alloc_block = some 2 :=
  ⟨by decide, by decide,
    (at_most_one_allocating_block 2 3 [.wr 5 1, .wr 5 1, .wr 5 1] _ rfl).1 2 (by decide)⟩

end Yaffs

/-! # Root interrupt handlers: properties -/

namespace Irq

theorem set_handle_irq_busy (s : IrqState) (handler : Handler)
    (h : s.handle_arch_irq ≠ .default_handle_irq) : set_handle_irq s handler = (-EBUSY, s) := by
  unfold set_handle_irq
  rw [if_pos h]

theorem IrqState.call_keeps_irq (s : IrqState) (c : SetCall)
    (h : s.handle_arch_irq ≠ .default_handle_irq) :
    (s.call c).handle_arch_irq = s.handle_arch_irq := by
  cases c with
  | irq handler =>
    show (set_handle_irq s handler).2.handle_arch_irq = _
    rw [set_handle_irq_busy s handler h]
  | fiq handler =>
    show (set_handle_fiq s handler).2.handle_arch_irq = _
    unfold set_handle_fiq
    split <;> rfl

theorem IrqState.calls_keep_irq (cs : List SetCall) (s : IrqState)
    (h : s.handle_arch_irq ≠ .default_handle_irq) :
    (s.calls cs).handle_arch_irq = s.handle_arch_irq := by
  induction cs generalizing s with
  | nil => rfl
  | cons c rest ih =>
    have e := s.call_keeps_irq c h
    show ((s.call c).calls rest).handle_arch_irq = _
    rw [ih (s.call c) (by rw [e]; exact h), e]

/-- C26: in a state where `handle_arch_irq` is not `default_handle_irq`,
`set_handle_irq(h)` returns `-EBUSY` (which is not 0) and changes nothing; in a
state where it is `default_handle_irq`, the call stores `h` into
`handle_arch_irq`, leaves `handle_arch_fiq` unchanged and returns 0; so after
one successful call with `h ≠ default_handle_irq`, whatever calls of
`set_handle_irq` and `set_handle_fiq` follow, `handle_arch_irq` is still `h` and
a call of `set_handle_irq` returns `-EBUSY`. -/
theorem set_handle_irq_set_once (s : IrqState) (h : Handler) :
    (s.handle_arch_irq ≠ .default_handle_irq → set_handle_irq s h = (-EBUSY, s)) ∧
    -EBUSY ≠ 0 ∧
    (s.handle_arch_irq = .default_handle_irq →
      (set_handle_irq s h).1 = 0 ∧
      (set_handle_irq s h).2.handle_arch_irq = h ∧
      (set_handle_irq s h).2.handle_arch_fiq = s.handle_arch_fiq) ∧
    (s.handle_arch_irq = .default_handle_irq → h ≠ .default_handle_irq →
      ∀ (later : List SetCall) (h2 : Handler),
        ((set_handle_irq s h).2.calls later).handle_arch_irq = h ∧
        set_handle_irq ((set_handle_irq s h).2.calls later) h2
          = (-EBUSY, (set_handle_irq s h).2.calls later)) := by
  have hok : s.handle_arch_irq = .default_handle_irq →
      (set_handle_irq s h).1 = 0 ∧
      (set_handle_irq s h).2.handle_arch_irq = h ∧
      (set_handle_irq s h).2.handle_arch_fiq = s.handle_arch_fiq := by
    intro hd
    unfold set_handle_irq
    rw [if_neg (by rw [hd]; exact fun hne => hne rfl)]
    exact ⟨rfl, rfl, rfl⟩
  refine ⟨set_handle_irq_busy s h, by decide, hok, ?_⟩
  intro hd hne later h2
  have h1 := (hok hd).2.1
  have hkeep := IrqState.calls_keep_irq later (set_handle_irq s h).2 (by rw [h1]; exact hne)
  refine ⟨hkeep.trans h1, ?_⟩
  exact set_handle_irq_busy _ h2 (by rw [hkeep, h1]; exact hne)

/-- Instance of C26 from the boot state: the first call installs the handler at
address 1; a later call, after a call of `set_handle_fiq`, returns `-EBUSY` and
the installed handler stays. -/
theorem set_handle_irq_set_once_witness :
    (set_handle_irq IrqState.boot (.other 1)).1 = 0 ∧
    (set_handle_irq (((set_handle_irq IrqState.boot (.other 1)).2).calls [.fiq (.other 7)])
      (.other 2)).1 = -EBUSY ∧
    (((set_handle_irq IrqState.boot (.other 1)).2).calls
      [.fiq (.other 7), .irq (.other 2)]).handle_arch_irq = .other 1 :=
  have w := set_handle_irq_set_once IrqState.boot (.other 1)
  ⟨(w.2.2.1 rfl).1,
    congrArg Prod.fst ((w.2.2.2 rfl (by decide) [.fiq (.other 7)] (.other 2)).2),
    (w.2.2.2 rfl (by decide) [.fiq (.other 7), .irq (.other 2)] (.other 2)).1⟩

end Irq

/-! # IP header macros: properties -/

namespace Ip

/-- C30: the masks `IPOPT_COPY` (0x80), `IPOPT_CLASS_MASK` (0x60) and
`IPOPT_NUMBER_MASK` (0x1f) are pairwise disjoint and together are `0xff`, so for
every octet `o`, `IPOPT_COPIED(o) | IPOPT_CLASS(o) | IPOPT_NUMBER(o) = o`; and
`IPTOS_TOS_MASK` (0x1E) and `IPTOS_PREC_MASK` (0xE0) are disjoint, so
`IPTOS_TOS(t) & IPTOS_PREC(t) = 0` for every `t`. -/
theorem ip_option_octet_partition :
    (IPOPT_COPY = 0x80 ∧ IPOPT_CLASS_MASK = 0x60 ∧ IPOPT_NUMBER_MASK = 0x1f) ∧
    (IPOPT_COPY &&& IPOPT_CLASS_MASK = 0 ∧ IPOPT_COPY &&& IPOPT_NUMBER_MASK = 0 ∧
      IPOPT_CLASS_MASK &&& IPOPT_NUMBER_MASK = 0) ∧
    IPOPT_COPY ||| IPOPT_CLASS_MASK ||| IPOPT_NUMBER_MASK = 0xff ∧
    (∀ o, o < 2 ^ 8 → IPOPT_COPIED o ||| IPOPT_CLASS o ||| IPOPT_NUMBER o = o) ∧
    (IPTOS_TOS_MASK = 0x1E ∧ IPTOS_PREC_MASK = 0xE0) ∧
    IPTOS_TOS_MASK &&& IPTOS_PREC_MASK = 0 ∧
    (∀ t, IPTOS_TOS t &&& IPTOS_PREC t = 0) := by
  refine ⟨⟨rfl, rfl, rfl⟩, ⟨by decide, by decide, by decide⟩, by decide, ?_,
    ⟨rfl, rfl⟩, by decide, ?_⟩
  · intro o ho
    unfold IPOPT_COPIED IPOPT_CLASS IPOPT_NUMBER
    rw [← Nat.and_or_distrib_left, ← Nat.and_or_distrib_left]
    have hm : IPOPT_COPY ||| IPOPT_CLASS_MASK ||| IPOPT_NUMBER_MASK = 2 ^ 8 - 1 := by decide
    rw [hm, Nat.and_pow_two_sub_one_eq_mod]
    exact Nat.mod_eq_of_lt ho
  · intro t
    unfold IPTOS_TOS IPTOS_PREC
    apply Nat.eq_of_testBit_eq
    intro i
    have hz : (IPTOS_TOS_MASK &&& IPTOS_PREC_MASK).testBit i = false := by
      have : IPTOS_TOS_MASK &&& IPTOS_PREC_MASK = 0 := by decide
      rw [this]
      exact Nat.zero_testBit i
    rw [Nat.testBit_and] at hz
    simp only [Nat.testBit_and, Nat.zero_testBit]
    cases h1 : IPTOS_TOS_MASK.testBit i <;> cases h2 : IPTOS_PREC_MASK.testBit i <;>
      simp_all

end Ip
